import Mathlib

/-!
# Buddy allocator (`src/include/buddy_allocator.hpp`)

A shallow embedding of `class BuddyAllocator` and a verification of its
specification.

Modelling conventions.

* A pointer into the managed region is represented by its byte offset from
  `m_memory` (so `m_memory` itself is offset `0`); `nullptr` is `none`.
* The region's bytes are only ever accessed through `Header` reads and writes,
  so the region is modelled as a map `mem` from the offset of a block to the
  `Header` stored in its first bytes.
* The fixed-size arrays `m_blockInfo`, `m_freeLists`, `m_levelSize` and
  `m_levelStartIndex` are modelled as total maps on `Nat`; their declared
  capacities are the constants `MAX_NUMBER_OF_BLOCKS` and `MAX_LEVELS + 1`.
  An access of `m_blockInfo` at an index of `MAX_NUMBER_OF_BLOCKS` or more is
  undefined behaviour in the program; the model agrees with the program up to
  the first such access and says nothing about the program after it.  With a
  region of at most 256 bytes no such access occurs (`Geom.tree_fits`), so
  the general theorems about reachable states are stated for these regions;
  a region of 512 bytes, which the constructor accepts as well, is treated in
  the last section.
* `uint64_t` arithmetic is arithmetic on `Nat`; where a subtraction may wrap,
  the result is reduced modulo `2 ^ 64` explicitly.
* `while` loops are structural recursions on the quantity that bounds them.
-/

set_option autoImplicit false

namespace BuddyAllocator

/-! ## Constants (lines 28-31) -/

def MAX_LEVELS : Nat := 5
def MIN_BLOCK_SIZE : Nat := 16
def MAX_MEMORY_SIZE : Nat := 2 ^ MAX_LEVELS * MIN_BLOCK_SIZE
def MAX_NUMBER_OF_BLOCKS : Nat := 2 ^ MAX_LEVELS - 1

/-- Modulus of `uint64_t` arithmetic. -/
def U64 : Nat := 2 ^ 64

/-! ## Data model (lines 39-71) -/

/-- The `struct Header` kept in the first bytes of a free block. -/
structure Header where
  prev : Option Nat
  next : Option Nat
  deriving DecidableEq, Repr

/-- The `enum BlockStatus`. -/
inductive BlockStatus where
  | Split
  | Free
  | Allocated
  deriving DecidableEq, Repr

/-- Pointwise update of a total map (an array write). -/
def upd {α : Type} (f : Nat → α) (i : Nat) (v : α) : Nat → α :=
  fun j => if j = i then v else f j

end BuddyAllocator

open BuddyAllocator in
/-- The data members of `class BuddyAllocator`, together with the headers
stored in the managed region (`mem`). -/
structure BuddyAllocator where
  mem : Nat → Header
  m_blockInfo : Nat → BlockStatus
  m_maxLevel : Nat
  m_numBytes : Nat
  m_freeLists : Nat → Option Nat
  m_levelSize : Nat → Nat
  m_levelStartIndex : Nat → Nat

namespace BuddyAllocator

/-! ## Construction helpers (lines 75-104) -/

/-- The loop of `nextPowerOfTwo`: `while (p < n) p <<= 1;` on `uint64_t`.
`none` means the loop is still running when the fuel is used up. -/
def nextPowerOfTwoLoop : Nat → Nat → Nat → Option Nat
  | 0, _, _ => none
  | fuel + 1, p, n => if p < n then nextPowerOfTwoLoop fuel (p * 2 % U64) n else some p

/-- Function `nextPowerOfTwo(n)`.  After 64 shifts `p` is `0` and stays `0`, so a run
that has not stopped within 66 tests of the loop condition never stops. -/
def nextPowerOfTwo (n : Nat) : Option Nat :=
  nextPowerOfTwoLoop 66 1 n

/-- The value of `m_numBytes` fixed by the constructor (lines 420-425). -/
def regionSize (requestedSize : Nat) : Option Nat :=
  match nextPowerOfTwo requestedSize with
  | none => none
  | some p => some (if p < MIN_BLOCK_SIZE then MIN_BLOCK_SIZE else p)

/-- Function `createMemory(size)`: `false` when it returns `nullptr` because of the
size guard; the mapping itself is assumed to succeed. -/
def createMemory (size : Nat) : Bool :=
  if size > MAX_MEMORY_SIZE then false else true

/-! ## Index and pointer conversions (lines 108-179) -/

def indexInLevel (a : BuddyAllocator) (ptr level : Nat) : Nat :=
  ptr / a.m_levelSize level

def ptrInLevel (a : BuddyAllocator) (index level : Nat) : Nat :=
  index * a.m_levelSize level

/-- Overload `indexOf(ptr, level)`. -/
def indexOfLevel (a : BuddyAllocator) (ptr level : Nat) : Nat :=
  indexInLevel a ptr level + a.m_levelStartIndex level

/-- The loop of `levelOf(void *ptr)`, started at `n`. -/
def levelOfLoop (a : BuddyAllocator) (ptr : Nat) : Nat → Nat
  | 0 => 0
  | n + 1 =>
    if a.m_blockInfo (indexOfLevel a ptr n) = BlockStatus.Split then n + 1
    else levelOfLoop a ptr n

/-- Overload `levelOf(void *ptr)`. -/
def levelOf (a : BuddyAllocator) (ptr : Nat) : Nat :=
  levelOfLoop a ptr a.m_maxLevel

/-- Overload `indexOf(void *ptr)`. -/
def indexOf (a : BuddyAllocator) (ptr : Nat) : Nat :=
  indexOfLevel a ptr (levelOf a ptr)

/-- The loop of the static `levelOf(uint64_t index)`: `index` is halved while
it exceeds 1; a 64-bit value is exhausted after at most 64 rounds. -/
def levelOfIndexLoop : Nat → Nat → Nat → Nat
  | 0, _, level => level
  | fuel + 1, index, level =>
    if index > 1 then levelOfIndexLoop fuel (index / 2) (level + 1) else level

/-- The static `levelOf(uint64_t index)`. -/
def levelOfIndex (index : Nat) : Nat :=
  levelOfIndexLoop 64 ((index + 1) % U64) 0

/-- Overload `addressOf(index, level)`. -/
def addressOfLevel (a : BuddyAllocator) (index level : Nat) : Nat :=
  ptrInLevel a ((index + U64 - a.m_levelStartIndex level % U64) % U64) level

/-- Overload `addressOf(index)`. -/
def addressOf (a : BuddyAllocator) (index : Nat) : Nat :=
  addressOfLevel a index (levelOfIndex index)

/-- The loop of `findLevel`, started at `level`.  `none` means that the loop
would decrement `level` below 0. -/
def findLevelLoop (a : BuddyAllocator) (size : Nat) : Nat → Option Nat
  | 0 => if size > a.m_levelSize 0 then none else some 0
  | level + 1 =>
    if size > a.m_levelSize (level + 1) then findLevelLoop a size level
    else some (level + 1)

def findLevel (a : BuddyAllocator) (size : Nat) : Option Nat :=
  findLevelLoop a size a.m_maxLevel

/-! ## Tree navigation (lines 267-289) -/

def parent (index : Nat) : Nat :=
  (index / 2 + U64 - (index + 1) % 2) % U64

def left (index : Nat) : Nat :=
  2 * index + 1

def right (index : Nat) : Nat :=
  2 * index + 2

def buddy (index : Nat) : Nat :=
  if index % 2 = 0 then (index + U64 - 1) % U64 else index + 1

/-! ## Free-list operations (lines 183-249) -/

/-- The write `p->prev = v`. -/
def setPrev (m : Nat → Header) (p : Nat) (v : Option Nat) : Nat → Header :=
  upd m p { prev := v, next := (m p).next }

/-- The write `p->next = v`. -/
def setNext (m : Nat → Header) (p : Nat) (v : Option Nat) : Nat → Header :=
  upd m p { prev := (m p).prev, next := v }

/-- The guarded write `if (p) p->prev = v`. -/
def setPrevIf (m : Nat → Header) (p : Option Nat) (v : Option Nat) : Nat → Header :=
  match p with
  | some q => setPrev m q v
  | none => m

/-- The guarded write `if (p) p->next = v`. -/
def setNextIf (m : Nat → Header) (p : Option Nat) (v : Option Nat) : Nat → Header :=
  match p with
  | some q => setNext m q v
  | none => m

def removeFromListFront (a : BuddyAllocator) (level : Nat) : Option Nat × BuddyAllocator :=
  match a.m_freeLists level with
  | none => (none, a)
  | some freeList =>
    let next := (a.mem freeList).next
    let mem1 := setPrevIf a.mem next none
    (some freeList, { a with mem := mem1, m_freeLists := upd a.m_freeLists level next })

def removeFromList (a : BuddyAllocator) (block level : Nat) : BuddyAllocator :=
  let freeList := a.m_freeLists level
  let a1 : BuddyAllocator :=
    if freeList = some block then
      let mem1 := setPrevIf a.mem (a.mem block).next none
      { a with mem := mem1, m_freeLists := upd a.m_freeLists level (mem1 block).next }
    else
      let mem1 := setNextIf a.mem (a.mem block).prev (a.mem block).next
      let mem2 := setPrevIf mem1 (mem1 block).next (mem1 block).prev
      { a with mem := mem2 }
  { a1 with mem := setPrev (setNext a1.mem block none) block none }

def insertToList (a : BuddyAllocator) (block level : Nat) : BuddyAllocator :=
  let freeList := a.m_freeLists level
  let mem1 := setPrev a.mem block none
  let mem2 := setPrevIf mem1 freeList (some block)
  { a with mem := setNext mem2 block freeList, m_freeLists := upd a.m_freeLists level (some block) }

/-- Function `split(index, level)`: the new state and the returned index. -/
def split (a : BuddyAllocator) (index level : Nat) : BuddyAllocator × Nat :=
  let a1 := { a with m_blockInfo := upd a.m_blockInfo index BlockStatus.Split }
  let buddyIndex := right index
  let a2 := { a1 with m_blockInfo := upd a1.m_blockInfo buddyIndex BlockStatus.Free }
  let buddy := addressOf a2 buddyIndex
  (insertToList a2 buddy (level + 1), left index)

/-! ## Debug observers (lines 296-373) -/

/-- Function `status(index)`. -/
def status (a : BuddyAllocator) (index : Nat) : Char :=
  if a.m_blockInfo index = BlockStatus.Split then 'S'
  else if a.m_blockInfo index = BlockStatus.Free then 'F'
  else 'A'

/-- The traversal `while (freeList) { ...; freeList = freeList->next; }` of
`printFreeList`, collecting the visited blocks; it stops after `fuel` blocks. -/
def walkList (m : Nat → Header) : Nat → Option Nat → List Nat
  | 0, _ => []
  | _ + 1, none => []
  | fuel + 1, some p => p :: walkList m fuel (m p).next

/-- The blocks linked in the free list of `level`, in list order.  A level
holds at most `m_numBytes / MIN_BLOCK_SIZE` blocks. -/
def freeListOf (a : BuddyAllocator) (level : Nat) : List Nat :=
  walkList a.mem (a.m_numBytes / MIN_BLOCK_SIZE + 1) (a.m_freeLists level)

/-! ## Construction (lines 414-457) -/

/-- The level-table loop of the constructor (lines 438-447); the state is
`(m_levelSize, m_levelStartIndex, m_maxLevel, index)`. -/
def levelTableLoop : Nat → Nat → (Nat → Nat) → (Nat → Nat) → Nat → Nat →
    (Nat → Nat) × (Nat → Nat) × Nat
  | 0, _, ls, lsi, maxLevel, _ => (ls, lsi, maxLevel)
  | fuel + 1, size, ls, lsi, maxLevel, index =>
    if size ≥ MIN_BLOCK_SIZE then
      levelTableLoop fuel (size / 2) (upd ls maxLevel size) (upd lsi maxLevel index)
        (maxLevel + 1) ((index + 1) * 2 - 1)
    else (ls, lsi, maxLevel)

/-- The constructor body once `m_numBytes` is fixed and the region is mapped
(lines 430-456).  Fresh anonymous mappings are zero-filled, so every header
reads as two null pointers. -/
def build (numBytes : Nat) : BuddyAllocator :=
  let t := levelTableLoop 64 numBytes (upd (fun _ => 0) 0 numBytes) (upd (fun _ => 0) 0 0) 0 0
  let mem0 : Nat → Header := fun _ => { prev := none, next := none }
  { mem := setPrev (setNext mem0 0 none) 0 none
    m_blockInfo := fun _ => BlockStatus.Free
    m_maxLevel := t.2.2 - 1
    m_numBytes := numBytes
    m_freeLists := upd (fun _ => none) 0 (some 0)
    m_levelSize := t.1
    m_levelStartIndex := t.2.1 }

/-- Constructor `BuddyAllocator(requestedSize)`.  `none` when `nextPowerOfTwo` does not
return, or when `createMemory` returns `nullptr` (the constructor then writes
the root header through the null pointer). -/
def construct (requestedSize : Nat) : Option BuddyAllocator :=
  match regionSize requestedSize with
  | none => none
  | some numBytes => if createMemory numBytes then some (build numBytes) else none

/-! ## Public API (lines 466-586) -/

/-- The search loop of `allocate` (lines 487-499), started at `level`: the
first level at or above `level` (towards the root) whose free list is
non-empty, or `none` if the loop returns `nullptr`. -/
def searchLevel (a : BuddyAllocator) : Nat → Option Nat
  | 0 => if (a.m_freeLists 0).isSome then some 0 else none
  | level + 1 =>
    if (a.m_freeLists (level + 1)).isSome then some (level + 1) else searchLevel a level

/-- The split loop of `allocate` (lines 510-514), running `count` times from
`level`; `count` is `requiredLevel - level`. -/
def splitLoop : Nat → BuddyAllocator → Nat → Nat → BuddyAllocator × Nat
  | 0, a, index, _ => (a, index)
  | count + 1, a, index, level =>
    splitLoop count (split a index level).1 (split a index level).2 (level + 1)

/-- Function `allocate(requestedBytes)`: the returned pointer and the new state.
`findLevel` cannot fail behind the size guard of a constructed allocator, and
the search loop only stops at a non-empty list, so the two `none` branches
marked below are never taken from a reachable state. -/
def allocate (a : BuddyAllocator) (requestedBytes : Nat) : Option Nat × BuddyAllocator :=
  if requestedBytes = 0 then (none, a)
  else if requestedBytes > a.m_numBytes then (none, a)
  else
    match findLevel a requestedBytes with
    | none => (none, a) -- not taken
    | some requiredLevel =>
      match searchLevel a requiredLevel with
      | none => (none, a)
      | some level =>
        match removeFromListFront a level with
        | (none, a1) => (none, a1) -- not taken
        | (some block, a1) =>
          let index := indexOf a1 block
          let r := splitLoop (requiredLevel - level) a1 index level
          (some block, { r.1 with m_blockInfo := upd r.1.m_blockInfo r.2 BlockStatus.Allocated })

/-- The merge loop of `free` (lines 559-581); the state is
`(allocator, index, buddyIndex, level)` and the result is the allocator, the
final `index` and the final `level`.  `free` enters it with `level > 0`. -/
def mergeLoop : Nat → BuddyAllocator → Nat → Nat → BuddyAllocator × Nat × Nat
  | 0, a, index, _ => (a, index, 0)
  | level + 1, a, index, buddyIndex =>
    if a.m_blockInfo buddyIndex = BlockStatus.Free then
      let buddyAddress := addressOf a buddyIndex
      let a1 := removeFromList a buddyAddress (level + 1)
      let index1 := parent index
      let a2 := { a1 with m_blockInfo := upd a1.m_blockInfo index1 BlockStatus.Free }
      if level = 0 then (a2, index1, 0)
      else mergeLoop level a2 index1 (buddy index1)
    else (a, index, level + 1)

/-- Function `free(block)`.  In the root branch the statement
`m_blockInfo[index].status == Free;` is a comparison whose result is
discarded, so the status array is left as it is. -/
def free (a : BuddyAllocator) (block : Option Nat) : BuddyAllocator :=
  match block with
  | none => a
  | some b =>
    let index := indexOf a b
    if index = 0 then insertToList a b 0
    else
      let a1 := { a with m_blockInfo := upd a.m_blockInfo index BlockStatus.Free }
      let buddyIndex := buddy index
      let level := levelOfIndex index
      let r := mergeLoop level a1 index buddyIndex
      insertToList r.1 (addressOf r.1 r.2.1) r.2.2

end BuddyAllocator

/-! ## Specification vocabulary

The definitions below are not part of the program; they name the notions the
specification uses (tree coordinates, the list a chain of headers
represents, the blocks that are accounted for, the reachable states). -/

namespace BuddyAllocator

open BlockStatus

/-- Tree index of the block at position `j` of level `k`. -/
def cell (k j : Nat) : Nat := 2 ^ k - 1 + j

/-- Position, within its level, of the buddy of the block at position `j`. -/
def sib (j : Nat) : Nat := if j % 2 = 0 then j + 1 else j - 1

/-- Offset of the block at position `j` of level `k` in a region with
`L + 1` levels. -/
def blockAddr (L k j : Nat) : Nat := j * (16 * 2 ^ (L - k))

/-- The level table of an allocator whose deepest level is `L`. -/
structure Geom (a : BuddyAllocator) (L : Nat) : Prop where
  le : L ≤ 5
  maxLevel : a.m_maxLevel = L
  numBytes : a.m_numBytes = 16 * 2 ^ L
  size : ∀ k, k ≤ L → a.m_levelSize k = 16 * 2 ^ (L - k)
  start : ∀ k, k ≤ L → a.m_levelStartIndex k = 2 ^ k - 1

/-- Status, in the status array `bi`, of the block at position `j` of
level `k`. -/
def st (bi : Nat → BlockStatus) (k j : Nat) : BlockStatus := bi (cell k j)

/-- The block at position `j` of level `k` is a unit of accounting: it is not
split and it is the root or a child of a split block. -/
def Leaf (bi : Nat → BlockStatus) (k j : Nat) : Prop :=
  (k = 0 ∨ st bi (k - 1) (j / 2) = Split) ∧ st bi k j ≠ Split

/-- Both children of a block that is not split are `Free`. -/
def Closed (bi : Nat → BlockStatus) (L : Nat) : Prop :=
  ∀ k j, k < L → j < 2 ^ k → st bi k j ≠ Split →
    st bi (k + 1) (2 * j) = Free ∧ st bi (k + 1) (2 * j + 1) = Free

/-- The headers in `m` chain the blocks `xs`, in this order, starting at `cur`,
the first of them having `prev` as its `prev` pointer and the last a null
`next` pointer. -/
def Seg (m : Nat → Header) : Option Nat → Option Nat → List Nat → Prop
  | _, cur, [] => cur = none
  | prev, cur, x :: xs => cur = some x ∧ (m x).prev = prev ∧ Seg m (some x) (m x).next xs

/-- The two splicing writes of `removeFromList` for a block that is not the
head of its list. -/
def spliceOut (m : Nat → Header) (b : Nat) : Nat → Header :=
  let mem1 := setNextIf m (m b).prev (m b).next
  setPrevIf mem1 (mem1 b).next (mem1 b).prev

/-- Every free list is a well-formed doubly-linked list holding the blocks
`lists level`; no block is linked twice. -/
structure HeapOK (a : BuddyAllocator) (lists : Nat → List Nat) : Prop where
  seg : ∀ k, Seg a.mem none (a.m_freeLists k) (lists k)
  nodup : ∀ k, (lists k).Nodup
  disj : ∀ k k' x, x ∈ lists k → x ∈ lists k' → k = k'

/-- The representation invariant.  `lists` are the contents of the free
lists, `live` the pointers handed out and not yet released, each with the
level of its block, and `pend` the block an operation under way has taken
out of the accounting (popped or being released) and not yet put back. -/
structure PInv (a : BuddyAllocator) (L : Nat) (lists : Nat → List Nat)
    (live : List (Nat × Nat)) (pend : Option (Nat × Nat)) : Prop where
  geom : Geom a L
  closed : Closed a.m_blockInfo L
  bottom : ∀ j, j < 2 ^ L → st a.m_blockInfo L j ≠ Split
  heap : HeapOK a lists
  mem_lists : ∀ k x, x ∈ lists k ↔
    k ≤ L ∧ ∃ j, j < 2 ^ k ∧ x = blockAddr L k j ∧ Leaf a.m_blockInfo k j ∧
      (x, k) ∉ live ∧ pend ≠ some (k, j)
  live_ok : ∀ p k, (p, k) ∈ live →
    k ≤ L ∧ ∃ j, j < 2 ^ k ∧ p = blockAddr L k j ∧ Leaf a.m_blockInfo k j ∧
      st a.m_blockInfo k j = Allocated
  live_nodup : live.Nodup
  pend_ok : ∀ k j, pend = some (k, j) →
    k ≤ L ∧ j < 2 ^ k ∧ Leaf a.m_blockInfo k j ∧ (blockAddr L k j, k) ∉ live

/-- The cell `i` is the cell of a block that is accounted for: its status is
`Free` or `Allocated` and all its ancestors are `Split`. -/
def Accounted (a : BuddyAllocator) (i : Nat) : Prop :=
  i < 2 ^ (a.m_maxLevel + 1) - 1 ∧
  (a.m_blockInfo i = Free ∨ a.m_blockInfo i = Allocated) ∧
  ∀ d, 1 ≤ d → d ≤ levelOfIndex i → a.m_blockInfo (parent^[d] i) = Split

/-- The byte at offset `y` lies in the block of cell `i`, taken at the level
of that cell. -/
def InBlock (a : BuddyAllocator) (i y : Nat) : Prop :=
  addressOf a i ≤ y ∧ y < addressOf a i + a.m_levelSize (levelOfIndex i)

/-- Consecutive `allocate` calls with the request sizes `ns`: the pointers
returned, in call order, and the final state. -/
def allocateAll (a : BuddyAllocator) : List Nat → List (Option Nat) × BuddyAllocator
  | [] => ([], a)
  | n :: ns =>
    ((allocate a n).1 :: (allocateAll (allocate a n).2 ns).1,
      (allocateAll (allocate a n).2 ns).2)

/-- The states reachable from a freshly constructed allocator by `allocate`
calls and by `free` calls on live pointers (or on `nullptr`), together with
the pointers that are live in them; a live pointer is recorded with the level
`findLevel` computed for its request. -/
inductive Reachable : BuddyAllocator → List (Nat × Nat) → Prop
  | init (R : Nat) (a : BuddyAllocator) : construct R = some a → Reachable a []
  | alloc (a a' : BuddyAllocator) (live : List (Nat × Nat)) (n p k : Nat) :
      Reachable a live → allocate a n = (some p, a') → findLevel a n = some k →
      Reachable a' ((p, k) :: live)
  | allocNull (a a' : BuddyAllocator) (live : List (Nat × Nat)) (n : Nat) :
      Reachable a live → allocate a n = (none, a') → Reachable a' live
  | release (a : BuddyAllocator) (live : List (Nat × Nat)) (p k : Nat) :
      Reachable a live → (p, k) ∈ live → Reachable (free a (some p)) (live.erase (p, k))
  | releaseNull (a : BuddyAllocator) (live : List (Nat × Nat)) :
      Reachable a live → Reachable (free a none) live

/-- The cell `j` is a proper descendant of the cell `i`: `i` is reached from
`j` by one or more `parent` steps, none of them leaving the tree. -/
def Descends (i j : Nat) : Prop :=
  ∃ d, 1 ≤ d ∧ d ≤ levelOfIndex j ∧ parent^[d] j = i

/-- No split block has two `Free` children. -/
def NoFreePair (bi : Nat → BlockStatus) (L : Nat) : Prop :=
  ∀ k j, k < L → j < 2 ^ k → st bi k j = Split →
    ¬ (st bi (k + 1) (2 * j) = Free ∧ st bi (k + 1) (2 * j + 1) = Free)

/-- The byte at offset `x` lies in a block that is linked in one of the free
lists `lists`, or in the block `pend` that an operation under way holds. -/
def Cover (L : Nat) (lists : Nat → List Nat) (pend : Option (Nat × Nat)) (x : Nat) : Prop :=
  (∃ l y, y ∈ lists l ∧ y ≤ x ∧ x < y + 16 * 2 ^ (L - l)) ∨
  (∃ t j, pend = some (t, j) ∧ blockAddr L t j ≤ x ∧ x < blockAddr L t j + 16 * 2 ^ (L - t))

/-- The state of `main.cpp` after its first three allocations: 28, 33 and 64
bytes in the region of 256 bytes that a request of 200 bytes creates. -/
def mainThree : BuddyAllocator :=
  (allocate (allocate (allocate (build 256) 28).2 33).2 64).2

/-- Below the root, a cell with status `Allocated` is the cell of a live
block. -/
def LiveAlloc (bi : Nat → BlockStatus) (L : Nat) (live : List (Nat × Nat)) : Prop :=
  ∀ k j, 1 ≤ k → k ≤ L → j < 2 ^ k → st bi k j = Allocated → (blockAddr L k j, k) ∈ live

end BuddyAllocator

namespace BuddyAllocator
open BlockStatus

/-! ## Array updates -/

@[simp] theorem upd_same {α : Type} (f : Nat → α) (i : Nat) (v : α) : upd f i v i = v := by
  simp [upd]

@[simp] theorem upd_ne {α : Type} (f : Nat → α) {i j : Nat} (v : α) (h : j ≠ i) :
    upd f i v j = f j := by
  simp [upd, h]

theorem upd_apply {α : Type} (f : Nat → α) (i j : Nat) (v : α) :
    upd f i v j = if j = i then v else f j := rfl

/-! ## Tree coordinates

The cell of the block at position `j` of level `k` has tree index
`cell k j = 2 ^ k - 1 + j`. -/

theorem two_pow_pos (k : Nat) : 1 ≤ 2 ^ k := Nat.one_le_two_pow

theorem two_pow_le_32 {k : Nat} (h : k ≤ 5) : 2 ^ k ≤ 32 := by
  calc 2 ^ k ≤ 2 ^ 5 := Nat.pow_le_pow_right (by norm_num) h
    _ = 32 := by norm_num

theorem cell_inj {k j k' j' : Nat} (hj : j < 2 ^ k) (hj' : j' < 2 ^ k')
    (h : cell k j = cell k' j') : k = k' ∧ j = j' := by
  have h1 := two_pow_pos k
  have h2 := two_pow_pos k'
  unfold cell at h
  rcases Nat.lt_trichotomy k k' with hlt | heq | hgt
  · have : 2 ^ (k + 1) ≤ 2 ^ k' := Nat.pow_le_pow_right (by norm_num) hlt
    rw [pow_succ] at this
    omega
  · subst heq
    exact ⟨rfl, by omega⟩
  · have : 2 ^ (k' + 1) ≤ 2 ^ k := Nat.pow_le_pow_right (by norm_num) hgt
    rw [pow_succ] at this
    omega

theorem cell_eq_iff {k j k' j' : Nat} (hj : j < 2 ^ k) (hj' : j' < 2 ^ k') :
    cell k j = cell k' j' ↔ k = k' ∧ j = j' :=
  ⟨cell_inj hj hj', fun h => by rw [h.1, h.2]⟩

theorem cell_lt {k j : Nat} (hk : k ≤ 5) (hj : j < 2 ^ k) : cell k j < 63 := by
  have := two_pow_le_32 hk
  have := two_pow_pos k
  unfold cell; omega

theorem cell_eq_zero {k j : Nat} (hj : j < 2 ^ k) : cell k j = 0 ↔ k = 0 := by
  have h0 : cell 0 0 = 0 := rfl
  constructor
  · intro h
    rw [← h0] at h
    exact (cell_inj hj (by norm_num) h).1
  · intro h
    subst h
    have : j = 0 := by simpa using hj
    subst this; rfl

theorem levelOfIndexLoop_eq (k : Nat) : ∀ (fuel n lvl : Nat), k ≤ fuel → 2 ^ k ≤ n →
    n < 2 ^ (k + 1) → levelOfIndexLoop fuel n lvl = lvl + k := by
  induction k with
  | zero =>
    intro fuel n lvl _ h1 h2
    have hn : n = 1 := by simp at h1 h2; omega
    subst hn
    cases fuel <;> simp [levelOfIndexLoop]
  | succ k ih =>
    intro fuel n lvl hf h1 h2
    cases fuel with
    | zero => omega
    | succ fuel =>
      have hk := two_pow_pos k
      rw [pow_succ] at h1 h2
      have hn : n > 1 := by omega
      simp only [levelOfIndexLoop, hn, if_true]
      rw [ih fuel (n / 2) (lvl + 1) (by omega) (by omega) (by rw [pow_succ]; omega)]
      omega

theorem levelOfIndex_cell {k j : Nat} (hk : k ≤ 5) (hj : j < 2 ^ k) :
    levelOfIndex (cell k j) = k := by
  have hc := cell_lt hk hj
  have hp := two_pow_pos k
  unfold levelOfIndex
  have : (cell k j + 1) % U64 = cell k j + 1 := by
    apply Nat.mod_eq_of_lt; unfold U64; omega
  rw [this, levelOfIndexLoop_eq k 64 (cell k j + 1) 0 (by omega)]
  · simp
  · unfold cell; omega
  · unfold cell; rw [pow_succ]; omega

theorem left_cell (k j : Nat) : left (cell k j) = cell (k + 1) (2 * j) := by
  have hp := two_pow_pos k
  unfold left cell; rw [pow_succ]; omega

theorem right_cell (k j : Nat) : right (cell k j) = cell (k + 1) (2 * j + 1) := by
  have hp := two_pow_pos k
  unfold right cell; rw [pow_succ]; omega

theorem parent_cell {k j : Nat} (hk : k + 1 ≤ 5) (hj : j < 2 ^ (k + 1)) :
    parent (cell (k + 1) j) = cell k (j / 2) := by
  have hp := two_pow_pos k
  have hb := two_pow_le_32 hk
  rw [pow_succ] at hj hb
  unfold parent cell U64
  rw [pow_succ]
  omega

theorem buddy_cell {k j : Nat} (hk : k + 1 ≤ 5) (hj : j < 2 ^ (k + 1)) :
    buddy (cell (k + 1) j) = cell (k + 1) (sib j) := by
  have hp := two_pow_pos k
  have hb := two_pow_le_32 hk
  rw [pow_succ] at hj hb
  unfold buddy cell sib U64
  rw [pow_succ]
  split_ifs <;> omega

theorem sib_lt {k j : Nat} (hj : j < 2 ^ (k + 1)) : sib j < 2 ^ (k + 1) := by
  have hp := two_pow_pos k
  rw [pow_succ] at hj ⊢
  unfold sib; split_ifs <;> omega

theorem sib_div (j : Nat) : sib j / 2 = j / 2 := by
  unfold sib; split_ifs <;> omega

theorem sib_ne (j : Nat) : sib j ≠ j := by
  unfold sib; split_ifs <;> omega

theorem eq_or_sib_of_div {j j' : Nat} (h : j' / 2 = j / 2) : j' = j ∨ j' = sib j := by
  unfold sib; split_ifs <;> omega

end BuddyAllocator

namespace BuddyAllocator
open BlockStatus

/-! ## Header chains -/

@[simp] theorem setPrev_same (m : Nat → Header) (p : Nat) (v : Option Nat) :
    setPrev m p v p = { prev := v, next := (m p).next } := by
  simp [setPrev]

@[simp] theorem setPrev_ne (m : Nat → Header) {p q : Nat} (v : Option Nat) (h : q ≠ p) :
    setPrev m p v q = m q := by
  simp [setPrev, h]

@[simp] theorem setNext_same (m : Nat → Header) (p : Nat) (v : Option Nat) :
    setNext m p v p = { prev := (m p).prev, next := v } := by
  simp [setNext]

@[simp] theorem setNext_ne (m : Nat → Header) {p q : Nat} (v : Option Nat) (h : q ≠ p) :
    setNext m p v q = m q := by
  simp [setNext, h]

@[simp] theorem setPrev_next (m : Nat → Header) (p q : Nat) (v : Option Nat) :
    (setPrev m p v q).next = (m q).next := by
  by_cases h : q = p
  · subst h; simp
  · simp [h]

@[simp] theorem setNext_prev (m : Nat → Header) (p q : Nat) (v : Option Nat) :
    (setNext m p v q).prev = (m q).prev := by
  by_cases h : q = p
  · subst h; simp
  · simp [h]

@[simp] theorem setPrevIf_none (m : Nat → Header) (v : Option Nat) :
    setPrevIf m none v = m := rfl

@[simp] theorem setPrevIf_some (m : Nat → Header) (p : Nat) (v : Option Nat) :
    setPrevIf m (some p) v = setPrev m p v := rfl

@[simp] theorem setNextIf_none (m : Nat → Header) (v : Option Nat) :
    setNextIf m none v = m := rfl

@[simp] theorem setNextIf_some (m : Nat → Header) (p : Nat) (v : Option Nat) :
    setNextIf m (some p) v = setNext m p v := rfl

@[simp] theorem setPrevIf_next (m : Nat → Header) (p : Option Nat) (q : Nat) (v : Option Nat) :
    (setPrevIf m p v q).next = (m q).next := by
  cases p <;> simp

@[simp] theorem setNextIf_prev (m : Nat → Header) (p : Option Nat) (q : Nat) (v : Option Nat) :
    (setNextIf m p v q).prev = (m q).prev := by
  cases p <;> simp

theorem setPrevIf_frame (m : Nat → Header) (p : Option Nat) (q : Nat) (v : Option Nat)
    (h : p ≠ some q) : setPrevIf m p v q = m q := by
  cases p with
  | none => rfl
  | some c =>
    have : q ≠ c := fun e => h (by rw [e])
    simp [this]

theorem setNextIf_frame (m : Nat → Header) (p : Option Nat) (q : Nat) (v : Option Nat)
    (h : p ≠ some q) : setNextIf m p v q = m q := by
  cases p with
  | none => rfl
  | some c =>
    have : q ≠ c := fun e => h (by rw [e])
    simp [this]

theorem Seg.congr {m m' : Nat → Header} : ∀ {xs : List Nat} {prev cur : Option Nat},
    (∀ x, x ∈ xs → m' x = m x) → Seg m prev cur xs → Seg m' prev cur xs
  | [], _, _, _, h => h
  | x :: xs, _, _, hm, h => by
    obtain ⟨h1, h2, h3⟩ := h
    have hx : m' x = m x := hm x (List.mem_cons_self _ _)
    refine ⟨h1, by rw [hx]; exact h2, ?_⟩
    rw [hx]
    exact Seg.congr (fun y hy => hm y (List.mem_cons_of_mem _ hy)) h3

theorem Seg.head_eq {m : Nat → Header} {xs : List Nat} {prev cur : Option Nat}
    (h : Seg m prev cur xs) : cur = xs.head? := by
  cases xs with
  | nil => exact h
  | cons x xs => exact h.1

theorem Seg.head_mem {m : Nat → Header} {xs : List Nat} {prev cur : Option Nat} {c : Nat}
    (h : Seg m prev cur xs) (hc : cur = some c) : c ∈ xs := by
  have := h.head_eq
  rw [hc] at this
  cases xs with
  | nil => simp at this
  | cons w ws => simp at this; simp [this]

theorem Seg.nil_iff {m : Nat → Header} {xs : List Nat} {prev cur : Option Nat}
    (h : Seg m prev cur xs) : cur = none ↔ xs = [] := by
  cases xs with
  | nil => simpa using h
  | cons x xs => simp [h.1]

theorem walkList_eq {m : Nat → Header} : ∀ {xs : List Nat} {prev cur : Option Nat} (fuel : Nat),
    Seg m prev cur xs → xs.length ≤ fuel → walkList m fuel cur = xs
  | [], _, _, fuel, h, _ => by
    have : _ = none := h
    subst this
    cases fuel <;> rfl
  | x :: xs, _, _, fuel, h, hl => by
    obtain ⟨h1, _, h3⟩ := h
    subst h1
    cases fuel with
    | zero => simp at hl
    | succ fuel =>
      simp only [walkList]
      rw [walkList_eq fuel h3 (by simpa using hl)]

/-- Redirecting the `prev` pointer of the first block of a chain. -/
theorem Seg.relink {m : Nat → Header} : ∀ {xs : List Nat} {prev cur : Option Nat}
    (v : Option Nat), xs.Nodup → Seg m prev cur xs → Seg (setPrevIf m cur v) v cur xs
  | [], _, _, _, _, h => by
    have : _ = none := h
    subst this
    exact rfl
  | x :: xs, _, _, v, hnd, h => by
    obtain ⟨hc, _, h3⟩ := h
    subst hc
    refine ⟨rfl, by simp, ?_⟩
    rw [setPrevIf_next]
    refine Seg.congr (fun y hy => ?_) h3
    have : y ≠ x := fun e => by subst e; exact (List.nodup_cons.mp hnd).1 hy
    simp [this]

theorem Seg.next_mem {m : Nat → Header} : ∀ {xs : List Nat} {prev cur : Option Nat} {b nx : Nat},
    Seg m prev cur xs → b ∈ xs → (m b).next = some nx → nx ∈ xs
  | [], _, _, _, _, _, hb, _ => by simp at hb
  | x :: xs, _, _, b, nx, h, hb, hn => by
    obtain ⟨_, _, h3⟩ := h
    rcases List.mem_cons.mp hb with e | hb
    · subst e
      exact List.mem_cons_of_mem _ (h3.head_mem hn)
    · exact List.mem_cons_of_mem _ (Seg.next_mem h3 hb hn)

theorem Seg.prev_mem {m : Nat → Header} : ∀ {xs : List Nat} {prev cur : Option Nat} {b : Nat},
    Seg m prev cur xs → b ∈ xs → cur ≠ some b → ∃ pv, pv ∈ xs ∧ (m b).prev = some pv
  | [], _, _, _, _, hb, _ => by simp at hb
  | x :: xs, _, _, b, h, hb, hc => by
    obtain ⟨h1, _, h3⟩ := h
    have hbx : b ≠ x := fun e => hc (by rw [h1, e])
    have hb' : b ∈ xs := by
      rcases List.mem_cons.mp hb with e | hb
      · exact absurd e hbx
      · exact hb
    by_cases hn : (m x).next = some b
    · cases xs with
      | nil => simp at hb'
      | cons y ys =>
        have := h3.1
        rw [hn] at this
        simp only [Option.some.injEq] at this
        subst this
        exact ⟨x, by simp, h3.2.1⟩
    · obtain ⟨pv, hpv, hp⟩ := Seg.prev_mem h3 hb' hn
      exact ⟨pv, List.mem_cons_of_mem _ hpv, hp⟩

theorem spliceOut_eq (m : Nat → Header) (b : Nat) :
    spliceOut m b =
      setPrevIf (setNextIf m (m b).prev (m b).next) (m b).next (m b).prev := by
  have h1 : (setNextIf m (m b).prev (m b).next b).next = (m b).next := by
    cases hp : (m b).prev with
    | none => rfl
    | some pv =>
      by_cases e : b = pv
      · subst e; simp
      · simp [e]
  unfold spliceOut
  simp only [h1, setNextIf_prev]

theorem spliceOut_frame (m : Nat → Header) (b y : Nat) (hp : (m b).prev ≠ some y)
    (hn : (m b).next ≠ some y) : spliceOut m b y = m y := by
  rw [spliceOut_eq, setPrevIf_frame _ _ _ _ hn, setNextIf_frame _ _ _ _ hp]

theorem Seg.after_spliceOut {m : Nat → Header} {b : Nat} : ∀ {xs : List Nat} {prev cur : Option Nat},
    Seg m prev cur xs → xs.Nodup → b ∈ xs → cur ≠ some b →
    Seg (spliceOut m b) prev cur (xs.erase b)
  | [], _, _, _, _, hb, _ => by simp at hb
  | x :: xs, prev, cur, h, hnd, hb, hc => by
    obtain ⟨h1, h2, h3⟩ := h
    have hbx : b ≠ x := fun e => hc (by rw [h1, e])
    have hxb : x ≠ b := fun e => hbx e.symm
    have hb' : b ∈ xs := by
      rcases List.mem_cons.mp hb with e | hb
      · exact absurd e hbx
      · exact hb
    have hx : x ∉ xs := (List.nodup_cons.mp hnd).1
    have hxs : xs.Nodup := (List.nodup_cons.mp hnd).2
    have herase : (x :: xs).erase b = x :: xs.erase b := by
      simp [List.erase_cons, hxb]
    rw [herase]
    by_cases hn : (m x).next = some b
    · -- `b` directly follows `x`
      cases xs with
      | nil => simp at hb'
      | cons y zs =>
        have hy := h3.1
        rw [hn] at hy
        simp only [Option.some.injEq] at hy
        subst hy
        obtain ⟨_, hbp, hrest⟩ := h3
        have hbz : b ∉ zs := (List.nodup_cons.mp hxs).1
        have hzs : zs.Nodup := (List.nodup_cons.mp hxs).2
        have hxz : x ∉ zs := fun hm => hx (List.mem_cons_of_mem _ hm)
        simp only [List.erase_cons_head]
        have hsp : spliceOut m b =
            setPrevIf (setNext m x (m b).next) (m b).next (some x) := by
          rw [spliceOut_eq, hbp]; rfl
        have hspx : spliceOut m b x =
            { prev := (m x).prev, next := (m b).next } := by
          rw [hsp, setPrevIf_frame]
          · simp
          · intro e
            exact hxz (hrest.head_mem e)
        refine ⟨h1, by rw [hspx]; exact h2, ?_⟩
        rw [hspx, hsp]
        have hrest1 : Seg (setNext m x (m b).next) (some b) (m b).next zs :=
          Seg.congr (fun w hw => by
            have : w ≠ x := fun e => hxz (e ▸ hw)
            simp [this]) hrest
        exact Seg.relink (some x) hzs hrest1
    · have ih := Seg.after_spliceOut (b := b) h3 hxs hb' hn
      have hspx : spliceOut m b x = m x := by
        apply spliceOut_frame
        · obtain ⟨pv, hpv, hp⟩ := Seg.prev_mem h3 hb' hn
          rw [hp]; intro e
          simp only [Option.some.injEq] at e
          exact hx (e ▸ hpv)
        · intro e
          exact hx (Seg.next_mem h3 hb' e)
      refine ⟨h1, by rw [hspx]; exact h2, ?_⟩
      rw [hspx]
      exact ih

end BuddyAllocator

namespace BuddyAllocator
open BlockStatus

/-! ## The free-list operations on well-formed lists -/

theorem mem_upd_list {lists : Nat → List Nat} {l k x : Nat} {ys : List Nat} :
    x ∈ upd lists l ys k ↔ (k = l ∧ x ∈ ys) ∨ (k ≠ l ∧ x ∈ lists k) := by
  by_cases h : k = l
  · subst h; simp
  · simp [h]

theorem HeapOK.head_cons_of_some {a : BuddyAllocator} {lists : Nat → List Nat} (h : HeapOK a lists)
    {l f : Nat} (hf : a.m_freeLists l = some f) : ∃ ys, lists l = f :: ys := by
  have hs := h.seg l
  rw [hf] at hs
  cases hl : lists l with
  | nil => rw [hl] at hs; cases hs
  | cons x ys =>
    rw [hl] at hs
    have := hs.1
    simp only [Option.some.injEq] at this
    subst this
    exact ⟨ys, rfl⟩

theorem HeapOK.head_none {a : BuddyAllocator} {lists : Nat → List Nat} (h : HeapOK a lists)
    (l : Nat) : a.m_freeLists l = none ↔ lists l = [] :=
  (h.seg l).nil_iff

theorem HeapOK.head_cons {a : BuddyAllocator} {lists : Nat → List Nat} (h : HeapOK a lists)
    {l x : Nat} {xs : List Nat} (hl : lists l = x :: xs) : a.m_freeLists l = some x := by
  have hs := h.seg l
  rw [hl] at hs
  exact hs.1

theorem insertToList_mem (a : BuddyAllocator) (b l : Nat) :
    (insertToList a b l).mem =
      setNext (setPrevIf (setPrev a.mem b none) (a.m_freeLists l) (some b)) b
        (a.m_freeLists l) := rfl

theorem insertToList_heads (a : BuddyAllocator) (b l : Nat) :
    (insertToList a b l).m_freeLists = upd a.m_freeLists l (some b) := rfl

theorem HeapOK.insert {a : BuddyAllocator} {lists : Nat → List Nat} (h : HeapOK a lists)
    (b l : Nat) (hb : ∀ k, b ∉ lists k) :
    HeapOK (insertToList a b l) (upd lists l (b :: lists l)) := by
  have hframe : ∀ y, y ≠ b → a.m_freeLists l ≠ some y → (insertToList a b l).mem y = a.mem y := by
    intro y hyb hyf
    rw [insertToList_mem, setNext_ne _ _ hyb, setPrevIf_frame _ _ _ _ hyf, setPrev_ne _ _ hyb]
  refine ⟨fun k => ?_, fun k => ?_, fun k k' x hx hx' => ?_⟩
  · by_cases hk : k = l
    · subst hk
      have hs := h.seg k
      have hnd := h.nodup k
      have hbk := hb k
      rw [insertToList_heads, upd_same, upd_same]
      cases hl : lists k with
      | nil =>
        rw [hl] at hs
        have hfl : a.m_freeLists k = none := hs
        refine ⟨rfl, ?_, ?_⟩
        · rw [insertToList_mem, hfl]; simp
        · rw [insertToList_mem, hfl]; simp [Seg]
      | cons f ys =>
        rw [hl] at hs hnd hbk
        obtain ⟨hfl, hp, hrest⟩ := hs
        have hfb : f ≠ b := fun e => hbk (by simp [e])
        have hbf : b ≠ f := fun e => hfb e.symm
        have hmem : ∀ y, y ∈ ys → (insertToList a b k).mem y = a.mem y := by
          intro y hy
          apply hframe
          · intro e; exact hbk (by simp [e ▸ hy])
          · rw [hfl]; intro e
            simp only [Option.some.injEq] at e
            subst e
            exact (List.nodup_cons.mp hnd).1 hy
        have hf : (insertToList a b k).mem f = { prev := some b, next := (a.mem f).next } := by
          rw [insertToList_mem, hfl]; simp [hfb]
        have hbm : (insertToList a b k).mem b = { prev := none, next := some f } := by
          rw [insertToList_mem, hfl]; simp [hbf]
        refine ⟨rfl, by rw [hbm], ?_⟩
        rw [hbm]
        refine ⟨rfl, by rw [hf], ?_⟩
        rw [hf]
        exact Seg.congr hmem hrest
    · rw [insertToList_heads, upd_ne _ _ hk, upd_ne _ _ hk]
      refine Seg.congr (fun y hy => ?_) (h.seg k)
      apply hframe
      · intro e; subst e; exact hb k hy
      · intro e
        obtain ⟨ys, hys⟩ := h.head_cons_of_some e
        exact hk (h.disj k l y hy (by simp [hys]))
  · by_cases hk : k = l
    · subst hk
      simp only [upd_same]
      exact List.nodup_cons.mpr ⟨hb k, h.nodup k⟩
    · rw [upd_ne _ _ hk]; exact h.nodup k
  · rw [mem_upd_list] at hx hx'
    rcases hx with ⟨rfl, hx⟩ | ⟨hk, hx⟩ <;> rcases hx' with ⟨rfl, hx'⟩ | ⟨hk', hx'⟩
    · rfl
    · rcases List.mem_cons.mp hx with e | hx
      · subst e; exact absurd hx' (hb k')
      · exact h.disj _ _ x hx hx'
    · rcases List.mem_cons.mp hx' with e | hx'
      · subst e; exact absurd hx (hb k)
      · exact h.disj _ _ x hx hx'
    · exact h.disj _ _ x hx hx'

theorem removeFromListFront_some (a : BuddyAllocator) (l x : Nat)
    (hfl : a.m_freeLists l = some x) :
    removeFromListFront a l =
      (some x, { a with mem := setPrevIf a.mem (a.mem x).next none,
                        m_freeLists := upd a.m_freeLists l (a.mem x).next }) := by
  simp [removeFromListFront, hfl]

theorem removeFromListFront_none (a : BuddyAllocator) (l : Nat)
    (hfl : a.m_freeLists l = none) : removeFromListFront a l = (none, a) := by
  simp [removeFromListFront, hfl]

theorem HeapOK.popFront {a : BuddyAllocator} {lists : Nat → List Nat} (h : HeapOK a lists)
    {l x : Nat} {xs : List Nat} (hl : lists l = x :: xs) :
    (removeFromListFront a l).1 = some x ∧
    HeapOK (removeFromListFront a l).2 (upd lists l xs) := by
  have hs := h.seg l
  have hnd := h.nodup l
  rw [hl] at hs hnd
  obtain ⟨hfl, hp, hrest⟩ := hs
  have hxs : xs.Nodup := (List.nodup_cons.mp hnd).2
  rw [removeFromListFront_some a l x hfl]
  refine ⟨rfl, fun k => ?_, fun k => ?_, fun k k' y hy hy' => ?_⟩
  · by_cases hk : k = l
    · subst hk
      simp only [upd_same]
      exact Seg.relink none hxs hrest
    · simp only [upd_ne _ _ hk]
      refine Seg.congr (fun y hy => ?_) (h.seg k)
      apply setPrevIf_frame
      intro e
      exact hk (h.disj k l y hy (by rw [hl]; exact List.mem_cons_of_mem _ (hrest.head_mem e)))
  · by_cases hk : k = l
    · subst hk; simpa using hxs
    · rw [upd_ne _ _ hk]; exact h.nodup k
  · rw [mem_upd_list] at hy hy'
    rcases hy with ⟨rfl, hy⟩ | ⟨hk, hy⟩ <;> rcases hy' with ⟨rfl, hy'⟩ | ⟨hk', hy'⟩
    · rfl
    · exact h.disj _ _ y (by rw [hl]; exact List.mem_cons_of_mem _ hy) hy'
    · exact h.disj _ _ y hy (by rw [hl]; exact List.mem_cons_of_mem _ hy')
    · exact h.disj _ _ y hy hy'

theorem removeFromList_heads_ne (a : BuddyAllocator) (b l k : Nat) (hk : k ≠ l) :
    (removeFromList a b l).m_freeLists k = a.m_freeLists k := by
  unfold removeFromList
  by_cases h : a.m_freeLists l = some b
  · simp [h, hk]
  · simp [h]

theorem removeFromList_head (a : BuddyAllocator) (b l : Nat) (hh : a.m_freeLists l = some b) :
    (removeFromList a b l).mem =
      setPrev (setNext (setPrevIf a.mem (a.mem b).next none) b none) b none ∧
    (removeFromList a b l).m_freeLists l = (a.mem b).next := by
  simp [removeFromList, hh]

theorem removeFromList_inner (a : BuddyAllocator) (b l : Nat) (hh : a.m_freeLists l ≠ some b) :
    (removeFromList a b l).mem = setPrev (setNext (spliceOut a.mem b) b none) b none ∧
    (removeFromList a b l).m_freeLists l = a.m_freeLists l := by
  simp [removeFromList, hh, spliceOut]

theorem HeapOK.remove {a : BuddyAllocator} {lists : Nat → List Nat} (h : HeapOK a lists)
    {b l : Nat} (hb : b ∈ lists l) :
    HeapOK (removeFromList a b l) (upd lists l ((lists l).erase b)) := by
  have hnd := h.nodup l
  have hs := h.seg l
  have hnd' : ((lists l).erase b).Nodup := hnd.erase b
  have hbe : b ∉ (lists l).erase b := fun hm => (List.Nodup.mem_erase_iff hnd).mp hm |>.1 rfl
  have hsub : ∀ y, y ∈ (lists l).erase b → y ∈ lists l := fun y hy => List.mem_of_mem_erase hy
  -- the list of level `l` after the call, and the blocks whose header changed
  have key : Seg (removeFromList a b l).mem none ((removeFromList a b l).m_freeLists l)
      ((lists l).erase b) ∧
      ∀ y, y ∉ lists l → (removeFromList a b l).mem y = a.mem y := by
    by_cases hh : a.m_freeLists l = some b
    · obtain ⟨ys, hys⟩ := h.head_cons_of_some hh
      rw [hys] at hs hnd
      obtain ⟨_, _, hrest⟩ := hs
      have hby : b ∉ ys := (List.nodup_cons.mp hnd).1
      have hyn : ys.Nodup := (List.nodup_cons.mp hnd).2
      obtain ⟨hmem, hhead⟩ := removeFromList_head a b l hh
      have herase : (lists l).erase b = ys := by rw [hys]; simp
      refine ⟨?_, fun y hy => ?_⟩
      · rw [hhead, herase, hmem]
        refine Seg.congr (fun y hy => ?_) (Seg.relink none hyn hrest)
        have : y ≠ b := fun e => hby (e ▸ hy)
        simp [this]
      · rw [hmem]
        have hyb : y ≠ b := fun e => hy (by rw [hys, e]; simp)
        rw [setPrev_ne _ _ hyb, setNext_ne _ _ hyb]
        apply setPrevIf_frame
        intro e
        exact hy (by rw [hys]; exact List.mem_cons_of_mem _ (hrest.head_mem e))
    · obtain ⟨hmem, hhead⟩ := removeFromList_inner a b l hh
      refine ⟨?_, fun y hy => ?_⟩
      · rw [hhead, hmem]
        refine Seg.congr (fun y hy => ?_) (Seg.after_spliceOut hs hnd hb hh)
        have : y ≠ b := fun e => hbe (e ▸ hy)
        simp [this]
      · rw [hmem]
        have hyb : y ≠ b := fun e => hy (e ▸ hb)
        rw [setPrev_ne _ _ hyb, setNext_ne _ _ hyb]
        apply spliceOut_frame
        · obtain ⟨pv, hpv, hp⟩ := Seg.prev_mem hs hb hh
          rw [hp]; intro e
          simp only [Option.some.injEq] at e
          exact hy (e ▸ hpv)
        · intro e
          exact hy (Seg.next_mem hs hb e)
  refine ⟨fun k => ?_, fun k => ?_, fun k k' y hy hy' => ?_⟩
  · by_cases hk : k = l
    · subst hk
      rw [upd_same]
      exact key.1
    · rw [upd_ne _ _ hk, removeFromList_heads_ne a b l k hk]
      refine Seg.congr (fun y hy => ?_) (h.seg k)
      exact key.2 y (fun hm => hk (h.disj k l y hy hm))
  · by_cases hk : k = l
    · subst hk; simpa using hnd'
    · rw [upd_ne _ _ hk]; exact h.nodup k
  · rw [mem_upd_list] at hy hy'
    rcases hy with ⟨rfl, hy⟩ | ⟨hk, hy⟩ <;> rcases hy' with ⟨rfl, hy'⟩ | ⟨hk', hy'⟩
    · rfl
    · exact h.disj _ _ y (hsub y hy) hy'
    · exact h.disj _ _ y hy (hsub y hy')
    · exact h.disj _ _ y hy hy'

end BuddyAllocator

namespace BuddyAllocator
open BlockStatus


/-! ## Geometry -/

theorem Geom.of_fields_eq {a a' : BuddyAllocator} {L : Nat} (h : Geom a L)
    (h1 : a'.m_maxLevel = a.m_maxLevel) (h2 : a'.m_numBytes = a.m_numBytes)
    (h3 : a'.m_levelSize = a.m_levelSize) (h4 : a'.m_levelStartIndex = a.m_levelStartIndex) :
    Geom a' L :=
  ⟨h.le, by rw [h1]; exact h.maxLevel, by rw [h2]; exact h.numBytes,
    fun k hk => by rw [h3]; exact h.size k hk, fun k hk => by rw [h4]; exact h.start k hk⟩

theorem blockAddr_eq (L k j : Nat) : blockAddr L k j = 16 * (j * 2 ^ (L - k)) := by
  unfold blockAddr; ring

theorem pow_split {L k n : Nat} (hn : n ≤ k) (hk : k ≤ L) :
    2 ^ (L - n) = 2 ^ (L - k) * 2 ^ (k - n) := by
  rw [← pow_add]; congr 1; omega

theorem Geom.indexOfLevel_up {a : BuddyAllocator} {L : Nat} (h : Geom a L) {k n : Nat}
    (j : Nat) (hn : n ≤ k) (hk : k ≤ L) :
    indexOfLevel a (blockAddr L k j) n = cell n (j / 2 ^ (k - n)) := by
  unfold indexOfLevel indexInLevel cell blockAddr
  rw [h.size n (hn.trans hk), h.start n (hn.trans hk), pow_split hn hk]
  have : j * (16 * 2 ^ (L - k)) / (16 * (2 ^ (L - k) * 2 ^ (k - n))) = j / 2 ^ (k - n) := by
    have e1 : j * (16 * 2 ^ (L - k)) = (16 * 2 ^ (L - k)) * j := by ring
    have e2 : 16 * (2 ^ (L - k) * 2 ^ (k - n)) = (16 * 2 ^ (L - k)) * 2 ^ (k - n) := by ring
    rw [e1, e2, Nat.mul_div_mul_left _ _ (by positivity)]
  rw [this]; omega

theorem Geom.indexOfLevel_down {a : BuddyAllocator} {L : Nat} (h : Geom a L) {k n : Nat}
    (j : Nat) (hk : k ≤ n) (hn : n ≤ L) :
    indexOfLevel a (blockAddr L k j) n = cell n (j * 2 ^ (n - k)) := by
  unfold indexOfLevel indexInLevel cell blockAddr
  rw [h.size n hn, h.start n hn, pow_split hk hn]
  have : j * (16 * (2 ^ (L - n) * 2 ^ (n - k))) / (16 * 2 ^ (L - n)) = j * 2 ^ (n - k) := by
    have e : j * (16 * (2 ^ (L - n) * 2 ^ (n - k))) = (16 * 2 ^ (L - n)) * (j * 2 ^ (n - k)) := by
      ring
    rw [e, Nat.mul_div_cancel_left _ (by positivity)]
  rw [this]; omega

theorem Geom.indexOfLevel_self {a : BuddyAllocator} {L : Nat} (h : Geom a L) {k : Nat}
    (j : Nat) (hk : k ≤ L) : indexOfLevel a (blockAddr L k j) k = cell k j := by
  rw [h.indexOfLevel_up j (le_refl k) hk]; simp

theorem Geom.addressOf_cell {a : BuddyAllocator} {L : Nat} (h : Geom a L) {k j : Nat}
    (hk : k ≤ L) (hj : j < 2 ^ k) : addressOf a (cell k j) = blockAddr L k j := by
  have hk5 : k ≤ 5 := hk.trans h.le
  have hp := two_pow_pos k
  have hb := two_pow_le_32 hk5
  unfold addressOf
  rw [levelOfIndex_cell hk5 hj]
  unfold addressOfLevel ptrInLevel blockAddr
  rw [h.size k hk, h.start k hk]
  have : (cell k j + U64 - (2 ^ k - 1) % U64) % U64 = j := by
    unfold cell U64
    omega
  rw [this]

theorem blockAddr_inj {L k j j' : Nat} (h : blockAddr L k j = blockAddr L k j') : j = j' := by
  unfold blockAddr at h
  exact Nat.eq_of_mul_eq_mul_right (by positivity) h

/-! ## Status of a block -/

theorem st_upd (bi : Nat → BlockStatus) {k j k' j' : Nat} (v : BlockStatus) (hj : j < 2 ^ k)
    (hj' : j' < 2 ^ k') :
    st (upd bi (cell k j) v) k' j' = if k' = k ∧ j' = j then v else st bi k' j' := by
  unfold st
  simp only [upd_apply, cell_eq_iff hj' hj]

theorem half_lt {k j : Nat} (hj : j < 2 ^ (k + 1)) : j / 2 < 2 ^ k := by
  rw [pow_succ] at hj; omega

theorem div_pow_lt {k d j : Nat} (hd : d ≤ k) (hj : j < 2 ^ k) : j / 2 ^ d < 2 ^ (k - d) := by
  rw [Nat.div_lt_iff_lt_mul (by positivity), ← pow_add]
  have : k - d + d = k := by omega
  rw [this]; exact hj

/-- A child that is not `Free` has a `Split` parent. -/
theorem Closed.parent_split {a : Nat → BlockStatus} {L : Nat} (hc : Closed a L) {k j : Nat}
    (hk : k + 1 ≤ L) (hj : j < 2 ^ (k + 1)) (hs : st a (k + 1) j ≠ Free) :
    st a k (j / 2) = Split := by
  by_contra hne
  obtain ⟨h1, h2⟩ := hc k (j / 2) (by omega) (half_lt hj) hne
  rcases Nat.mod_two_eq_zero_or_one j with hm | hm
  · have : 2 * (j / 2) = j := by omega
    rw [this] at h1; exact hs h1
  · have : 2 * (j / 2) + 1 = j := by omega
    rw [this] at h2; exact hs h2

/-- Below a block that is not split, the leftmost cells are all `Free`. -/
theorem Closed.left_spine {a : Nat → BlockStatus} {L : Nat} (hc : Closed a L) {k j : Nat}
    (hj : j < 2 ^ k) (hs : st a k j ≠ Split) :
    ∀ d, 1 ≤ d → k + d ≤ L → st a (k + d) (j * 2 ^ d) = Free := by
  intro d
  induction d with
  | zero => intro h; omega
  | succ d ih =>
    intro _ hL
    have hpos : j * 2 ^ d < 2 ^ (k + d) := by
      rw [pow_add]; exact Nat.mul_lt_mul_of_pos_right hj (by positivity)
    have hne : st a (k + d) (j * 2 ^ d) ≠ Split := by
      rcases Nat.eq_zero_or_pos d with h0 | h0
      · subst h0; simpa using hs
      · rw [ih h0 (by omega)]; decide
    have := (hc (k + d) (j * 2 ^ d) (by omega) hpos hne).1
    have e : 2 * (j * 2 ^ d) = j * 2 ^ (d + 1) := by rw [pow_succ]; ring
    rw [e] at this
    exact this

/-- Every ancestor of an accounted block is `Split`. -/
theorem Closed.anc_split {a : Nat → BlockStatus} {L : Nat} (hc : Closed a L) {k j : Nat}
    (hk : k ≤ L) (hj : j < 2 ^ k) (hl : Leaf a k j) :
    ∀ d, 1 ≤ d → d ≤ k → st a (k - d) (j / 2 ^ d) = Split := by
  intro d
  induction d with
  | zero => intro h; omega
  | succ d ih =>
    intro _ hdk
    rcases Nat.eq_zero_or_pos d with h0 | h0
    · subst h0
      rcases hl.1 with hz | hp
      · omega
      · simpa using hp
    · have hs := ih h0 (by omega)
      have hpos : j / 2 ^ d < 2 ^ (k - (d + 1) + 1) := by
        have := div_pow_lt (by omega : d ≤ k) hj
        have e : k - (d + 1) + 1 = k - d := by omega
        rw [e]; exact this
      have e1 : k - d = k - (d + 1) + 1 := by omega
      rw [e1] at hs
      have := hc.parent_split (by omega) hpos (by rw [hs]; decide)
      rw [Nat.div_div_eq_div_mul, ← pow_succ] at this
      exact this

/-- Two accounted blocks that contain the same 16-byte slot `u` coincide. -/
theorem Closed.leaf_unique {a : Nat → BlockStatus} {L : Nat} (hc : Closed a L)
    {k j k' j' u : Nat} (hk : k ≤ L) (hk' : k' ≤ L) (hj : j < 2 ^ k) (hj' : j' < 2 ^ k')
    (hl : Leaf a k j) (hl' : Leaf a k' j') (hu : u / 2 ^ (L - k) = j)
    (hu' : u / 2 ^ (L - k') = j') : k = k' ∧ j = j' := by
  have key : ∀ {k j k' j' : Nat}, k ≤ L → k' ≤ L → j < 2 ^ k → j' < 2 ^ k' → Leaf a k j →
      Leaf a k' j' → u / 2 ^ (L - k) = j → u / 2 ^ (L - k') = j' → ¬ k < k' := by
    intro k j k' j' hk hk' hj hj' hl hl' hu hu' hlt
    have hs := hc.anc_split hk' hj' hl' (k' - k) (by omega) (by omega)
    have e1 : k' - (k' - k) = k := by omega
    have e2 : j' / 2 ^ (k' - k) = j := by
      rw [← hu', Nat.div_div_eq_div_mul, ← pow_add, ← hu]
      congr 2; omega
    rw [e1, e2] at hs
    exact hl.2 hs
  rcases Nat.lt_trichotomy k k' with hlt | heq | hgt
  · exact absurd hlt (key hk hk' hj hj' hl hl' hu hu')
  · subst heq; exact ⟨rfl, by rw [← hu, ← hu']⟩
  · exact absurd hgt (key hk' hk hj' hj hl' hl hu' hu)

end BuddyAllocator

namespace BuddyAllocator
open BlockStatus


/-! ## Steps of the operations preserve the invariant -/

theorem upd_self {α : Type} (f : Nat → α) (i : Nat) : upd f i (f i) = f := by
  funext j
  by_cases h : j = i
  · subst h; simp
  · simp [h]

/-- Popping the head of a free list makes it the pending block. -/
theorem PInv.pop {a a' : BuddyAllocator} {L : Nat} {lists : Nat → List Nat}
    {live : List (Nat × Nat)} (h : PInv a L lists live none) {s x : Nat} {xs : List Nat}
    (hl : lists s = x :: xs) (hg : Geom a' L) (hbi : a'.m_blockInfo = a.m_blockInfo)
    (hh : HeapOK a' (upd lists s xs)) :
    ∃ j, s ≤ L ∧ j < 2 ^ s ∧ x = blockAddr L s j ∧
      PInv a' L (upd lists s xs) live (some (s, j)) := by
  have hx : x ∈ lists s := by rw [hl]; simp
  obtain ⟨hs, j, hj, hxj, hleaf, hlive, _⟩ := (h.mem_lists s x).mp hx
  have hnd := h.heap.nodup s
  rw [hl] at hnd
  have hxx : x ∉ xs := (List.nodup_cons.mp hnd).1
  refine ⟨j, hs, hj, hxj, ?_⟩
  refine ⟨hg, by rw [hbi]; exact h.closed, by rw [hbi]; exact h.bottom, hh, ?_,
    by rw [hbi]; exact h.live_ok, h.live_nodup, ?_⟩
  · intro k y
    rw [hbi, mem_upd_list]
    constructor
    · rintro (⟨rfl, hy⟩ | ⟨hk, hy⟩)
      · have hy' : y ∈ lists k := by rw [hl]; exact List.mem_cons_of_mem _ hy
        obtain ⟨h1, j', h2, h3, h4, h5, _⟩ := (h.mem_lists k y).mp hy'
        refine ⟨h1, j', h2, h3, h4, h5, ?_⟩
        intro e
        simp only [Option.some.injEq, Prod.mk.injEq, true_and] at e
        subst e
        rw [← hxj] at h3
        subst h3
        exact hxx hy
      · obtain ⟨h1, j', h2, h3, h4, h5, _⟩ := (h.mem_lists k y).mp hy
        refine ⟨h1, j', h2, h3, h4, h5, ?_⟩
        intro e
        simp only [Option.some.injEq, Prod.mk.injEq] at e
        exact hk e.1.symm
    · rintro ⟨h1, j', h2, h3, h4, h5, h6⟩
      have hy : y ∈ lists k := (h.mem_lists k y).mpr ⟨h1, j', h2, h3, h4, h5, by simp⟩
      by_cases hk : k = s
      · subst hk
        left
        refine ⟨rfl, ?_⟩
        rw [hl] at hy
        rcases List.mem_cons.mp hy with e | hy
        · exfalso
          apply h6
          rw [e, hxj] at h3
          rw [blockAddr_inj h3]
        · exact hy
      · right; exact ⟨hk, hy⟩
  · intro k j' e
    simp only [Option.some.injEq, Prod.mk.injEq] at e
    obtain ⟨rfl, rfl⟩ := e
    exact ⟨hs, hj, by rw [hbi]; exact hleaf, by rw [← hxj]; exact hlive⟩

/-- Pushing the pending block onto the free list of its level. -/
theorem PInv.push {a a' : BuddyAllocator} {L : Nat} {lists : Nat → List Nat}
    {live : List (Nat × Nat)} {t j : Nat} (h : PInv a L lists live (some (t, j)))
    (hg : Geom a' L) (hbi : a'.m_blockInfo = a.m_blockInfo)
    (hh : HeapOK a' (upd lists t (blockAddr L t j :: lists t))) :
    PInv a' L (upd lists t (blockAddr L t j :: lists t)) live none := by
  obtain ⟨ht, hj, hleaf, hlive⟩ := h.pend_ok t j rfl
  refine ⟨hg, by rw [hbi]; exact h.closed, by rw [hbi]; exact h.bottom, hh, ?_,
    by rw [hbi]; exact h.live_ok, h.live_nodup, by intro k j' e; simp at e⟩
  intro k y
  rw [hbi, mem_upd_list]
  constructor
  · rintro (⟨rfl, hy⟩ | ⟨hk, hy⟩)
    · rcases List.mem_cons.mp hy with e | hy
      · subst e
        exact ⟨ht, j, hj, rfl, hleaf, hlive, by simp⟩
      · obtain ⟨h1, j', h2, h3, h4, h5, _⟩ := (h.mem_lists k y).mp hy
        exact ⟨h1, j', h2, h3, h4, h5, by simp⟩
    · obtain ⟨h1, j', h2, h3, h4, h5, _⟩ := (h.mem_lists k y).mp hy
      exact ⟨h1, j', h2, h3, h4, h5, by simp⟩
  · rintro ⟨h1, j', h2, h3, h4, h5, _⟩
    by_cases hp : k = t ∧ j' = j
    · obtain ⟨rfl, rfl⟩ := hp
      left; exact ⟨rfl, by rw [h3]; simp⟩
    · have hy : y ∈ lists k := (h.mem_lists k y).mpr ⟨h1, j', h2, h3, h4, h5, by
        intro e
        simp only [Option.some.injEq, Prod.mk.injEq] at e
        exact hp ⟨e.1.symm, e.2.symm⟩⟩
      by_cases hk : k = t
      · subst hk; left; exact ⟨rfl, List.mem_cons_of_mem _ hy⟩
      · right; exact ⟨hk, hy⟩

/-- Rewriting the status of an accounted block with a status other than
`Split` changes no block's being accounted. -/
theorem Leaf_upd_nonsplit {bi : Nat → BlockStatus} {k j : Nat} {v : BlockStatus}
    (hj : j < 2 ^ k) (hs : st bi k j ≠ Split) (hv : v ≠ Split) {k' j' : Nat}
    (hj' : j' < 2 ^ k') :
    Leaf (upd bi (cell k j) v) k' j' ↔ Leaf bi k' j' := by
  unfold Leaf
  have hown : st (upd bi (cell k j) v) k' j' ≠ Split ↔ st bi k' j' ≠ Split := by
    rw [st_upd bi v hj hj']
    split_ifs with e
    · obtain ⟨rfl, rfl⟩ := e
      exact ⟨fun _ => hs, fun _ => hv⟩
    · rfl
  rcases Nat.eq_zero_or_pos k' with h0 | h0
  · subst h0; simp [hown]
  · have hpar : j' / 2 < 2 ^ (k' - 1) := by
      have : k' = (k' - 1) + 1 := by omega
      rw [this] at hj'
      exact half_lt hj'
    have hparent : st (upd bi (cell k j) v) (k' - 1) (j' / 2) = Split ↔
        st bi (k' - 1) (j' / 2) = Split := by
      rw [st_upd bi v hj hpar]
      split_ifs with e
      · obtain ⟨e1, e2⟩ := e
        rw [e1, e2]
        exact ⟨fun e => absurd e hv, fun e => absurd e hs⟩
      · rfl
    rw [hown, hparent]

theorem Closed_upd_nonsplit {bi : Nat → BlockStatus} {L k j : Nat} {v : BlockStatus}
    (hc : Closed bi L) (hj : j < 2 ^ k) (hl : Leaf bi k j) :
    Closed (upd bi (cell k j) v) L := by
  intro k' j' hk' hj' hs
  have hj1 : 2 * j' < 2 ^ (k' + 1) := by rw [pow_succ]; omega
  have hj2 : 2 * j' + 1 < 2 ^ (k' + 1) := by rw [pow_succ]; omega
  have hold : st bi k' j' ≠ Split := by
    rw [st_upd bi v hj hj'] at hs
    split_ifs at hs with e
    · obtain ⟨rfl, rfl⟩ := e; exact hl.2
    · exact hs
  have hnotpar : ¬ (k' + 1 = k ∧ (2 * j' = j ∨ 2 * j' + 1 = j)) := by
    rintro ⟨rfl, hjj⟩
    rcases hl.1 with h0 | hp
    · omega
    · have : j / 2 = j' := by omega
      simp only [Nat.add_sub_cancel, this] at hp
      exact hold hp
  obtain ⟨h1, h2⟩ := hc k' j' hk' hj' hold
  rw [st_upd bi v hj hj1, st_upd bi v hj hj2]
  constructor
  · rw [if_neg (fun e => hnotpar ⟨e.1, Or.inl e.2⟩)]; exact h1
  · rw [if_neg (fun e => hnotpar ⟨e.1, Or.inr e.2⟩)]; exact h2

theorem bottom_upd {bi : Nat → BlockStatus} {L k j : Nat} {v : BlockStatus}
    (hb : ∀ j, j < 2 ^ L → st bi L j ≠ Split) (hj : j < 2 ^ k) (hv : k = L → v ≠ Split) :
    ∀ j', j' < 2 ^ L → st (upd bi (cell k j) v) L j' ≠ Split := by
  intro j' hj'
  rw [st_upd bi v hj hj']
  split_ifs with e
  · exact hv e.1.symm
  · exact hb j' hj'

/-- Marking the pending block `Allocated` makes it live. -/
theorem PInv.markAllocated {a a' : BuddyAllocator} {L : Nat} {lists : Nat → List Nat}
    {live : List (Nat × Nat)} {k j : Nat} (h : PInv a L lists live (some (k, j)))
    (hg : Geom a' L) (hbi : a'.m_blockInfo = upd a.m_blockInfo (cell k j) Allocated)
    (hh : HeapOK a' lists) :
    PInv a' L lists ((blockAddr L k j, k) :: live) none := by
  obtain ⟨hk, hj, hleaf, hlive⟩ := h.pend_ok k j rfl
  have hL : ∀ {k' j' : Nat}, j' < 2 ^ k' →
      (Leaf a'.m_blockInfo k' j' ↔ Leaf a.m_blockInfo k' j') := by
    intro k' j' hj'
    rw [hbi]
    exact Leaf_upd_nonsplit hj hleaf.2 (by decide) hj'
  refine ⟨hg, by rw [hbi]; exact Closed_upd_nonsplit h.closed hj hleaf,
    by rw [hbi]; exact bottom_upd h.bottom hj (fun _ => by decide), hh, ?_, ?_,
    List.nodup_cons.mpr ⟨hlive, h.live_nodup⟩, by intro k j' e; simp at e⟩
  · intro k' y
    rw [h.mem_lists k' y]
    constructor
    · rintro ⟨h1, j', h2, h3, h4, h5, h6⟩
      refine ⟨h1, j', h2, h3, (hL h2).mpr h4, ?_, by simp⟩
      intro hm
      rcases List.mem_cons.mp hm with e | hm
      · simp only [Prod.mk.injEq] at e
        obtain ⟨e1, rfl⟩ := e
        rw [h3] at e1
        have := blockAddr_inj e1
        subst this
        exact h6 rfl
      · exact h5 hm
    · rintro ⟨h1, j', h2, h3, h4, h5, _⟩
      refine ⟨h1, j', h2, h3, (hL h2).mp h4, fun hm => h5 (List.mem_cons_of_mem _ hm), ?_⟩
      intro e
      simp only [Option.some.injEq, Prod.mk.injEq] at e
      obtain ⟨rfl, rfl⟩ := e
      exact h5 (by rw [h3]; exact List.mem_cons_self _ _)
  · intro p k' hm
    rcases List.mem_cons.mp hm with e | hm
    · simp only [Prod.mk.injEq] at e
      obtain ⟨rfl, rfl⟩ := e
      refine ⟨hk, j, hj, rfl, (hL hj).mpr hleaf, ?_⟩
      rw [hbi, st_upd _ _ hj hj]; simp
    · obtain ⟨h1, j', h2, h3, h4, h5⟩ := h.live_ok p k' hm
      refine ⟨h1, j', h2, h3, (hL h2).mpr h4, ?_⟩
      rw [hbi, st_upd _ _ hj h2]
      split_ifs
      · rfl
      · exact h5

/-- Taking a live block out of the accounting, with its status rewritten
to `v`. -/
theorem PInv.unmark {a a' : BuddyAllocator} {L : Nat} {lists : Nat → List Nat}
    {live : List (Nat × Nat)} {p k j : Nat} {v : BlockStatus}
    (h : PInv a L lists live none) (hp : (p, k) ∈ live) (hj : j < 2 ^ k)
    (hpj : p = blockAddr L k j) (hv : v ≠ Split)
    (hg : Geom a' L) (hbi : a'.m_blockInfo = upd a.m_blockInfo (cell k j) v)
    (hh : HeapOK a' lists) :
    PInv a' L lists (live.erase (p, k)) (some (k, j)) := by
  obtain ⟨hk, j0, hj0, hpj0, hleaf0, hst0⟩ := h.live_ok p k hp
  have hjj : j0 = j := blockAddr_inj (hpj0.symm.trans hpj)
  subst hjj
  have hL : ∀ {k' j' : Nat}, j' < 2 ^ k' →
      (Leaf a'.m_blockInfo k' j' ↔ Leaf a.m_blockInfo k' j') := by
    intro k' j' hj'
    rw [hbi]
    exact Leaf_upd_nonsplit hj hleaf0.2 hv hj'
  have hmem : ∀ q : Nat × Nat, q ∈ live.erase (p, k) ↔ q ≠ (p, k) ∧ q ∈ live :=
    fun q => List.Nodup.mem_erase_iff h.live_nodup
  refine ⟨hg, by rw [hbi]; exact Closed_upd_nonsplit h.closed hj hleaf0,
    by rw [hbi]; exact bottom_upd h.bottom hj (fun _ => hv), hh, ?_, ?_,
    h.live_nodup.erase _, ?_⟩
  · intro k' y
    rw [h.mem_lists k' y]
    constructor
    · rintro ⟨h1, j', h2, h3, h4, h5, _⟩
      refine ⟨h1, j', h2, h3, (hL h2).mpr h4, fun hm => h5 ((hmem _).mp hm).2, ?_⟩
      intro e
      simp only [Option.some.injEq, Prod.mk.injEq] at e
      obtain ⟨rfl, rfl⟩ := e
      exact h5 (by rw [h3, ← hpj]; exact hp)
    · rintro ⟨h1, j', h2, h3, h4, h5, h6⟩
      refine ⟨h1, j', h2, h3, (hL h2).mp h4, ?_, by simp⟩
      intro hm
      apply h5
      rw [hmem]
      refine ⟨?_, hm⟩
      intro e
      simp only [Prod.mk.injEq] at e
      obtain ⟨e1, rfl⟩ := e
      rw [h3, hpj] at e1
      have := blockAddr_inj e1
      subst this
      exact h6 rfl
  · intro q k' hm
    obtain ⟨hne, hm⟩ := (hmem _).mp hm
    obtain ⟨h1, j', h2, h3, h4, h5⟩ := h.live_ok q k' hm
    refine ⟨h1, j', h2, h3, (hL h2).mpr h4, ?_⟩
    rw [hbi, st_upd _ _ hj h2]
    rw [if_neg]
    · exact h5
    · rintro ⟨rfl, rfl⟩
      exact hne (by rw [h3, hpj])
  · intro k' j' e
    simp only [Option.some.injEq, Prod.mk.injEq] at e
    obtain ⟨rfl, rfl⟩ := e
    refine ⟨hk, hj, (hL hj).mpr hleaf0, ?_⟩
    rw [← hpj, hmem]
    exact fun hc => hc.1 rfl

end BuddyAllocator

namespace BuddyAllocator
open BlockStatus


/-- No block inside the pending block is linked in a free list. -/
theorem PInv.fresh {a : BuddyAllocator} {L : Nat} {lists : Nat → List Nat}
    {live : List (Nat × Nat)} {t j : Nat} (h : PInv a L lists live (some (t, j)))
    {k i : Nat} (hk : t ≤ k) (hkL : k ≤ L) (hi : i / 2 ^ (k - t) = j) :
    ∀ k', blockAddr L k i ∉ lists k' := by
  intro k' hm
  obtain ⟨h1, j', h2, h3, h4, _, h6⟩ := (h.mem_lists k' _).mp hm
  obtain ⟨ht, hj, hleaf, _⟩ := h.pend_ok t j rfl
  rw [blockAddr_eq, blockAddr_eq] at h3
  have hu0 : i * 2 ^ (L - k) = j' * 2 ^ (L - k') := by omega
  have hu' : (i * 2 ^ (L - k)) / 2 ^ (L - k') = j' := by
    rw [hu0]; exact Nat.mul_div_cancel _ (by positivity)
  have hu : (i * 2 ^ (L - k)) / 2 ^ (L - t) = j := by
    rw [pow_split hk hkL, Nat.mul_comm i, Nat.mul_div_mul_left _ _ (by positivity)]
    exact hi
  obtain ⟨e1, e2⟩ := h.closed.leaf_unique ht h1 hj h2 hleaf h4 hu hu'
  subst e1 e2
  exact h6 rfl

theorem Leaf_upd_split {bi : Nat → BlockStatus} {L t j : Nat} (hc : Closed bi L) (ht : t < L)
    (hj : j < 2 ^ t) (hs : st bi t j ≠ Split) {k' j' : Nat} (hj' : j' < 2 ^ k') :
    Leaf (upd bi (cell t j) Split) k' j' ↔
      ¬ (k' = t ∧ j' = j) ∧ (Leaf bi k' j' ∨ (k' = t + 1 ∧ j' / 2 = j)) := by
  obtain ⟨hc1, hc2⟩ := hc t j ht hj hs
  unfold Leaf
  rw [st_upd bi Split hj hj']
  rcases Nat.eq_zero_or_pos k' with h0 | h0
  · subst h0
    by_cases e : 0 = t ∧ j' = j
    · simp [e]
    · simp only [e, if_false, true_or, true_and, not_false_eq_true]
      constructor
      · intro h; exact Or.inl h
      · rintro (h | ⟨h, _⟩)
        · exact h
        · omega
  · have hpar : j' / 2 < 2 ^ (k' - 1) := by
      have : k' = (k' - 1) + 1 := by omega
      rw [this] at hj'
      exact half_lt hj'
    rw [st_upd bi Split hj hpar]
    have hk0 : k' ≠ 0 := by omega
    by_cases e : k' = t ∧ j' = j
    · simp [e]
    · by_cases e2 : k' - 1 = t ∧ j' / 2 = j
      · obtain ⟨e3, e4⟩ := e2
        have hk' : k' = t + 1 := by omega
        subst hk'
        have hown : st bi (t + 1) j' ≠ Split := by
          rcases Nat.mod_two_eq_zero_or_one j' with hm | hm
          · have : j' = 2 * j := by omega
            rw [this, hc1]; decide
          · have : j' = 2 * j + 1 := by omega
            rw [this, hc2]; decide
        simp [e, e4, hown]
      · simp only [e, e2, if_false, hk0, false_or, not_false_eq_true, true_and]
        constructor
        · intro h; exact Or.inl h
        · rintro (h | ⟨h1, h2⟩)
          · exact h
          · exact absurd ⟨by omega, h2⟩ e2

/-- One round of the split loop: the pending block is split, its right half
is pushed on the next level's list and its left half becomes pending. -/
theorem PInv.splitStep {a a' : BuddyAllocator} {L : Nat} {lists : Nat → List Nat}
    {live : List (Nat × Nat)} {t j : Nat} (h : PInv a L lists live (some (t, j)))
    (ht : t < L) (hg : Geom a' L)
    (hbi : a'.m_blockInfo =
      upd (upd a.m_blockInfo (cell t j) Split) (cell (t + 1) (2 * j + 1)) Free)
    (hh : HeapOK a' (upd lists (t + 1) (blockAddr L (t + 1) (2 * j + 1) :: lists (t + 1)))) :
    PInv a' L (upd lists (t + 1) (blockAddr L (t + 1) (2 * j + 1) :: lists (t + 1))) live
      (some (t + 1, 2 * j)) := by
  obtain ⟨_, hj, hleaf, hlive⟩ := h.pend_ok t j rfl
  obtain ⟨hc1, hc2⟩ := h.closed t j ht hj hleaf.2
  have hj1 : 2 * j < 2 ^ (t + 1) := by rw [pow_succ]; omega
  have hj2 : 2 * j + 1 < 2 ^ (t + 1) := by rw [pow_succ]; omega
  have hbi' : a'.m_blockInfo = upd a.m_blockInfo (cell t j) Split := by
    rw [hbi]
    have : upd a.m_blockInfo (cell t j) Split (cell (t + 1) (2 * j + 1)) = Free := by
      have := st_upd a.m_blockInfo Split hj hj2
      unfold st at this hc2
      rw [this, if_neg (by omega), hc2]
    rw [← this, upd_self]
  have hL : ∀ {k' j' : Nat}, j' < 2 ^ k' → (Leaf a'.m_blockInfo k' j' ↔
      ¬ (k' = t ∧ j' = j) ∧ (Leaf a.m_blockInfo k' j' ∨ (k' = t + 1 ∧ j' / 2 = j))) := by
    intro k' j' hj'
    rw [hbi']
    exact Leaf_upd_split h.closed ht hj hleaf.2 hj'
  have hnotleaf : ∀ {j' : Nat}, j' / 2 = j → ¬ Leaf a.m_blockInfo (t + 1) j' := by
    intro j' e hl
    rcases hl.1 with h0 | hp
    · omega
    · simp only [Nat.add_sub_cancel, e] at hp
      exact hleaf.2 hp
  refine ⟨hg, by rw [hbi']; exact Closed_upd_nonsplit h.closed hj hleaf,
    by rw [hbi']; exact bottom_upd h.bottom hj (fun e => by omega), hh, ?_, ?_,
    h.live_nodup, ?_⟩
  · intro k y
    rw [mem_upd_list]
    constructor
    · rintro (⟨rfl, hy⟩ | ⟨hk, hy⟩)
      · rcases List.mem_cons.mp hy with e | hy
        · subst e
          refine ⟨ht, 2 * j + 1, hj2, rfl, (hL hj2).mpr ⟨by omega, Or.inr ⟨rfl, by omega⟩⟩,
            ?_, ?_⟩
          · intro hm
            obtain ⟨_, j', h2, h3, h4, _⟩ := h.live_ok _ _ hm
            have := blockAddr_inj h3
            subst this
            exact hnotleaf (by omega) h4
          · intro e
            simp only [Option.some.injEq, Prod.mk.injEq] at e
            omega
        · obtain ⟨h1, j', h2, h3, h4, h5, h6⟩ := (h.mem_lists _ y).mp hy
          refine ⟨h1, j', h2, h3, (hL h2).mpr ⟨by omega, Or.inl h4⟩, h5, ?_⟩
          intro e
          simp only [Option.some.injEq, Prod.mk.injEq] at e
          exact hnotleaf (by omega) h4
      · obtain ⟨h1, j', h2, h3, h4, h5, h6⟩ := (h.mem_lists _ y).mp hy
        refine ⟨h1, j', h2, h3, (hL h2).mpr ⟨?_, Or.inl h4⟩, h5, ?_⟩
        · rintro ⟨rfl, rfl⟩; exact h6 rfl
        · intro e
          simp only [Option.some.injEq, Prod.mk.injEq] at e
          exact hk e.1.symm
    · rintro ⟨h1, j', h2, h3, h4, h5, h6⟩
      obtain ⟨hne, hor⟩ := (hL h2).mp h4
      rcases hor with hl | ⟨rfl, hjj⟩
      · have hy : y ∈ lists k := (h.mem_lists k y).mpr ⟨h1, j', h2, h3, hl, h5, by
          intro e
          simp only [Option.some.injEq, Prod.mk.injEq] at e
          exact hne ⟨e.1.symm, e.2.symm⟩⟩
        by_cases hk : k = t + 1
        · subst hk; left; exact ⟨rfl, List.mem_cons_of_mem _ hy⟩
        · right; exact ⟨hk, hy⟩
      · left
        refine ⟨rfl, ?_⟩
        have : j' = 2 * j + 1 := by
          rcases Nat.mod_two_eq_zero_or_one j' with hm | hm
          · exfalso; apply h6
            have : j' = 2 * j := by omega
            rw [this]
          · omega
        rw [h3, this]
        exact List.mem_cons_self _ _
  · intro p k hm
    obtain ⟨h1, j', h2, h3, h4, h5⟩ := h.live_ok p k hm
    have hne : ¬ (k = t ∧ j' = j) := by
      rintro ⟨rfl, rfl⟩
      exact hlive (by rw [← h3]; exact hm)
    refine ⟨h1, j', h2, h3, (hL h2).mpr ⟨hne, Or.inl h4⟩, ?_⟩
    rw [hbi', st_upd _ _ hj h2, if_neg hne]
    exact h5
  · intro k j' e
    simp only [Option.some.injEq, Prod.mk.injEq] at e
    obtain ⟨rfl, rfl⟩ := e
    refine ⟨ht, hj1, (hL hj1).mpr ⟨by omega, Or.inr ⟨rfl, by omega⟩⟩, ?_⟩
    intro hm
    obtain ⟨_, j', h2, h3, h4, _⟩ := h.live_ok _ _ hm
    have := blockAddr_inj h3
    subst this
    exact hnotleaf (by omega) h4

end BuddyAllocator

namespace BuddyAllocator
open BlockStatus


theorem sib_children (j : Nat) :
    (2 * (j / 2) = j ∧ 2 * (j / 2) + 1 = sib j) ∨ (2 * (j / 2) = sib j ∧ 2 * (j / 2) + 1 = j) := by
  unfold sib; split_ifs <;> omega

/-- The free buddy of the pending block is linked in the list of its level. -/
theorem PInv.buddy_mem {a : BuddyAllocator} {L : Nat} {lists : Nat → List Nat}
    {live : List (Nat × Nat)} {t j : Nat} (h : PInv a L lists live (some (t + 1, j)))
    (hb : st a.m_blockInfo (t + 1) (sib j) = Free) :
    blockAddr L (t + 1) (sib j) ∈ lists (t + 1) := by
  obtain ⟨ht, hj, hleaf, _⟩ := h.pend_ok (t + 1) j rfl
  have hsj := sib_lt hj
  have hl : Leaf a.m_blockInfo (t + 1) (sib j) := by
    refine ⟨?_, by rw [hb]; decide⟩
    rcases hleaf.1 with h0 | hp
    · omega
    · right; rw [sib_div]; exact hp
  refine (h.mem_lists _ _).mpr ⟨ht, sib j, hsj, rfl, hl, ?_, ?_⟩
  · intro hm
    obtain ⟨_, j', _, h3, _, h5⟩ := h.live_ok _ _ hm
    have := blockAddr_inj h3
    subst this
    rw [hb] at h5
    exact absurd h5 (by decide)
  · intro e
    simp only [Option.some.injEq, Prod.mk.injEq, true_and] at e
    exact sib_ne j e.symm

theorem Leaf_upd_merge {bi : Nat → BlockStatus} {L t j : Nat} (hc : Closed bi L)
    (ht : t + 1 ≤ L) (hj : j < 2 ^ (t + 1)) (hs : st bi t (j / 2) = Split) {k' j' : Nat}
    (hj' : j' < 2 ^ k') :
    Leaf (upd bi (cell t (j / 2)) Free) k' j' ↔
      (k' = t ∧ j' = j / 2) ∨ (Leaf bi k' j' ∧ ¬ (k' = t + 1 ∧ j' / 2 = j / 2)) := by
  have hjh := half_lt hj
  unfold Leaf
  rw [st_upd bi Free hjh hj']
  rcases Nat.eq_zero_or_pos k' with h0 | h0
  · subst h0
    by_cases e : 0 = t ∧ j' = j / 2
    · simp [e]
    · simp only [e, if_false, true_or, true_and, false_or]
      constructor
      · intro h; exact ⟨h, by omega⟩
      · rintro ⟨h, _⟩; exact h
  · have hpar : j' / 2 < 2 ^ (k' - 1) := by
      have : k' = (k' - 1) + 1 := by omega
      rw [this] at hj'
      exact half_lt hj'
    rw [st_upd bi Free hjh hpar]
    have hk0 : k' ≠ 0 := by omega
    by_cases e : k' = t ∧ j' = j / 2
    · obtain ⟨rfl, rfl⟩ := e
      have hgp : st bi (k' - 1) (j / 2 / 2) = Split := by
        have : k' = (k' - 1) + 1 := by omega
        have hs' := hs
        rw [this] at hs' hjh
        have := hc.parent_split (by omega) hjh (by rw [hs']; decide)
        exact this
      have hne : ¬ (k' - 1 = k' ∧ j / 2 / 2 = j / 2) := by omega
      simp [hne, hgp]
    · by_cases e2 : k' - 1 = t ∧ j' / 2 = j / 2
      · obtain ⟨e3, e4⟩ := e2
        have hk' : k' = t + 1 := by omega
        subst hk'
        simp [e, e4]
      · have e2' : ¬ (k' = t + 1 ∧ j' / 2 = j / 2) := by
          rintro ⟨h1, h2⟩
          exact e2 ⟨by omega, h2⟩
        simp only [e, e2, e2', if_false, hk0, false_or, not_false_eq_true, and_true]

/-- One round of the merge loop: the free buddy of the pending block is
unlinked and the parent, marked `Free`, becomes pending. -/
theorem PInv.mergeStep {a a' : BuddyAllocator} {L : Nat} {lists : Nat → List Nat}
    {live : List (Nat × Nat)} {t j : Nat} (h : PInv a L lists live (some (t + 1, j)))
    (hf : st a.m_blockInfo (t + 1) j = Free) (hb : st a.m_blockInfo (t + 1) (sib j) = Free)
    (hg : Geom a' L) (hbi : a'.m_blockInfo = upd a.m_blockInfo (cell t (j / 2)) Free)
    (hh : HeapOK a'
      (upd lists (t + 1) ((lists (t + 1)).erase (blockAddr L (t + 1) (sib j))))) :
    PInv a' L (upd lists (t + 1) ((lists (t + 1)).erase (blockAddr L (t + 1) (sib j)))) live
      (some (t, j / 2)) := by
  obtain ⟨ht, hj, hleaf, hlive⟩ := h.pend_ok (t + 1) j rfl
  have hjh := half_lt hj
  have hsj := sib_lt hj
  have hps : st a.m_blockInfo t (j / 2) = Split := by
    rcases hleaf.1 with h0 | hp
    · omega
    · simpa using hp
  have hL : ∀ {k' j' : Nat}, j' < 2 ^ k' → (Leaf a'.m_blockInfo k' j' ↔
      (k' = t ∧ j' = j / 2) ∨ (Leaf a.m_blockInfo k' j' ∧ ¬ (k' = t + 1 ∧ j' / 2 = j / 2))) := by
    intro k' j' hj'
    rw [hbi]
    exact Leaf_upd_merge h.closed ht hj hps hj'
  have hnd := h.heap.nodup (t + 1)
  have hnotleaf : ¬ Leaf a.m_blockInfo t (j / 2) := fun hl => hl.2 hps
  refine ⟨hg, ?_, by rw [hbi]; exact bottom_upd h.bottom hjh (fun _ => by decide), hh, ?_, ?_,
    h.live_nodup, ?_⟩
  · -- closed
    rw [hbi]
    intro k' j' hk' hj' hs
    have hj1 : 2 * j' < 2 ^ (k' + 1) := by rw [pow_succ]; omega
    have hj2 : 2 * j' + 1 < 2 ^ (k' + 1) := by rw [pow_succ]; omega
    rw [st_upd _ Free hjh hj1, st_upd _ Free hjh hj2]
    by_cases e : k' = t ∧ j' = j / 2
    · obtain ⟨rfl, rfl⟩ := e
      rw [if_neg (by omega), if_neg (by omega)]
      rcases sib_children j with ⟨e1, e2⟩ | ⟨e1, e2⟩
      · exact ⟨by rw [e1]; exact hf, by rw [e2]; exact hb⟩
      · exact ⟨by rw [e1]; exact hb, by rw [e2]; exact hf⟩
    · rw [st_upd _ Free hjh hj', if_neg e] at hs
      obtain ⟨h1, h2⟩ := h.closed k' j' hk' hj' hs
      have hnc : ∀ c, (c = 2 * j' ∨ c = 2 * j' + 1) → ¬ (k' + 1 = t ∧ c = j / 2) := by
        rintro c hc' ⟨e3, e4⟩
        subst e3
        have hsp := h.closed.parent_split (by omega) hjh (by rw [hps]; decide)
        have : j / 2 / 2 = j' := by omega
        rw [this] at hsp
        exact hs hsp
      rw [if_neg (hnc _ (Or.inl rfl)), if_neg (hnc _ (Or.inr rfl))]
      exact ⟨h1, h2⟩
  · -- mem_lists
    intro k y
    rw [mem_upd_list]
    constructor
    · rintro (⟨rfl, hy⟩ | ⟨hk, hy⟩)
      · obtain ⟨hyb, hy⟩ := (List.Nodup.mem_erase_iff hnd).mp hy
        obtain ⟨h1, j', h2, h3, h4, h5, h6⟩ := (h.mem_lists _ y).mp hy
        have hjj : ¬ (j' / 2 = j / 2) := by
          intro e
          rcases eq_or_sib_of_div e with rfl | rfl
          · exact h6 rfl
          · exact hyb h3
        refine ⟨h1, j', h2, h3, (hL h2).mpr (Or.inr ⟨h4, fun e => hjj e.2⟩), h5, ?_⟩
        intro e
        simp only [Option.some.injEq, Prod.mk.injEq] at e
        omega
      · obtain ⟨h1, j', h2, h3, h4, h5, h6⟩ := (h.mem_lists _ y).mp hy
        refine ⟨h1, j', h2, h3, (hL h2).mpr (Or.inr ⟨h4, fun e => hk e.1⟩), h5, ?_⟩
        intro e
        simp only [Option.some.injEq, Prod.mk.injEq] at e
        obtain ⟨rfl, rfl⟩ := e
        exact hnotleaf h4
    · rintro ⟨h1, j', h2, h3, h4, h5, h6⟩
      rcases (hL h2).mp h4 with ⟨rfl, rfl⟩ | ⟨hl, hne⟩
      · exact absurd rfl h6
      · have hy : y ∈ lists k := (h.mem_lists k y).mpr ⟨h1, j', h2, h3, hl, h5, by
          intro e
          simp only [Option.some.injEq, Prod.mk.injEq] at e
          obtain ⟨rfl, rfl⟩ := e
          exact hne ⟨rfl, rfl⟩⟩
        by_cases hk : k = t + 1
        · subst hk
          left
          refine ⟨rfl, (List.Nodup.mem_erase_iff hnd).mpr ⟨?_, hy⟩⟩
          intro e
          rw [h3] at e
          have := blockAddr_inj e
          subst this
          exact hne ⟨rfl, sib_div j⟩
        · right; exact ⟨hk, hy⟩
  · -- live_ok
    intro p k hm
    obtain ⟨h1, j', h2, h3, h4, h5⟩ := h.live_ok p k hm
    have hne : ¬ (k = t + 1 ∧ j' / 2 = j / 2) := by
      rintro ⟨rfl, e⟩
      rcases eq_or_sib_of_div e with rfl | rfl
      · rw [hf] at h5; exact absurd h5 (by decide)
      · rw [hb] at h5; exact absurd h5 (by decide)
    refine ⟨h1, j', h2, h3, (hL h2).mpr (Or.inr ⟨h4, hne⟩), ?_⟩
    rw [hbi, st_upd _ _ hjh h2, if_neg]
    · exact h5
    · rintro ⟨rfl, rfl⟩
      exact hnotleaf h4
  · -- pend_ok
    intro k j' e
    simp only [Option.some.injEq, Prod.mk.injEq] at e
    obtain ⟨rfl, rfl⟩ := e
    refine ⟨by omega, hjh, (hL hjh).mpr (Or.inl ⟨rfl, rfl⟩), ?_⟩
    intro hm
    obtain ⟨_, j', _, h3, h4, _⟩ := h.live_ok _ _ hm
    have := blockAddr_inj h3
    subst this
    exact hnotleaf h4

end BuddyAllocator

namespace BuddyAllocator
open BlockStatus


/-! ## The program's loops -/

theorem HeapOK.of_heap_eq {a a' : BuddyAllocator} {lists : Nat → List Nat} (h : HeapOK a lists)
    (hm : a'.mem = a.mem) (hf : a'.m_freeLists = a.m_freeLists) : HeapOK a' lists :=
  ⟨fun k => by rw [hm, hf]; exact h.seg k, h.nodup, h.disj⟩

theorem Geom.after_insertToList {a : BuddyAllocator} {L : Nat} (h : Geom a L) (b l : Nat) :
    Geom (insertToList a b l) L := h.of_fields_eq rfl rfl rfl rfl

theorem Geom.after_removeFromList {a : BuddyAllocator} {L : Nat} (h : Geom a L) (b l : Nat) :
    Geom (removeFromList a b l) L := by
  unfold BuddyAllocator.removeFromList
  by_cases hh : a.m_freeLists l = some b
  · simp only [hh, if_true]; exact h.of_fields_eq rfl rfl rfl rfl
  · simp only [hh, if_false]; exact h.of_fields_eq rfl rfl rfl rfl

theorem removeFromList_blockInfo (a : BuddyAllocator) (b l : Nat) :
    (removeFromList a b l).m_blockInfo = a.m_blockInfo := by
  unfold removeFromList
  by_cases hh : a.m_freeLists l = some b
  · simp only [hh, if_true]
  · simp only [hh, if_false]

theorem Geom.after_setBlockInfo {a : BuddyAllocator} {L : Nat} (h : Geom a L)
    (bi : Nat → BlockStatus) : Geom { a with m_blockInfo := bi } L := h.of_fields_eq rfl rfl rfl rfl

theorem levelOf_leaf {a : BuddyAllocator} {L : Nat} (hg : Geom a L)
    (hc : Closed a.m_blockInfo L) {k j : Nat} (hk : k ≤ L) (hj : j < 2 ^ k)
    (hl : Leaf a.m_blockInfo k j) : levelOf a (blockAddr L k j) = k := by
  have key : ∀ n, k ≤ n → n ≤ L → levelOfLoop a (blockAddr L k j) n = k := by
    intro n hn
    induction n, hn using Nat.le_induction with
    | base =>
      intro _
      cases k with
      | zero => rfl
      | succ k' =>
        have hidx := hg.indexOfLevel_up j (Nat.le_succ k') hk
        have hp : st a.m_blockInfo k' (j / 2) = Split := by
          rcases hl.1 with h0 | hp
          · omega
          · simpa using hp
        simp only [levelOfLoop, hidx]
        have : k' + 1 - k' = 1 := by omega
        rw [this, pow_one]
        unfold st at hp
        rw [if_pos hp]
    | succ n hn ih =>
      intro hnL
      have hidx := hg.indexOfLevel_down j hn (by omega : n ≤ L)
      have hne : a.m_blockInfo (cell n (j * 2 ^ (n - k))) ≠ Split := by
        rcases Nat.eq_or_lt_of_le hn with e | hlt
        · subst e
          simpa using hl.2
        · have := hc.left_spine hj hl.2 (n - k) (by omega) (by omega)
          have e : k + (n - k) = n := by omega
          rw [e] at this
          unfold st at this
          rw [this]; decide
      simp only [levelOfLoop, hidx, if_neg hne]
      exact ih (by omega)
  unfold levelOf
  rw [hg.maxLevel]
  exact key L hk (le_refl L)

theorem indexOf_leaf {a : BuddyAllocator} {L : Nat} (hg : Geom a L)
    (hc : Closed a.m_blockInfo L) {k j : Nat} (hk : k ≤ L) (hj : j < 2 ^ k)
    (hl : Leaf a.m_blockInfo k j) : indexOf a (blockAddr L k j) = cell k j := by
  unfold indexOf
  rw [levelOf_leaf hg hc hk hj hl, hg.indexOfLevel_self j hk]

theorem findLevelLoop_spec {a : BuddyAllocator} {L : Nat} (hg : Geom a L) {n : Nat}
    (hn : n ≤ 16 * 2 ^ L) : ∀ m, m ≤ L →
    ∃ k, k ≤ m ∧ findLevelLoop a n m = some k ∧ n ≤ 16 * 2 ^ (L - k) ∧
      (k < m → 16 * 2 ^ (L - (k + 1)) < n) := by
  intro m
  induction m with
  | zero =>
    intro _
    refine ⟨0, le_refl 0, ?_, by simpa using hn, fun h => by omega⟩
    simp only [findLevelLoop, hg.size 0 (Nat.zero_le L), Nat.sub_zero]
    rw [if_neg (by omega)]
  | succ m ih =>
    intro hm
    simp only [findLevelLoop, hg.size (m + 1) hm]
    by_cases hgt : n > 16 * 2 ^ (L - (m + 1))
    · rw [if_pos hgt]
      obtain ⟨k, hk, h1, h2, h3⟩ := ih (by omega)
      refine ⟨k, by omega, h1, h2, fun _ => ?_⟩
      rcases Nat.eq_or_lt_of_le hk with e | hlt
      · subst e; exact hgt
      · exact h3 hlt
    · rw [if_neg hgt]
      exact ⟨m + 1, le_refl _, rfl, by omega, fun h => by omega⟩

theorem findLevel_spec {a : BuddyAllocator} {L : Nat} (hg : Geom a L) {n : Nat}
    (hn : n ≤ a.m_numBytes) :
    ∃ k, k ≤ L ∧ findLevel a n = some k ∧ n ≤ 16 * 2 ^ (L - k) ∧
      (k < L → 16 * 2 ^ (L - (k + 1)) < n) := by
  unfold findLevel
  rw [hg.maxLevel]
  rw [hg.numBytes] at hn
  exact findLevelLoop_spec hg hn L (le_refl L)

theorem searchLevel_none {a : BuddyAllocator} : ∀ k,
    searchLevel a k = none ↔ ∀ l, l ≤ k → a.m_freeLists l = none := by
  intro k
  induction k with
  | zero =>
    simp only [searchLevel]
    cases h : a.m_freeLists 0 with
    | none => simp [h]
    | some x =>
      simp only [Option.isSome_some, if_true]
      constructor
      · intro e; cases e
      · intro hall; have := hall 0 (le_refl 0); rw [h] at this; cases this
  | succ k ih =>
    simp only [searchLevel]
    cases h : a.m_freeLists (k + 1) with
    | none =>
      simp only [Option.isSome_none, Bool.false_eq_true, if_false]
      rw [ih]
      constructor
      · intro hall l hl
        rcases Nat.eq_or_lt_of_le hl with e | hlt
        · rw [e]; exact h
        · exact hall l (by omega)
      · intro hall l hl; exact hall l (by omega)
    | some x =>
      simp only [Option.isSome_some, if_true]
      constructor
      · intro e; cases e
      · intro hall; have := hall (k + 1) (le_refl _); rw [h] at this; cases this

theorem searchLevel_some {a : BuddyAllocator} : ∀ k s, searchLevel a k = some s →
    s ≤ k ∧ a.m_freeLists s ≠ none ∧ ∀ l, s < l → l ≤ k → a.m_freeLists l = none := by
  intro k
  induction k with
  | zero =>
    intro s hs
    simp only [searchLevel] at hs
    cases h : a.m_freeLists 0 with
    | none => simp [h] at hs
    | some x =>
      simp only [h, Option.isSome_some, if_true, Option.some.injEq] at hs
      subst hs
      exact ⟨le_refl 0, by rw [h]; simp, fun l h1 h2 => by omega⟩
  | succ k ih =>
    intro s hs
    simp only [searchLevel] at hs
    cases h : a.m_freeLists (k + 1) with
    | none =>
      simp only [h, Option.isSome_none, Bool.false_eq_true, if_false] at hs
      obtain ⟨h1, h2, h3⟩ := ih s hs
      refine ⟨by omega, h2, fun l hl1 hl2 => ?_⟩
      rcases Nat.eq_or_lt_of_le hl2 with e | hlt
      · rw [e]; exact h
      · exact h3 l hl1 (by omega)
    | some x =>
      simp only [h, Option.isSome_some, if_true, Option.some.injEq] at hs
      subst hs
      exact ⟨le_refl _, by rw [h]; simp, fun l h1 h2 => by omega⟩

end BuddyAllocator

namespace BuddyAllocator
open BlockStatus


/-! ## `split` and the split loop -/

theorem split_fst (a : BuddyAllocator) (index level : Nat) :
    (split a index level).1 =
      insertToList
        { a with m_blockInfo := upd (upd a.m_blockInfo index Split) (right index) Free }
        (addressOf
          { a with m_blockInfo := upd (upd a.m_blockInfo index Split) (right index) Free }
          (right index))
        (level + 1) := rfl

theorem split_snd (a : BuddyAllocator) (index level : Nat) :
    (split a index level).2 = left index := rfl

/-- Writing `Split` to the pending block and `Free` to its right half only
changes the pending block's cell: the right half is `Free` already. -/
theorem PInv.split_status {a : BuddyAllocator} {L : Nat} {lists : Nat → List Nat}
    {live : List (Nat × Nat)} {t j : Nat} (h : PInv a L lists live (some (t, j)))
    (ht : t < L) :
    upd (upd a.m_blockInfo (cell t j) Split) (cell (t + 1) (2 * j + 1)) Free =
      upd a.m_blockInfo (cell t j) Split := by
  obtain ⟨_, hj, hleaf, _⟩ := h.pend_ok t j rfl
  obtain ⟨_, hc2⟩ := h.closed t j ht hj hleaf.2
  have hj2 : 2 * j + 1 < 2 ^ (t + 1) := by rw [pow_succ]; omega
  have : upd a.m_blockInfo (cell t j) Split (cell (t + 1) (2 * j + 1)) = Free := by
    have := st_upd a.m_blockInfo Split hj hj2
    unfold st at this hc2
    rw [this, if_neg (by omega), hc2]
  conv_lhs => rw [← this]
  rw [upd_self]

/-- The effect of `split` on the pending block. -/
theorem PInv.split_spec {a : BuddyAllocator} {L : Nat} {lists : Nat → List Nat}
    {live : List (Nat × Nat)} {t j : Nat} (h : PInv a L lists live (some (t, j)))
    (ht : t < L) :
    PInv (split a (cell t j) t).1 L
        (upd lists (t + 1) (blockAddr L (t + 1) (2 * j + 1) :: lists (t + 1))) live
        (some (t + 1, 2 * j)) ∧
      (split a (cell t j) t).2 = cell (t + 1) (2 * j) ∧
      (split a (cell t j) t).1.m_blockInfo = upd a.m_blockInfo (cell t j) Split := by
  obtain ⟨_, hj, hleaf, _⟩ := h.pend_ok t j rfl
  have hj2 : 2 * j + 1 < 2 ^ (t + 1) := by rw [pow_succ]; omega
  have hg2 := h.geom.after_setBlockInfo
    (upd (upd a.m_blockInfo (cell t j) Split) (right (cell t j)) Free)
  have haddr := hg2.addressOf_cell (by omega : t + 1 ≤ L) hj2
  have hbi : (split a (cell t j) t).1.m_blockInfo =
      upd (upd a.m_blockInfo (cell t j) Split) (cell (t + 1) (2 * j + 1)) Free := by
    rw [split_fst, right_cell]; rfl
  have hheap : HeapOK (split a (cell t j) t).1
      (upd lists (t + 1) (blockAddr L (t + 1) (2 * j + 1) :: lists (t + 1))) := by
    rw [split_fst, right_cell] at *
    rw [haddr]
    have hh2 : HeapOK { a with m_blockInfo := upd (upd a.m_blockInfo (cell t j) Split) (cell (t + 1) (2 * j + 1)) Free } lists :=
      h.heap.of_heap_eq rfl rfl
    exact hh2.insert _ _ (h.fresh (by omega) (by omega) (by simp; omega))
  refine ⟨h.splitStep ht ?_ hbi hheap, ?_, ?_⟩
  · rw [split_fst]; exact hg2.after_insertToList _ _
  · rw [split_snd, left_cell]
  · rw [hbi, h.split_status ht]

theorem PInv.splitLoop_spec {L : Nat} {live : List (Nat × Nat)} : ∀ (d : Nat) {a : BuddyAllocator}
    {lists : Nat → List Nat} {t j : Nat}, PInv a L lists live (some (t, j)) → t + d ≤ L →
    ∃ lists', PInv (splitLoop d a (cell t j) t).1 L lists' live (some (t + d, j * 2 ^ d)) ∧
      (splitLoop d a (cell t j) t).2 = cell (t + d) (j * 2 ^ d) ∧
      (∀ l, ¬ (t < l ∧ l ≤ t + d) → lists' l = lists l) ∧
      (∀ l, t < l → l ≤ t + d →
        lists' l = blockAddr L l (j * 2 ^ (l - t) + 1) :: lists l) ∧
      (∀ e, e < d → st (splitLoop d a (cell t j) t).1.m_blockInfo (t + e) (j * 2 ^ e) = Split) ∧
      (∀ i, (∀ e, e < d → i ≠ cell (t + e) (j * 2 ^ e)) →
        (splitLoop d a (cell t j) t).1.m_blockInfo i = a.m_blockInfo i) := by
  intro d
  induction d with
  | zero =>
    intro a lists t j h _
    refine ⟨lists, by simpa [BuddyAllocator.splitLoop] using h, by simp [BuddyAllocator.splitLoop],
      fun l _ => rfl, fun l h1 h2 => by omega, fun e he => by omega, fun i _ => rfl⟩
  | succ d ih =>
    intro a lists t j h hL
    obtain ⟨_, hj, hleaf, _⟩ := h.pend_ok t j rfl
    obtain ⟨h1, h2, h3⟩ := h.split_spec (by omega : t < L)
    obtain ⟨lists', p1, p2, p3, p4, p5, p6⟩ := ih h1 (by omega : t + 1 + d ≤ L)
    have e1 : t + 1 + d = t + (d + 1) := by omega
    have e2 : 2 * j * 2 ^ d = j * 2 ^ (d + 1) := by rw [pow_succ]; ring
    have hstep : BuddyAllocator.splitLoop (d + 1) a (cell t j) t =
        BuddyAllocator.splitLoop d (BuddyAllocator.split a (cell t j) t).1 (cell (t + 1) (2 * j))
          (t + 1) := by
      simp only [BuddyAllocator.splitLoop, h2]
    rw [hstep]
    rw [e1, e2] at p1 p2
    refine ⟨lists', p1, p2, ?_, ?_, ?_, ?_⟩
    · intro l hl
      rw [p3 l (by omega), upd_ne _ _ (by omega)]
    · intro l hl1 hl2
      rcases Nat.eq_or_lt_of_le hl1 with e | hlt
      · have e' : l = t + 1 := by omega
        subst e'
        rw [p3 (t + 1) (by omega), upd_same]
        simp [Nat.mul_comm]
      · rw [p4 l (by omega) (by omega), upd_ne _ _ (by omega)]
        have : 2 * j * 2 ^ (l - (t + 1)) = j * 2 ^ (l - t) := by
          have : l - t = (l - (t + 1)) + 1 := by omega
          rw [this, pow_succ]; ring
        rw [this]
    · intro e he
      cases e with
      | zero =>
        have hne : ∀ e, e < d → cell t j ≠ cell (t + 1 + e) (2 * j * 2 ^ e) := by
          intro e _ hc
          have hpos : 2 * j * 2 ^ e < 2 ^ (t + 1 + e) := by
            rw [pow_add, pow_succ]
            have := Nat.mul_lt_mul_of_pos_right hj (Nat.two_pow_pos e)
            nlinarith
          have := (cell_inj hj hpos hc).1
          omega
        have := p6 (cell t j) hne
        unfold st
        simp only [Nat.add_zero, pow_zero, Nat.mul_one]
        rw [this, h3, upd_same]
      | succ e =>
        have := p5 e (by omega)
        have e3 : t + 1 + e = t + (e + 1) := by omega
        have e4 : 2 * j * 2 ^ e = j * 2 ^ (e + 1) := by rw [pow_succ]; ring
        rw [e3, e4] at this
        exact this
    · intro i hi
      rw [p6 i, h3, upd_ne]
      · have := hi 0 (by omega)
        simpa using this
      · intro e he
        have := hi (e + 1) (by omega)
        have e3 : t + 1 + e = t + (e + 1) := by omega
        have e4 : 2 * j * 2 ^ e = j * 2 ^ (e + 1) := by rw [pow_succ]; ring
        rw [e3, e4]
        exact this

end BuddyAllocator

namespace BuddyAllocator
open BlockStatus


/-! ## `allocate` -/

theorem allocate_zero (a : BuddyAllocator) : allocate a 0 = (none, a) := by
  simp [allocate]

theorem allocate_oversize (a : BuddyAllocator) {n : Nat} (h : n > a.m_numBytes) :
    allocate a n = (none, a) := by
  unfold allocate
  split_ifs <;> rfl

theorem allocate_exhausted (a : BuddyAllocator) {n k : Nat} (hk : findLevel a n = some k)
    (hs : searchLevel a k = none) : allocate a n = (none, a) := by
  unfold allocate
  split_ifs
  · rfl
  · rfl
  · simp only [hk, hs]

theorem allocate_found (a : BuddyAllocator) {n k s x : Nat} (hn0 : n ≠ 0)
    (hnS : ¬ n > a.m_numBytes) (hk : findLevel a n = some k) (hs : searchLevel a k = some s)
    (hx : a.m_freeLists s = some x) :
    allocate a n =
      (some x,
        { (splitLoop (k - s) (removeFromListFront a s).2
            (indexOf (removeFromListFront a s).2 x) s).1 with
          m_blockInfo :=
            upd (splitLoop (k - s) (removeFromListFront a s).2
                (indexOf (removeFromListFront a s).2 x) s).1.m_blockInfo
              (splitLoop (k - s) (removeFromListFront a s).2
                (indexOf (removeFromListFront a s).2 x) s).2 Allocated }) := by
  unfold allocate
  rw [if_neg hn0, if_neg hnS]
  simp only [hk, hs, removeFromListFront_some a s x hx]

theorem blockAddr_descend (L : Nat) {s k : Nat} (j : Nat) (hs : s ≤ k) (hk : k ≤ L) :
    blockAddr L k (j * 2 ^ (k - s)) = blockAddr L s j := by
  unfold blockAddr
  rw [pow_split hs hk]; ring

/-- The effect of a successful `allocate`. -/
theorem PInv.allocate_spec {a : BuddyAllocator} {L : Nat} {lists : Nat → List Nat}
    {live : List (Nat × Nat)} (h : PInv a L lists live none) {n k s x : Nat} {xs : List Nat}
    (hn0 : n ≠ 0) (hnS : ¬ n > a.m_numBytes) (hk : findLevel a n = some k) (hkL : k ≤ L)
    (hs : searchLevel a k = some s) (hl : lists s = x :: xs) :
    ∃ j lists', s ≤ k ∧ j < 2 ^ s ∧ x = blockAddr L s j ∧ (allocate a n).1 = some x ∧
      PInv (allocate a n).2 L lists' ((x, k) :: live) none ∧
      lists' s = xs ∧
      (∀ l, s < l → l ≤ k → lists' l = blockAddr L l (j * 2 ^ (l - s) + 1) :: lists l) ∧
      (∀ l, ¬ (s ≤ l ∧ l ≤ k) → lists' l = lists l) ∧
      (∀ e, e < k - s → st (allocate a n).2.m_blockInfo (s + e) (j * 2 ^ e) = Split) ∧
      st (allocate a n).2.m_blockInfo k (j * 2 ^ (k - s)) = Allocated ∧
      (∀ i, (∀ e, e ≤ k - s → i ≠ cell (s + e) (j * 2 ^ e)) →
        (allocate a n).2.m_blockInfo i = a.m_blockInfo i) := by
  have hsk := (searchLevel_some k s hs).1
  have hx := h.heap.head_cons hl
  obtain ⟨_, hheap1⟩ := h.heap.popFront hl
  have hrf := removeFromListFront_some a s x hx
  have hg1 : Geom (removeFromListFront a s).2 L := by
    rw [hrf]; exact h.geom.of_fields_eq rfl rfl rfl rfl
  have hbi1 : (removeFromListFront a s).2.m_blockInfo = a.m_blockInfo := by rw [hrf]
  obtain ⟨j, hsL, hj, hxj, hp1⟩ := h.pop hl hg1 hbi1 hheap1
  obtain ⟨_, _, hleaf1, _⟩ := hp1.pend_ok s j rfl
  have hidx : indexOf (removeFromListFront a s).2 x = cell s j := by
    rw [hxj]; exact indexOf_leaf hg1 hp1.closed hsL hj hleaf1
  obtain ⟨lists', q1, q2, q3, q4, q5, q6⟩ :=
    hp1.splitLoop_spec (k - s) (by omega : s + (k - s) ≤ L)
  have hfound := allocate_found a hn0 hnS hk hs hx
  rw [hidx] at hfound
  have e1 : s + (k - s) = k := by omega
  rw [e1] at q1 q3 q4
  obtain ⟨_, hjk, _, _⟩ := q1.pend_ok _ _ rfl
  have hfin : PInv (allocate a n).2 L lists'
      ((blockAddr L k (j * 2 ^ (k - s)), k) :: live) none := q1.markAllocated
    (by rw [hfound]; exact q1.geom.of_fields_eq rfl rfl rfl rfl)
    (by rw [hfound, q2, e1])
    (by rw [hfound]; exact q1.heap.of_heap_eq rfl rfl)
  rw [blockAddr_descend L j hsk hkL, ← hxj] at hfin
  have hbi : (allocate a n).2.m_blockInfo =
      upd (splitLoop (k - s) (removeFromListFront a s).2 (cell s j) s).1.m_blockInfo
        (cell k (j * 2 ^ (k - s))) Allocated := by
    rw [hfound, q2, e1]
  refine ⟨j, lists', hsk, hj, hxj, by rw [hfound], hfin, ?_, ?_, ?_, ?_, ?_, ?_⟩
  · rw [q3 s (by omega), upd_same]
  · intro l h1 h2
    rw [q4 l h1 h2, upd_ne _ _ (by omega)]
  · intro l hne
    rw [q3 l (by omega), upd_ne _ _ (by omega)]
  · intro e he
    have hpos : j * 2 ^ e < 2 ^ (s + e) := by
      rw [pow_add]; exact Nat.mul_lt_mul_of_pos_right hj (Nat.two_pow_pos e)
    rw [hbi, st_upd _ _ hjk hpos, if_neg (by omega)]
    exact q5 e he
  · rw [hbi, st_upd _ _ hjk hjk, if_pos ⟨rfl, rfl⟩]
  · intro i hi
    rw [hbi, upd_ne, q6 i (fun e he => hi e (by omega)), hbi1]
    have := hi (k - s) (le_refl _)
    rw [e1] at this
    exact this

end BuddyAllocator

namespace BuddyAllocator
open BlockStatus


/-! ## `free` -/

theorem mergeLoop_succ (level : Nat) (a : BuddyAllocator) (index buddyIndex : Nat) :
    mergeLoop (level + 1) a index buddyIndex =
      if a.m_blockInfo buddyIndex = Free then
        if level = 0 then
          ({ removeFromList a (addressOf a buddyIndex) (level + 1) with
              m_blockInfo := upd (removeFromList a (addressOf a buddyIndex) (level + 1)).m_blockInfo
                (parent index) Free }, parent index, 0)
        else
          mergeLoop level
            { removeFromList a (addressOf a buddyIndex) (level + 1) with
              m_blockInfo := upd (removeFromList a (addressOf a buddyIndex) (level + 1)).m_blockInfo
                (parent index) Free }
            (parent index) (buddy (parent index))
      else (a, index, level + 1) := rfl

/-- One round of the merge loop on the program state. -/
theorem PInv.merge_round {a : BuddyAllocator} {L : Nat} {lists : Nat → List Nat}
    {live : List (Nat × Nat)} {t j : Nat} (h : PInv a L lists live (some (t + 1, j)))
    (hf : st a.m_blockInfo (t + 1) j = Free) (hb : st a.m_blockInfo (t + 1) (sib j) = Free) :
    PInv
      { removeFromList a (addressOf a (cell (t + 1) (sib j))) (t + 1) with
        m_blockInfo :=
          upd (removeFromList a (addressOf a (cell (t + 1) (sib j))) (t + 1)).m_blockInfo
            (cell t (j / 2)) Free }
      L (upd lists (t + 1) ((lists (t + 1)).erase (blockAddr L (t + 1) (sib j)))) live
      (some (t, j / 2)) := by
  obtain ⟨ht, hj, _, _⟩ := h.pend_ok (t + 1) j rfl
  have haddr := h.geom.addressOf_cell ht (sib_lt hj)
  rw [haddr]
  have hheap := h.heap.remove (h.buddy_mem hb)
  refine h.mergeStep hf hb ?_ ?_ ?_
  · exact (h.geom.after_removeFromList _ _).of_fields_eq rfl rfl rfl rfl
  · show upd _ _ _ = _
    rw [removeFromList_blockInfo]
  · exact hheap.of_heap_eq rfl rfl

theorem PInv.mergeLoop_spec {L : Nat} {live : List (Nat × Nat)} : ∀ (t : Nat)
    {a : BuddyAllocator} {lists : Nat → List Nat} {j : Nat},
    PInv a L lists live (some (t, j)) → 1 ≤ t → st a.m_blockInfo t j = Free →
    ∃ lists' t' j', t' ≤ t ∧
      PInv (mergeLoop t a (cell t j) (buddy (cell t j))).1 L lists' live (some (t', j')) ∧
      (mergeLoop t a (cell t j) (buddy (cell t j))).2.1 = cell t' j' ∧
      (mergeLoop t a (cell t j) (buddy (cell t j))).2.2 = t' := by
  intro t
  induction t with
  | zero => intro a lists j _ h1; omega
  | succ t ih =>
    intro a lists j h _ hf
    obtain ⟨ht, hj, _, _⟩ := h.pend_ok (t + 1) j rfl
    have ht5 : t + 1 ≤ 5 := ht.trans h.geom.le
    rw [mergeLoop_succ, buddy_cell ht5 hj, parent_cell ht5 hj]
    by_cases hb : a.m_blockInfo (cell (t + 1) (sib j)) = Free
    · rw [if_pos hb]
      have hround := h.merge_round hf hb
      by_cases h0 : t = 0
      · rw [if_pos h0]
        exact ⟨_, t, j / 2, by omega, hround, rfl, h0.symm⟩
      · rw [if_neg h0]
        have hfree : st (upd (removeFromList a (addressOf a (cell (t + 1) (sib j)))
            (t + 1)).m_blockInfo (cell t (j / 2)) Free) t (j / 2) = Free := by
          unfold st; rw [upd_same]
        obtain ⟨lists', t', j', h1, h2, h3, h4⟩ := ih hround (by omega) hfree
        exact ⟨lists', t', j', by omega, h2, h3, h4⟩
    · rw [if_neg hb]
      exact ⟨lists, t + 1, j, le_refl _, h, rfl, rfl⟩

theorem free_null (a : BuddyAllocator) : free a none = a := rfl

/-- Releasing a live pointer re-establishes the invariant and leaves a
non-empty free list at the level of the released block or above it. -/
theorem PInv.free_spec {a : BuddyAllocator} {L : Nat} {lists : Nat → List Nat}
    {live : List (Nat × Nat)} (h : PInv a L lists live none) {p k : Nat}
    (hp : (p, k) ∈ live) :
    ∃ lists' t, t ≤ k ∧ lists' t ≠ [] ∧
      PInv (free a (some p)) L lists' (live.erase (p, k)) none := by
  obtain ⟨hk, j, hj, hpj, hleaf, hst⟩ := h.live_ok p k hp
  have hidx : indexOf a p = cell k j := by
    rw [hpj]; exact indexOf_leaf h.geom h.closed hk hj hleaf
  have hk5 : k ≤ 5 := hk.trans h.geom.le
  by_cases h0 : cell k j = 0
  · have hk0 : k = 0 := (cell_eq_zero hj).mp h0
    subst hk0
    have hfree : free a (some p) = insertToList a p 0 := by
      simp only [free, hidx, h0, if_true]
    have hpend : PInv a L lists (live.erase (p, 0)) (some (0, j)) :=
      h.unmark hp hj hpj (v := Allocated) (by decide) h.geom
        (by unfold st at hst; rw [← hst, upd_self]) h.heap
    have hpush : PInv (free a (some p)) L (upd lists 0 (blockAddr L 0 j :: lists 0))
        (live.erase (p, 0)) none := hpend.push
      (by rw [hfree]; exact h.geom.after_insertToList _ _) (by rw [hfree]; rfl)
      (by rw [hfree, hpj]
          exact hpend.heap.insert _ _ (hpend.fresh (le_refl 0) hk (by simp)))
    exact ⟨_, 0, le_refl 0, by simp, hpush⟩
  · have hfree : free a (some p) =
        insertToList
          (mergeLoop k { a with m_blockInfo := upd a.m_blockInfo (cell k j) Free } (cell k j)
            (buddy (cell k j))).1
          (addressOf
            (mergeLoop k { a with m_blockInfo := upd a.m_blockInfo (cell k j) Free } (cell k j)
              (buddy (cell k j))).1
            (mergeLoop k { a with m_blockInfo := upd a.m_blockInfo (cell k j) Free } (cell k j)
              (buddy (cell k j))).2.1)
          (mergeLoop k { a with m_blockInfo := upd a.m_blockInfo (cell k j) Free } (cell k j)
            (buddy (cell k j))).2.2 := by
      simp only [free, hidx, h0, if_false, levelOfIndex_cell hk5 hj]
    have hk1 : 1 ≤ k := by
      rcases Nat.eq_zero_or_pos k with e | e
      · exact absurd ((cell_eq_zero hj).mpr e) h0
      · exact e
    have hpend : PInv { a with m_blockInfo := upd a.m_blockInfo (cell k j) Free } L lists
        (live.erase (p, k)) (some (k, j)) :=
      h.unmark hp hj hpj (v := Free) (by decide) (h.geom.after_setBlockInfo _) rfl
        (h.heap.of_heap_eq rfl rfl)
    have hfr : st (upd a.m_blockInfo (cell k j) Free) k j = Free := by
      unfold st; rw [upd_same]
    obtain ⟨lists', t', j', ht', q1, q2, q3⟩ := hpend.mergeLoop_spec k hk1 hfr
    obtain ⟨htL, hj', _, _⟩ := q1.pend_ok t' j' rfl
    rw [q2, q3, q1.geom.addressOf_cell htL hj'] at hfree
    have hpush : PInv (free a (some p)) L (upd lists' t' (blockAddr L t' j' :: lists' t'))
        (live.erase (p, k)) none := q1.push
      (by rw [hfree]; exact q1.geom.after_insertToList _ _) (by rw [hfree]; rfl)
      (by rw [hfree]
          exact q1.heap.insert _ _ (q1.fresh (le_refl t') htL (by simp)))
    exact ⟨_, t', ht', by simp, hpush⟩

end BuddyAllocator

namespace BuddyAllocator
open BlockStatus


/-! ## Construction -/

theorem nextPowerOfTwoLoop_zero {n : Nat} (hn : 0 < n) : ∀ fuel,
    nextPowerOfTwoLoop fuel 0 n = none := by
  intro fuel
  induction fuel with
  | zero => rfl
  | succ fuel ih => simp only [nextPowerOfTwoLoop, if_pos hn]; exact ih

theorem two_pow_lt_U64 {i : Nat} (hi : i ≤ 63) : 2 ^ i < U64 := by
  unfold U64
  exact Nat.pow_lt_pow_right (by norm_num) (by omega)

theorem nextPowerOfTwoLoop_step {i : Nat} (hi : i < 63) : 2 ^ i * 2 % U64 = 2 ^ (i + 1) := by
  rw [← pow_succ]
  exact Nat.mod_eq_of_lt (two_pow_lt_U64 (by omega))

theorem nextPowerOfTwoLoop_wrap : 2 ^ 63 * 2 % U64 = 0 := by
  unfold U64; norm_num

/-- If the loop of `nextPowerOfTwo` stops, it stops at the first power of two
from `2 ^ i` on that is not below `n`. -/
theorem nextPowerOfTwoLoop_some {n : Nat} : ∀ (fuel i p : Nat), i ≤ 63 →
    nextPowerOfTwoLoop fuel (2 ^ i) n = some p →
    ∃ i', i ≤ i' ∧ i' ≤ 63 ∧ p = 2 ^ i' ∧ n ≤ p ∧ (i < i' → 2 ^ (i' - 1) < n) := by
  intro fuel
  induction fuel with
  | zero => intro i p _ h; simp [nextPowerOfTwoLoop] at h
  | succ fuel ih =>
    intro i p hi h
    simp only [nextPowerOfTwoLoop] at h
    by_cases hlt : 2 ^ i < n
    · rw [if_pos hlt] at h
      rcases Nat.lt_or_ge i 63 with h63 | h63
      · rw [nextPowerOfTwoLoop_step h63] at h
        obtain ⟨i', h1, h2, h3, h4, h5⟩ := ih (i + 1) p (by omega) h
        refine ⟨i', by omega, h2, h3, h4, fun _ => ?_⟩
        rcases Nat.eq_or_lt_of_le h1 with e | e
        · rw [← e]; simpa using hlt
        · exact h5 e
      · have : i = 63 := by omega
        subst this
        rw [nextPowerOfTwoLoop_wrap, nextPowerOfTwoLoop_zero (by omega)] at h
        cases h
    · rw [if_neg hlt] at h
      simp only [Option.some.injEq] at h
      exact ⟨i, le_refl i, hi, h.symm, by omega, fun h' => by omega⟩

/-- For `n ≤ 2 ^ 63` the loop of `nextPowerOfTwo` stops. -/
theorem nextPowerOfTwoLoop_total {n : Nat} (hn : n ≤ 2 ^ 63) : ∀ (d i fuel : Nat),
    i + d = 63 → d < fuel → ∃ p, nextPowerOfTwoLoop fuel (2 ^ i) n = some p := by
  intro d
  induction d with
  | zero =>
    intro i fuel hi hf
    have : i = 63 := by omega
    subst this
    cases fuel with
    | zero => omega
    | succ fuel =>
      simp only [nextPowerOfTwoLoop]
      rw [if_neg (by omega)]
      exact ⟨_, rfl⟩
  | succ d ih =>
    intro i fuel hi hf
    cases fuel with
    | zero => omega
    | succ fuel =>
      simp only [nextPowerOfTwoLoop]
      by_cases hlt : 2 ^ i < n
      · rw [if_pos hlt, nextPowerOfTwoLoop_step (by omega)]
        exact ih (i + 1) fuel (by omega) (by omega)
      · rw [if_neg hlt]
        exact ⟨_, rfl⟩

/-- A requested size above `2 ^ 63` keeps the loop of `nextPowerOfTwo`
running, whatever the number of rounds allowed. -/
theorem nextPowerOfTwoLoop_diverges {n : Nat} (hn : 2 ^ 63 < n) : ∀ (fuel i : Nat), i ≤ 63 →
    nextPowerOfTwoLoop fuel (2 ^ i) n = none := by
  intro fuel
  induction fuel with
  | zero => intro i _; rfl
  | succ fuel ih =>
    intro i hi
    have hlt : 2 ^ i < n := by
      have : 2 ^ i ≤ 2 ^ 63 := Nat.pow_le_pow_right (by norm_num) hi
      omega
    simp only [nextPowerOfTwoLoop, if_pos hlt]
    rcases Nat.lt_or_ge i 63 with h63 | h63
    · rw [nextPowerOfTwoLoop_step h63]
      exact ih (i + 1) (by omega)
    · have : i = 63 := by omega
      subst this
      rw [nextPowerOfTwoLoop_wrap]
      exact nextPowerOfTwoLoop_zero (by omega) fuel

theorem nextPowerOfTwo_some {n p : Nat} (h : nextPowerOfTwo n = some p) :
    ∃ i, i ≤ 63 ∧ p = 2 ^ i ∧ n ≤ p ∧ (0 < i → 2 ^ (i - 1) < n) := by
  unfold nextPowerOfTwo at h
  have h' : nextPowerOfTwoLoop 66 (2 ^ 0) n = some p := by simpa using h
  obtain ⟨i, _, h2, h3, h4, h5⟩ := nextPowerOfTwoLoop_some 66 0 p (by omega) h'
  exact ⟨i, h2, h3, h4, h5⟩

theorem regionSize_some {R S : Nat} (h : regionSize R = some S) :
    ∃ i, 4 ≤ i ∧ i ≤ 63 ∧ S = 2 ^ i ∧ R ≤ S ∧ (4 < i → 2 ^ (i - 1) < R) := by
  unfold regionSize at h
  cases hp : nextPowerOfTwo R with
  | none => rw [hp] at h; cases h
  | some p =>
    rw [hp] at h
    simp only [Option.some.injEq] at h
    obtain ⟨i, h1, h2, h3, h4⟩ := nextPowerOfTwo_some hp
    unfold MIN_BLOCK_SIZE at h
    by_cases hlt : p < 16
    · rw [if_pos hlt] at h
      exact ⟨4, le_refl 4, by omega, by rw [← h]; norm_num, by omega, fun h' => by omega⟩
    · rw [if_neg hlt] at h
      subst h
      have hi4 : 4 ≤ i := by
        by_contra hc
        have : 2 ^ i < 2 ^ 4 := Nat.pow_lt_pow_right (by norm_num) (by omega)
        omega
      exact ⟨i, hi4, h1, h2, h3, fun h' => h4 (by omega)⟩

theorem createMemory_eq (S : Nat) : createMemory S = decide (S ≤ 512) := by
  unfold createMemory MAX_MEMORY_SIZE MAX_LEVELS MIN_BLOCK_SIZE
  by_cases h : S > 2 ^ 5 * 16
  · rw [if_pos h]; symm; rw [decide_eq_false_iff_not]; omega
  · rw [if_neg h]; symm; rw [decide_eq_true_iff]; omega

theorem construct_some {R : Nat} {a : BuddyAllocator} (h : construct R = some a) :
    ∃ L, L ≤ 5 ∧ regionSize R = some (16 * 2 ^ L) ∧ a = build (16 * 2 ^ L) := by
  unfold construct at h
  cases hs : regionSize R with
  | none => rw [hs] at h; cases h
  | some S =>
    rw [hs] at h
    simp only [createMemory_eq, decide_eq_true_eq] at h
    by_cases hle : S ≤ 512
    · rw [if_pos hle] at h
      simp only [Option.some.injEq] at h
      obtain ⟨i, h1, _, h3, _, _⟩ := regionSize_some hs
      have hi9 : i ≤ 9 := by
        by_contra hc
        have : 2 ^ 10 ≤ 2 ^ i := Nat.pow_le_pow_right (by norm_num) (by omega)
        omega
      have hS : S = 16 * 2 ^ (i - 4) := by
        rw [h3]
        have : i = 4 + (i - 4) := by omega
        conv_lhs => rw [this, pow_add]
        norm_num
      exact ⟨i - 4, by omega, by rw [hS], by rw [← h, hS]⟩
    · rw [if_neg hle] at h
      cases h

theorem build_geom : ∀ L, L ≤ 5 → Geom (build (16 * 2 ^ L)) L := by
  intro L hL
  interval_cases L
  all_goals exact ⟨by decide, by decide, by decide, by decide, by decide⟩

/-- The invariant holds in a freshly constructed allocator. -/
theorem build_inv {L : Nat} (hL : L ≤ 5) :
    PInv (build (16 * 2 ^ L)) L (upd (fun _ => []) 0 [0]) [] none := by
  have hbi : (build (16 * 2 ^ L)).m_blockInfo = fun _ => Free := rfl
  have hst : ∀ k j, st (build (16 * 2 ^ L)).m_blockInfo k j = Free := fun k j => by
    rw [hbi]; rfl
  refine ⟨build_geom L hL, ?_, ?_, ?_, ?_, ?_, List.nodup_nil, ?_⟩
  · intro k j _ _ _
    exact ⟨hst _ _, hst _ _⟩
  · intro j _
    rw [hst]; decide
  · refine ⟨fun k => ?_, fun k => ?_, fun k k' x hx hx' => ?_⟩
    · by_cases hk : k = 0
      · subst hk
        exact ⟨rfl, rfl, rfl⟩
      · rw [upd_ne _ _ hk]
        show upd (fun _ => none) 0 (some 0) k = none
        rw [upd_ne _ _ hk]
    · by_cases hk : k = 0
      · subst hk; simp
      · rw [upd_ne _ _ hk]; exact List.nodup_nil
    · rw [mem_upd_list] at hx hx'
      rcases hx with ⟨rfl, _⟩ | ⟨_, hx⟩
      · rcases hx' with ⟨rfl, _⟩ | ⟨_, hx'⟩
        · rfl
        · simp at hx'
      · simp at hx
  · intro k x
    rw [mem_upd_list]
    constructor
    · rintro (⟨rfl, hx⟩ | ⟨_, hx⟩)
      · simp only [List.mem_singleton] at hx
        subst hx
        refine ⟨Nat.zero_le L, 0, by norm_num, by simp [blockAddr], ⟨Or.inl rfl, ?_⟩,
          by simp, by simp⟩
        rw [hst]; decide
      · simp at hx
    · rintro ⟨_, j, hj, hx, hl, _, _⟩
      rcases hl.1 with h0 | hp
      · subst h0
        have : j = 0 := by simpa using hj
        subst this
        left; exact ⟨rfl, by rw [hx]; simp [blockAddr]⟩
      · rw [hst] at hp; cases hp
  · intro p k hm; simp at hm
  · intro k j e; simp at e

end BuddyAllocator

namespace BuddyAllocator
open BlockStatus


/-! ## Reachable states satisfy the invariant -/

/-- The two ways an `allocate` call can go in a state that satisfies the
invariant. -/
theorem PInv.allocate_cases {a : BuddyAllocator} {L : Nat} {lists : Nat → List Nat}
    {live : List (Nat × Nat)} (h : PInv a L lists live none) (n : Nat) :
    (allocate a n = (none, a) ∧
      (n = 0 ∨ n > a.m_numBytes ∨
        ∃ k, findLevel a n = some k ∧ ∀ l, l ≤ k → a.m_freeLists l = none)) ∨
    (n ≠ 0 ∧ ¬ n > a.m_numBytes ∧
      ∃ k s x xs, findLevel a n = some k ∧ k ≤ L ∧ n ≤ 16 * 2 ^ (L - k) ∧
        searchLevel a k = some s ∧ lists s = x :: xs) := by
  by_cases hn0 : n = 0
  · left; subst hn0; exact ⟨allocate_zero a, Or.inl rfl⟩
  by_cases hnS : n > a.m_numBytes
  · left; exact ⟨allocate_oversize a hnS, Or.inr (Or.inl hnS)⟩
  obtain ⟨k, hkL, hk, hsz, _⟩ := findLevel_spec h.geom (by omega : n ≤ a.m_numBytes)
  cases hs : searchLevel a k with
  | none =>
    left
    exact ⟨allocate_exhausted a hk hs, Or.inr (Or.inr ⟨k, hk, (searchLevel_none k).mp hs⟩)⟩
  | some s =>
    right
    obtain ⟨_, hne, _⟩ := searchLevel_some k s hs
    cases hl : lists s with
    | nil => exact absurd ((h.heap.head_none s).mpr hl) hne
    | cons x xs => exact ⟨hn0, hnS, k, s, x, xs, hk, hkL, hsz, hs, hl⟩

theorem Reachable.inv {a : BuddyAllocator} {live : List (Nat × Nat)} (h : Reachable a live) :
    ∃ L lists, PInv a L lists live none := by
  induction h with
  | init R a hc =>
    obtain ⟨L, hL, _, rfl⟩ := construct_some hc
    exact ⟨L, _, build_inv hL⟩
  | alloc a a' live n p k _ hal hk ih =>
    obtain ⟨L, lists, hinv⟩ := ih
    rcases hinv.allocate_cases n with ⟨hnone, _⟩ | ⟨hn0, hnS, k', s, x, xs, hk', hkL, _, hs, hl⟩
    · rw [hnone] at hal; cases hal
    · rw [hk] at hk'
      simp only [Option.some.injEq] at hk'
      subst hk'
      obtain ⟨j, lists', _, _, _, h1, h2, _⟩ := hinv.allocate_spec hn0 hnS hk hkL hs hl
      rw [hal] at h1 h2
      simp only [Option.some.injEq] at h1
      subst h1
      exact ⟨L, lists', h2⟩
  | allocNull a a' live n _ hal ih =>
    obtain ⟨L, lists, hinv⟩ := ih
    rcases hinv.allocate_cases n with ⟨hnone, _⟩ | ⟨hn0, hnS, k, s, x, xs, hk, hkL, _, hs, hl⟩
    · rw [hnone] at hal
      simp only [Prod.mk.injEq, true_and] at hal
      subst hal
      exact ⟨L, lists, hinv⟩
    · obtain ⟨j, lists', _, _, _, h1, _⟩ := hinv.allocate_spec hn0 hnS hk hkL hs hl
      rw [hal] at h1; cases h1
  | release a live p k _ hp ih =>
    obtain ⟨L, lists, hinv⟩ := ih
    obtain ⟨lists', _, _, _, h1⟩ := hinv.free_spec hp
    exact ⟨L, lists', h1⟩
  | releaseNull a live _ ih => exact ih

end BuddyAllocator

namespace BuddyAllocator
open BlockStatus


/-! ## Contract of `allocate` and `free` -/

theorem findLevel_unique {L n k k' : Nat} (hk : k ≤ L) (hk' : k' ≤ L)
    (h1 : n ≤ 16 * 2 ^ (L - k)) (h2 : k < L → 16 * 2 ^ (L - (k + 1)) < n)
    (h1' : n ≤ 16 * 2 ^ (L - k')) (h2' : k' < L → 16 * 2 ^ (L - (k' + 1)) < n) : k = k' := by
  have key : ∀ {k k' : Nat}, k' ≤ L → n ≤ 16 * 2 ^ (L - k') →
      (k < L → 16 * 2 ^ (L - (k + 1)) < n) → ¬ k < k' := by
    intro k k' hk' h1' h2 hlt
    have := h2 (by omega)
    have hle : 2 ^ (L - k') ≤ 2 ^ (L - (k + 1)) := Nat.pow_le_pow_right (by norm_num) (by omega)
    omega
  rcases Nat.lt_trichotomy k k' with h | h | h
  · exact absurd h (key hk' h1' h2)
  · exact h
  · exact absurd h (key hk h1 h2')

/-- In two states with the same level table `findLevel` agrees. -/
theorem findLevel_congr {a a' : BuddyAllocator} {L n : Nat} (hg : Geom a L) (hg' : Geom a' L)
    (hn : n ≤ 16 * 2 ^ L) : findLevel a' n = findLevel a n := by
  obtain ⟨k, hk, e, h1, h2⟩ := findLevel_spec (n := n) hg (by rw [hg.numBytes]; exact hn)
  obtain ⟨k', hk', e', h1', h2'⟩ := findLevel_spec (n := n) hg' (by rw [hg'.numBytes]; exact hn)
  rw [e, e', findLevel_unique hk hk' h1 h2 h1' h2']

theorem PInv.live_level {a : BuddyAllocator} {L : Nat} {lists : Nat → List Nat}
    {live : List (Nat × Nat)} (h : PInv a L lists live none) {p k : Nat}
    (hp : (p, k) ∈ live) :
    levelOf a p = k ∧ indexOf a p = indexOfLevel a p k ∧
      a.m_blockInfo (indexOf a p) = Allocated := by
  obtain ⟨hk, j, hj, hpj, hleaf, hst⟩ := h.live_ok p k hp
  have hlev : levelOf a p = k := by rw [hpj]; exact levelOf_leaf h.geom h.closed hk hj hleaf
  have hidx : indexOf a p = indexOfLevel a p k := by unfold indexOf; rw [hlev]
  refine ⟨hlev, hidx, ?_⟩
  rw [hidx, hpj, h.geom.indexOfLevel_self j hk]
  exact hst

/-- For a region of at most 256 bytes, where the status array holds every cell
of the tree: in every reachable state `allocate(n)` returns null exactly when
`n == 0`, or `n > S`, or every free list at levels `0..requiredLevel(n)` is
empty; and in each of these cases the state after the call equals the state
before it. -/
theorem allocate_null_iff_upto256 (a : BuddyAllocator) (live : List (Nat × Nat))
    (h : Reachable a live) (hS : a.m_numBytes ≤ 256) (n : Nat) :
    ((allocate a n).1 = none ↔
      (n = 0 ∨ n > a.m_numBytes ∨
        ∃ k, findLevel a n = some k ∧ ∀ l, l ≤ k → a.m_freeLists l = none)) ∧
    ((allocate a n).1 = none → (allocate a n).2 = a) := by
  obtain ⟨L, lists, hinv⟩ := h.inv
  rcases hinv.allocate_cases n with ⟨hnone, hwhy⟩ | ⟨hn0, hnS, k, s, x, xs, hk, hkL, _, hs, hl⟩
  · rw [hnone]
    exact ⟨⟨fun _ => hwhy, fun _ => rfl⟩, fun _ => rfl⟩
  · obtain ⟨j, lists', _, _, _, h1, _⟩ := hinv.allocate_spec hn0 hnS hk hkL hs hl
    rw [h1]
    refine ⟨⟨fun e => (by cases e), ?_⟩, fun e => (by cases e)⟩
    rintro (e | e | ⟨k', hk', hall⟩)
    · exact absurd e hn0
    · exact absurd e hnS
    · rw [hk] at hk'
      simp only [Option.some.injEq] at hk'
      subst hk'
      have := (searchLevel_none k).mpr hall
      rw [hs] at this; cases this

/-- A reachable state in which `allocate(120)` fails (scenario S4): a region
of 256 bytes after `allocate(28)`, `allocate(33)` and `allocate(64)`. -/
theorem allocate_null_iff_upto256_witness :
    Reachable (allocate (allocate (allocate (build 256) 28).2 33).2 64).2
      [(128, 2), (64, 2), (0, 3)] ∧
    (((allocate (allocate (allocate (allocate (build 256) 28).2 33).2 64).2 120).1 = none ↔
      (120 = 0 ∨ 120 > (allocate (allocate (allocate (build 256) 28).2 33).2 64).2.m_numBytes ∨
        ∃ k, findLevel (allocate (allocate (allocate (build 256) 28).2 33).2 64).2 120 = some k ∧
          ∀ l, l ≤ k →
            (allocate (allocate (allocate (build 256) 28).2 33).2 64).2.m_freeLists l = none)) ∧
    ((allocate (allocate (allocate (allocate (build 256) 28).2 33).2 64).2 120).1 = none →
      (allocate (allocate (allocate (allocate (build 256) 28).2 33).2 64).2 120).2 =
        (allocate (allocate (allocate (build 256) 28).2 33).2 64).2)) :=
  have hr : Reachable (allocate (allocate (allocate (build 256) 28).2 33).2 64).2
      [(128, 2), (64, 2), (0, 3)] :=
    Reachable.alloc _ _ _ 64 128 2
      (Reachable.alloc _ _ _ 33 64 2
        (Reachable.alloc _ _ _ 28 0 3 (Reachable.init 200 (build 256) rfl) rfl rfl) rfl rfl)
      rfl rfl
  ⟨hr, allocate_null_iff_upto256 _ _ hr (by decide) 120⟩

end BuddyAllocator

namespace BuddyAllocator
open BlockStatus


/-- For a region of at most 256 bytes, where the status array holds every cell
of the tree: in every reachable state, a non-null pointer `p` returned by
`allocate(n)` is, with `k = requiredLevel(n)`, at a multiple of `levelSize[k]`
from the region base, its block `[p, p + levelSize[k])` lies inside the
region, `levelSize[k] >= n`, and after the call the status cell at
`treeIndex(p, k)` is `Allocated`. -/
theorem allocate_result_upto256 (a : BuddyAllocator) (live : List (Nat × Nat))
    (h : Reachable a live) (hS : a.m_numBytes ≤ 256) (n p : Nat) (a' : BuddyAllocator)
    (hal : allocate a n = (some p, a')) :
    ∃ k, findLevel a n = some k ∧ a.m_levelSize k ∣ p ∧
      p + a.m_levelSize k ≤ a.m_numBytes ∧ n ≤ a.m_levelSize k ∧
      a'.m_blockInfo (indexOfLevel a p k) = Allocated := by
  obtain ⟨L, lists, hinv⟩ := h.inv
  rcases hinv.allocate_cases n with ⟨hnone, _⟩ | ⟨hn0, hnS, k, s, x, xs, hk, hkL, hsz, hs, hl⟩
  · rw [hnone] at hal; cases hal
  · obtain ⟨j, lists', hsk, hj, hxj, h1, _, _, _, _, _, hst, _⟩ :=
      hinv.allocate_spec hn0 hnS hk hkL hs hl
    rw [hal] at h1 hst
    simp only [Option.some.injEq] at h1
    subst h1
    have hp : p = blockAddr L k (j * 2 ^ (k - s)) := by
      rw [blockAddr_descend L j hsk hkL]; exact hxj
    have hjk : j * 2 ^ (k - s) < 2 ^ k := by
      have e : k = s + (k - s) := by omega
      conv_rhs => rw [e, pow_add]
      exact Nat.mul_lt_mul_of_pos_right hj (Nat.two_pow_pos _)
    refine ⟨k, hk, ?_, ?_, ?_, ?_⟩
    · rw [hinv.geom.size k hkL, hp]
      exact Dvd.intro_left _ rfl
    · rw [hinv.geom.size k hkL, hinv.geom.numBytes, hp]
      unfold blockAddr
      have e : 2 ^ L = 2 ^ k * 2 ^ (L - k) := by
        rw [← pow_add]; congr 1; omega
      rw [e]
      have : (j * 2 ^ (k - s) + 1) * (16 * 2 ^ (L - k)) ≤ 2 ^ k * (16 * 2 ^ (L - k)) :=
        Nat.mul_le_mul_right _ hjk
      nlinarith
    · rw [hinv.geom.size k hkL]; exact hsz
    · rw [hp, hinv.geom.indexOfLevel_self _ hkL]
      exact hst

/-- The first allocation of scenario S1: `allocate(28)` on a fresh region of
256 bytes returns the region base. -/
theorem allocate_result_upto256_witness :
    Reachable (build 256) [] ∧ allocate (build 256) 28 = (some 0, (allocate (build 256) 28).2) ∧
    ∃ k, findLevel (build 256) 28 = some k ∧ (build 256).m_levelSize k ∣ 0 ∧
      0 + (build 256).m_levelSize k ≤ (build 256).m_numBytes ∧
      28 ≤ (build 256).m_levelSize k ∧
      (allocate (build 256) 28).2.m_blockInfo (indexOfLevel (build 256) 0 k) = Allocated :=
  ⟨Reachable.init 200 (build 256) rfl, rfl,
    allocate_result_upto256 (build 256) [] (Reachable.init 200 (build 256) rfl) (by decide) 28 0
      (allocate (build 256) 28).2 rfl⟩

/-- For a region of at most 256 bytes, where the status array holds every cell
of the tree: in every reachable state and for every live pointer `p`, returned by
`allocate` at level `k` and not yet released, the level recovery `levelOf(p)`
(scanning `n` from `L_max` down to 1 and returning the first `n` for which the
cell `treeIndex(p, n - 1)` is `Split`, else 0) returns exactly `k`, so
`indexOf(p)` is the tree index of the cell that was marked `Allocated` for
`p`. -/
theorem level_recovery_upto256 (a : BuddyAllocator) (live : List (Nat × Nat))
    (h : Reachable a live) (hS : a.m_numBytes ≤ 256) (p k : Nat) (hp : (p, k) ∈ live) :
    levelOf a p = k ∧ indexOf a p = indexOfLevel a p k ∧
      a.m_blockInfo (indexOf a p) = Allocated := by
  obtain ⟨L, lists, hinv⟩ := h.inv
  exact hinv.live_level hp

/-- The pointer `64` returned for `allocate(33)` in scenario S2 is recovered
at level 2 while the pointers of S1 and S3 are live as well. -/
theorem level_recovery_upto256_witness :
    Reachable (allocate (allocate (allocate (build 256) 28).2 33).2 64).2
      [(128, 2), (64, 2), (0, 3)] ∧ (64, 2) ∈ [(128, 2), (64, 2), (0, 3)] ∧
    (levelOf (allocate (allocate (allocate (build 256) 28).2 33).2 64).2 64 = 2 ∧
      indexOf (allocate (allocate (allocate (build 256) 28).2 33).2 64).2 64 =
        indexOfLevel (allocate (allocate (allocate (build 256) 28).2 33).2 64).2 64 2 ∧
      (allocate (allocate (allocate (build 256) 28).2 33).2 64).2.m_blockInfo
        (indexOf (allocate (allocate (allocate (build 256) 28).2 33).2 64).2 64) = Allocated) :=
  have hr : Reachable (allocate (allocate (allocate (build 256) 28).2 33).2 64).2
      [(128, 2), (64, 2), (0, 3)] :=
    Reachable.alloc _ _ _ 64 128 2
      (Reachable.alloc _ _ _ 33 64 2
        (Reachable.alloc _ _ _ 28 0 3 (Reachable.init 200 (build 256) rfl) rfl rfl) rfl rfl)
      rfl rfl
  ⟨hr, by decide, level_recovery_upto256 _ _ hr (by decide) 64 2 (by decide)⟩

/-- For a region of at most 256 bytes, where the status array holds every cell
of the tree: in every reachable state, if `allocate(n)` returns a non-null pointer
`p`, then after `release(p)` a second `allocate(n)` succeeds and returns a
block of the same level as the first call. -/
theorem release_then_allocate_upto256 (a : BuddyAllocator) (live : List (Nat × Nat))
    (h : Reachable a live) (hS : a.m_numBytes ≤ 256) (n p : Nat) (a' : BuddyAllocator)
    (hal : allocate a n = (some p, a')) :
    ∃ q a'', allocate (free a' (some p)) n = (some q, a'') ∧
      levelOf a'' q = levelOf a' p := by
  obtain ⟨L, lists, hinv⟩ := h.inv
  rcases hinv.allocate_cases n with ⟨hnone, _⟩ | ⟨hn0, hnS, k, s, x, xs, hk, hkL, hsz, hs, hl⟩
  · rw [hnone] at hal; cases hal
  · obtain ⟨j, lists', _, _, _, h1, hinv', _⟩ := hinv.allocate_spec hn0 hnS hk hkL hs hl
    rw [hal] at h1 hinv'
    simp only [Option.some.injEq] at h1
    subst h1
    have hlev1 := (hinv'.live_level (List.mem_cons_self _ _)).1
    obtain ⟨lists2, t, htk, hne, hinv2⟩ := hinv'.free_spec (List.mem_cons_self (p, k) live)
    have hnL : n ≤ 16 * 2 ^ L := by
      have := hinv.geom.numBytes; omega
    have hk2 : findLevel (free a' (some p)) n = some k := by
      rw [findLevel_congr hinv.geom hinv2.geom hnL, hk]
    have hnS2 : ¬ n > (free a' (some p)).m_numBytes := by
      rw [hinv2.geom.numBytes]; omega
    rcases hinv2.allocate_cases n with ⟨_, hwhy⟩ | ⟨_, _, k', s', y, ys, hk', _, _, hs', hl'⟩
    · exfalso
      rcases hwhy with e | e | ⟨k', hk', hall⟩
      · exact hn0 e
      · exact hnS2 e
      · rw [hk2] at hk'
        simp only [Option.some.injEq] at hk'
        subst hk'
        exact hne ((hinv2.heap.head_none t).mp (hall t htk))
    · rw [hk2] at hk'
      simp only [Option.some.injEq] at hk'
      subst hk'
      obtain ⟨j', lists3, _, _, _, h3, hinv3, _⟩ :=
        hinv2.allocate_spec hn0 hnS2 hk2 hkL hs' hl'
      refine ⟨y, (allocate (free a' (some p)) n).2, Prod.ext h3 rfl, ?_⟩
      rw [(hinv3.live_level (List.mem_cons_self _ _)).1, hlev1]

/-- Scenario S1 followed by a release and a repeated request of 28 bytes. -/
theorem release_then_allocate_upto256_witness :
    Reachable (build 256) [] ∧ allocate (build 256) 28 = (some 0, (allocate (build 256) 28).2) ∧
    ∃ q a'', allocate (free (allocate (build 256) 28).2 (some 0)) 28 = (some q, a'') ∧
      levelOf a'' q = levelOf (allocate (build 256) 28).2 0 :=
  ⟨Reachable.init 200 (build 256) rfl, rfl,
    release_then_allocate_upto256 (build 256) [] (Reachable.init 200 (build 256) rfl) (by decide) 28 0
      (allocate (build 256) 28).2 rfl⟩

end BuddyAllocator

namespace BuddyAllocator
open BlockStatus


/-! ## Contents of the free lists -/

theorem PInv.length_le {a : BuddyAllocator} {L : Nat} {lists : Nat → List Nat}
    {live : List (Nat × Nat)} {pend : Option (Nat × Nat)} (h : PInv a L lists live pend)
    (l : Nat) : (lists l).length ≤ 2 ^ L := by
  by_cases hl : l ≤ L
  · have hsub : lists l ⊆ (List.range (2 ^ l)).map (blockAddr L l) := by
      intro x hx
      obtain ⟨_, j, hj, hxj, _⟩ := (h.mem_lists l x).mp hx
      exact List.mem_map.mpr ⟨j, List.mem_range.mpr hj, hxj.symm⟩
    have := ((h.heap.nodup l).subperm hsub).length_le
    rw [List.length_map, List.length_range] at this
    exact this.trans (Nat.pow_le_pow_right (by norm_num) hl)
  · have : lists l = [] := by
      apply List.eq_nil_iff_forall_not_mem.mpr
      intro x hx
      exact hl ((h.mem_lists l x).mp hx).1
    rw [this]; exact Nat.zero_le _

/-- The traversal of a free list yields the list the invariant speaks of. -/
theorem PInv.freeListOf_eq {a : BuddyAllocator} {L : Nat} {lists : Nat → List Nat}
    {live : List (Nat × Nat)} {pend : Option (Nat × Nat)} (h : PInv a L lists live pend)
    (l : Nat) : freeListOf a l = lists l := by
  unfold freeListOf
  apply walkList_eq _ (h.heap.seg l)
  have : a.m_numBytes / MIN_BLOCK_SIZE = 2 ^ L := by
    rw [h.geom.numBytes]; unfold MIN_BLOCK_SIZE
    exact Nat.mul_div_cancel_left _ (by norm_num)
  rw [this]
  exact (h.length_le l).trans (Nat.le_succ _)

theorem blockAddr_succ (L l m : Nat) :
    blockAddr L l (m + 1) = blockAddr L l m + 16 * 2 ^ (L - l) := by
  unfold blockAddr; ring

/-- The right half of a block on the left spine below a block that is not
split is `Free`. -/
theorem Closed.right_of_spine {bi : Nat → BlockStatus} {L : Nat} (hc : Closed bi L)
    {s j : Nat} (hj : j < 2 ^ s) (hs : st bi s j ≠ Split) {l : Nat} (hsl : s < l)
    (hl : l ≤ L) : st bi l (j * 2 ^ (l - s) + 1) = Free := by
  have hpos : j * 2 ^ (l - 1 - s) < 2 ^ (l - 1) := by
    have e : l - 1 = s + (l - 1 - s) := by omega
    conv_rhs => rw [e, pow_add]
    exact Nat.mul_lt_mul_of_pos_right hj (Nat.two_pow_pos _)
  have hne : st bi (l - 1) (j * 2 ^ (l - 1 - s)) ≠ Split := by
    rcases Nat.eq_or_lt_of_le (by omega : s ≤ l - 1) with e | hlt
    · rw [← e]; simpa using hs
    · have := hc.left_spine hj hs (l - 1 - s) (by omega) (by omega)
      have e : s + (l - 1 - s) = l - 1 := by omega
      rw [e] at this
      rw [this]; decide
  have := (hc (l - 1) _ (by omega) hpos hne).2
  have e1 : l - 1 + 1 = l := by omega
  have e2 : 2 * (j * 2 ^ (l - 1 - s)) = j * 2 ^ (l - s) := by
    have : l - s = (l - 1 - s) + 1 := by omega
    rw [this, pow_succ]; ring
  rw [e1, e2] at this
  exact this

/-- For a region of at most 256 bytes, where the status array holds every cell
of the tree: when `allocate(n)` succeeds with required level `k`, let `s` be the
greatest level `<= k` whose free list is non-empty and `b` the head of list
`s` before the call.  Then the call returns `b`; afterwards list `s` is its
former tail; for each level `l` with `s < l <= k`, list `l` (empty before the
call) contains exactly one block, the right half at address
`b + levelSize[l]`; the cells of `b` at levels `s..k-1` are `Split`, those
right-half cells are `Free`, the cell of `b` at level `k` is `Allocated`; and
every other status cell and free list is unchanged. -/
theorem allocate_effect_upto256 (a : BuddyAllocator) (live : List (Nat × Nat))
    (h : Reachable a live) (hS : a.m_numBytes ≤ 256) (n p k : Nat) (a' : BuddyAllocator)
    (hal : allocate a n = (some p, a')) (hk : findLevel a n = some k) :
    ∃ s, s ≤ k ∧ a.m_freeLists s = some p ∧
      (∀ l, s < l → l ≤ k → a.m_freeLists l = none) ∧
      freeListOf a' s = (freeListOf a s).tail ∧
      (∀ l, s < l → l ≤ k → freeListOf a l = [] ∧ freeListOf a' l = [p + a.m_levelSize l]) ∧
      (∀ l, s ≤ l → l < k → a'.m_blockInfo (indexOfLevel a p l) = Split) ∧
      (∀ l, s < l → l ≤ k → a'.m_blockInfo (indexOfLevel a (p + a.m_levelSize l) l) = Free) ∧
      a'.m_blockInfo (indexOfLevel a p k) = Allocated ∧
      (∀ i, (∀ l, s ≤ l → l ≤ k → i ≠ indexOfLevel a p l) →
        a'.m_blockInfo i = a.m_blockInfo i) ∧
      (∀ l, (l < s ∨ k < l) → freeListOf a' l = freeListOf a l) := by
  obtain ⟨L, lists, hinv⟩ := h.inv
  rcases hinv.allocate_cases n with ⟨hnone, _⟩ | ⟨hn0, hnS, k', s, x, xs, hk', hkL, hsz, hs, hl⟩
  · rw [hnone] at hal; cases hal
  rw [hk] at hk'
  simp only [Option.some.injEq] at hk'
  subst hk'
  obtain ⟨j, lists', hsk, hj, hxj, h1, hinv', q1, q2, q3, q4, q5, q6⟩ :=
    hinv.allocate_spec hn0 hnS hk hkL hs hl
  rw [hal] at h1 hinv' q4 q5 q6
  simp only [Option.some.injEq] at h1
  subst h1
  obtain ⟨_, hnone, hempty⟩ := searchLevel_some k s hs
  have hleaf : Leaf a.m_blockInfo s j := by
    obtain ⟨_, j0, _, hx0, hl0, _⟩ := (hinv.mem_lists s p).mp (by rw [hl]; simp)
    have := blockAddr_inj (hxj.symm.trans hx0)
    subst this
    exact hl0
  have hpath : ∀ l, s ≤ l → l ≤ k → indexOfLevel a p l = cell l (j * 2 ^ (l - s)) := by
    intro l h1 h2
    rw [hxj]; exact hinv.geom.indexOfLevel_down j h1 (by omega)
  have hright : ∀ l, s < l → l ≤ k →
      p + a.m_levelSize l = blockAddr L l (j * 2 ^ (l - s) + 1) := by
    intro l h1 h2
    rw [blockAddr_succ, blockAddr_descend L j (by omega) (by omega), ← hxj,
      hinv.geom.size l (by omega)]
  have hspine : ∀ l, s ≤ l → j * 2 ^ (l - s) < 2 ^ l := by
    intro l h1
    have e : l = s + (l - s) := by omega
    conv_rhs => rw [e, pow_add]
    exact Nat.mul_lt_mul_of_pos_right hj (Nat.two_pow_pos _)
  refine ⟨s, hsk, hinv.heap.head_cons hl, hempty, ?_, ?_, ?_, ?_, ?_, ?_, ?_⟩
  · rw [hinv'.freeListOf_eq, hinv.freeListOf_eq, q1, hl]; rfl
  · intro l h1 h2
    have hnil : lists l = [] := (hinv.heap.head_none l).mp (hempty l h1 h2)
    rw [hinv'.freeListOf_eq, hinv.freeListOf_eq, q2 l h1 h2, hnil, hright l h1 h2]
    exact ⟨rfl, rfl⟩
  · intro l h1 h2
    rw [hpath l h1 (by omega)]
    have := q4 (l - s) (by omega)
    have e : s + (l - s) = l := by omega
    rw [e] at this
    exact this
  · intro l h1 h2
    rw [hright l h1 h2, hinv.geom.indexOfLevel_self _ (by omega)]
    have hold := hinv.closed.right_of_spine hj hleaf.2 h1 (by omega : l ≤ L)
    have hj1 : j * 2 ^ (l - s) + 1 < 2 ^ l := by
      have := hspine l (by omega)
      have hev : 2 ∣ j * 2 ^ (l - s) := by
        obtain ⟨m, hm⟩ : ∃ m, l - s = m + 1 := ⟨l - s - 1, by omega⟩
        rw [hm, pow_succ]; exact Dvd.intro (j * 2 ^ m) (by ring)
      have hev2 : 2 ∣ 2 ^ l := by
        obtain ⟨m, hm⟩ : ∃ m, l = m + 1 := ⟨l - 1, by omega⟩
        rw [hm, pow_succ]; exact Dvd.intro (2 ^ m) (by ring)
      omega
    rw [q6, ← hold]
    · rfl
    · intro e he hc
      have := cell_inj hj1 (hspine (s + e) (by omega)) (by
        have e' : s + e - s = e := by omega
        rw [e']; exact hc)
      obtain ⟨e1, e2⟩ := this
      subst e1
      have e' : s + e - s = e := by omega
      rw [e'] at e2
      omega
  · rw [hpath k hsk (le_refl k)]; exact q5
  · intro i hi
    apply q6
    intro e he
    have := hi (s + e) (by omega) (by omega)
    rw [hpath (s + e) (by omega) (by omega)] at this
    have e' : s + e - s = e := by omega
    rw [e'] at this
    exact this
  · intro l hl'
    rw [hinv'.freeListOf_eq, hinv.freeListOf_eq, q3 l (by omega)]

/-- Scenario S1: `allocate(28)` on a fresh region of 256 bytes. -/
theorem allocate_effect_upto256_witness :
    Reachable (build 256) [] ∧ allocate (build 256) 28 = (some 0, (allocate (build 256) 28).2) ∧
    findLevel (build 256) 28 = some 3 ∧
    ∃ s, s ≤ 3 ∧ (build 256).m_freeLists s = some 0 ∧
      (∀ l, s < l → l ≤ 3 → (build 256).m_freeLists l = none) ∧
      freeListOf (allocate (build 256) 28).2 s = (freeListOf (build 256) s).tail ∧
      (∀ l, s < l → l ≤ 3 → freeListOf (build 256) l = [] ∧
        freeListOf (allocate (build 256) 28).2 l = [0 + (build 256).m_levelSize l]) ∧
      (∀ l, s ≤ l → l < 3 →
        (allocate (build 256) 28).2.m_blockInfo (indexOfLevel (build 256) 0 l) = Split) ∧
      (∀ l, s < l → l ≤ 3 →
        (allocate (build 256) 28).2.m_blockInfo
          (indexOfLevel (build 256) (0 + (build 256).m_levelSize l) l) = Free) ∧
      (allocate (build 256) 28).2.m_blockInfo (indexOfLevel (build 256) 0 3) = Allocated ∧
      (∀ i, (∀ l, s ≤ l → l ≤ 3 → i ≠ indexOfLevel (build 256) 0 l) →
        (allocate (build 256) 28).2.m_blockInfo i = (build 256).m_blockInfo i) ∧
      (∀ l, (l < s ∨ 3 < l) →
        freeListOf (allocate (build 256) 28).2 l = freeListOf (build 256) l) :=
  ⟨Reachable.init 200 (build 256) rfl, rfl, rfl,
    allocate_effect_upto256 (build 256) [] (Reachable.init 200 (build 256) rfl) (by decide) 28 0 3
      (allocate (build 256) 28).2 rfl rfl⟩

end BuddyAllocator

namespace BuddyAllocator
open BlockStatus


/-! ## The accounted blocks partition the region -/

theorem parent_iterate_cell {k j : Nat} (hk : k ≤ 5) (hj : j < 2 ^ k) : ∀ d, d ≤ k →
    parent^[d] (cell k j) = cell (k - d) (j / 2 ^ d) := by
  intro d
  induction d with
  | zero => intro _; simp
  | succ d ih =>
    intro hd
    rw [Function.iterate_succ_apply', ih (by omega)]
    obtain ⟨m, hm⟩ : ∃ m, k - d = m + 1 := ⟨k - d - 1, by omega⟩
    have hpos := div_pow_lt (by omega : d ≤ k) hj
    rw [hm] at hpos ⊢
    rw [parent_cell (by omega) hpos, Nat.div_div_eq_div_mul, ← pow_succ]
    congr 1; omega

theorem cell_decomp : ∀ L i, i < 2 ^ (L + 1) - 1 → ∃ k j, k ≤ L ∧ j < 2 ^ k ∧ i = cell k j := by
  intro L
  induction L with
  | zero =>
    intro i hi
    have : i = 0 := by simp at hi; omega
    exact ⟨0, 0, le_refl 0, by norm_num, by rw [this]; rfl⟩
  | succ L ih =>
    intro i hi
    by_cases hlt : i < 2 ^ (L + 1) - 1
    · obtain ⟨k, j, h1, h2, h3⟩ := ih i hlt
      exact ⟨k, j, by omega, h2, h3⟩
    · have hp := two_pow_pos (L + 1)
      rw [pow_succ] at hi
      exact ⟨L + 1, i - (2 ^ (L + 1) - 1), le_refl _, by omega, by unfold cell; omega⟩

theorem cell_lt_total {L k j : Nat} (hk : k ≤ L) (hj : j < 2 ^ k) :
    cell k j < 2 ^ (L + 1) - 1 := by
  have h1 : 2 ^ (k + 1) ≤ 2 ^ (L + 1) := Nat.pow_le_pow_right (by norm_num) (by omega)
  have hp := two_pow_pos k
  rw [pow_succ] at h1
  unfold cell; omega

/-- For the cell of position `j` of level `k`, being accounted in the sense
of the specification is being a `Leaf`. -/
theorem accounted_cell_iff {a : BuddyAllocator} {L : Nat} (hg : Geom a L)
    (hc : Closed a.m_blockInfo L) {k j : Nat} (hk : k ≤ L) (hj : j < 2 ^ k) :
    Accounted a (cell k j) ↔ Leaf a.m_blockInfo k j := by
  have hk5 : k ≤ 5 := hk.trans hg.le
  unfold Accounted
  rw [levelOfIndex_cell hk5 hj, hg.maxLevel]
  constructor
  · rintro ⟨_, hst, hanc⟩
    refine ⟨?_, ?_⟩
    · rcases Nat.eq_zero_or_pos k with h0 | h0
      · exact Or.inl h0
      · right
        have := hanc 1 (le_refl 1) h0
        rw [parent_iterate_cell hk5 hj 1 h0, pow_one] at this
        exact this
    · unfold st
      rcases hst with e | e <;> rw [e] <;> decide
  · intro hl
    refine ⟨cell_lt_total hk hj, ?_, ?_⟩
    · have := hl.2
      unfold st at this
      cases hs : a.m_blockInfo (cell k j) with
      | Split => exact absurd hs this
      | Free => exact Or.inl rfl
      | Allocated => exact Or.inr rfl
    · intro d hd1 hdk
      rw [parent_iterate_cell hk5 hj d hdk]
      exact hc.anc_split hk hj hl d hd1 hdk

theorem inBlock_cell_iff {a : BuddyAllocator} {L : Nat} (hg : Geom a L) {k j : Nat}
    (hk : k ≤ L) (hj : j < 2 ^ k) (y : Nat) :
    InBlock a (cell k j) y ↔ y / 16 / 2 ^ (L - k) = j := by
  have hk5 : k ≤ 5 := hk.trans hg.le
  unfold InBlock
  rw [levelOfIndex_cell hk5 hj, hg.addressOf_cell hk hj, hg.size k hk, Nat.div_div_eq_div_mul]
  unfold blockAddr
  have hpos : 0 < 16 * 2 ^ (L - k) := by positivity
  constructor
  · rintro ⟨h1, h2⟩
    apply Nat.le_antisymm
    · rw [← Nat.lt_succ_iff, Nat.div_lt_iff_lt_mul hpos]
      calc y < j * (16 * 2 ^ (L - k)) + 16 * 2 ^ (L - k) := h2
        _ = (j + 1) * (16 * 2 ^ (L - k)) := by ring
    · rw [Nat.le_div_iff_mul_le hpos]; exact h1
  · intro e
    subst e
    refine ⟨Nat.div_mul_le_self _ _, ?_⟩
    have := Nat.lt_succ_iff.mpr (le_refl (y / (16 * 2 ^ (L - k))))
    rw [Nat.div_lt_iff_lt_mul hpos] at this
    calc y < (y / (16 * 2 ^ (L - k)) + 1) * (16 * 2 ^ (L - k)) := this
      _ = _ := by ring

/-- Every 16-byte slot of the region lies in an accounted block. -/
theorem leaf_exists {bi : Nat → BlockStatus} {L : Nat}
    (hb : ∀ j, j < 2 ^ L → st bi L j ≠ Split) {u : Nat} (hu : u < 2 ^ L) :
    ∃ k, k ≤ L ∧ Leaf bi k (u / 2 ^ (L - k)) := by
  have key : ∀ d k, k + d = L → (k = 0 ∨ st bi (k - 1) (u / 2 ^ (L - k) / 2) = Split) →
      ∃ k', k' ≤ L ∧ Leaf bi k' (u / 2 ^ (L - k')) := by
    intro d
    induction d with
    | zero =>
      intro k hk hp
      have : k = L := by omega
      subst this
      refine ⟨k, le_refl k, hp, ?_⟩
      simp only [Nat.sub_self, pow_zero, Nat.div_one]
      exact hb u hu
    | succ d ih =>
      intro k hk hp
      by_cases hs : st bi k (u / 2 ^ (L - k)) = Split
      · apply ih (k + 1) (by omega)
        right
        rw [Nat.add_sub_cancel, Nat.div_div_eq_div_mul, ← pow_succ]
        have : L - (k + 1) + 1 = L - k := by omega
        rw [this]; exact hs
      · exact ⟨k, by omega, hp, hs⟩
  exact key L 0 (by omega) (Or.inl rfl)

theorem slot_pos_lt {L k u : Nat} (hk : k ≤ L) (hu : u < 2 ^ L) : u / 2 ^ (L - k) < 2 ^ k := by
  have := div_pow_lt (Nat.sub_le L k) hu
  have e : L - (L - k) = k := by omega
  rw [e] at this; exact this

/-- Under the invariant every byte of the region lies in the block of
exactly one accounted cell, and accounted blocks stay inside the region. -/
theorem PInv.partition {a : BuddyAllocator} {L : Nat} {lists : Nat → List Nat}
    {live : List (Nat × Nat)} {pend : Option (Nat × Nat)} (h : PInv a L lists live pend) :
    (∀ y, y < a.m_numBytes → ∃! i, Accounted a i ∧ InBlock a i y) ∧
    (∀ i y, Accounted a i → InBlock a i y → y < a.m_numBytes) := by
  constructor
  · intro y hy
    rw [h.geom.numBytes] at hy
    have hu : y / 16 < 2 ^ L := by
      rw [Nat.div_lt_iff_lt_mul (by norm_num)]; omega
    obtain ⟨k, hk, hleaf⟩ := leaf_exists h.bottom hu
    have hj := slot_pos_lt hk hu
    refine ⟨cell k (y / 16 / 2 ^ (L - k)),
      ⟨(accounted_cell_iff h.geom h.closed hk hj).mpr hleaf,
        (inBlock_cell_iff h.geom hk hj y).mpr rfl⟩, ?_⟩
    rintro i ⟨hacc, hin⟩
    have hi := hacc.1
    rw [h.geom.maxLevel] at hi
    obtain ⟨k', j', hk', hj', rfl⟩ := cell_decomp L i hi
    have hleaf' := (accounted_cell_iff h.geom h.closed hk' hj').mp hacc
    have hpos' := (inBlock_cell_iff h.geom hk' hj' y).mp hin
    obtain ⟨e1, e2⟩ := h.closed.leaf_unique hk' hk hj' hj hleaf' hleaf hpos' rfl
    rw [e1, e2]
  · intro i y hacc hin
    have hi := hacc.1
    rw [h.geom.maxLevel] at hi
    obtain ⟨k, j, hk, hj, rfl⟩ := cell_decomp L i hi
    have hk5 : k ≤ 5 := hk.trans h.geom.le
    unfold InBlock at hin
    rw [levelOfIndex_cell hk5 hj, h.geom.addressOf_cell hk hj, h.geom.size k hk] at hin
    rw [h.geom.numBytes]
    unfold blockAddr at hin
    have e : 2 ^ L = 2 ^ k * 2 ^ (L - k) := by
      rw [← pow_add]; congr 1; omega
    rw [e]
    have : (j + 1) * (16 * 2 ^ (L - k)) ≤ 2 ^ k * (16 * 2 ^ (L - k)) :=
      Nat.mul_le_mul_right _ hj
    nlinarith [hin.2]

/-- The blocks of two different live pointers do not overlap. -/
theorem PInv.live_disjoint {a : BuddyAllocator} {L : Nat} {lists : Nat → List Nat}
    {live : List (Nat × Nat)} (h : PInv a L lists live none) {p k q k' : Nat}
    (hp : (p, k) ∈ live) (hq : (q, k') ∈ live) (hne : (p, k) ≠ (q, k')) :
    p + a.m_levelSize k ≤ q ∨ q + a.m_levelSize k' ≤ p := by
  obtain ⟨hk, j, hj, hpj, hleaf, _⟩ := h.live_ok p k hp
  obtain ⟨hk', j', hj', hqj, hleaf', _⟩ := h.live_ok q k' hq
  by_contra hc
  rw [not_or, not_le, not_le] at hc
  obtain ⟨h1, h2⟩ := hc
  have hin1 : InBlock a (cell k j) (max p q) := by
    unfold InBlock
    rw [levelOfIndex_cell (hk.trans h.geom.le) hj, h.geom.addressOf_cell hk hj, ← hpj]
    exact ⟨le_max_left _ _, by
      rcases le_total p q with e | e
      · rw [max_eq_right e]; exact h1
      · rw [max_eq_left e]
        have := h.geom.size k hk
        have : 0 < a.m_levelSize k := by rw [this]; positivity
        omega⟩
  have hin2 : InBlock a (cell k' j') (max p q) := by
    unfold InBlock
    rw [levelOfIndex_cell (hk'.trans h.geom.le) hj', h.geom.addressOf_cell hk' hj', ← hqj]
    exact ⟨le_max_right _ _, by
      rcases le_total p q with e | e
      · rw [max_eq_right e]
        have := h.geom.size k' hk'
        have : 0 < a.m_levelSize k' := by rw [this]; positivity
        omega
      · rw [max_eq_left e]; exact h2⟩
  have e1 := (inBlock_cell_iff h.geom hk hj _).mp hin1
  have e2 := (inBlock_cell_iff h.geom hk' hj' _).mp hin2
  obtain ⟨rfl, rfl⟩ := h.closed.leaf_unique hk hk' hj hj' hleaf hleaf' e1 e2
  exact hne (by rw [hpj, hqj])

end BuddyAllocator

namespace BuddyAllocator
open BlockStatus

/-! ## Filling the region with minimum-size blocks -/


theorem PInv.allocate_inv {a : BuddyAllocator} {L : Nat} {lists : Nat → List Nat}
    {live : List (Nat × Nat)} (h : PInv a L lists live none) (n : Nat) :
    ∃ lists' live', PInv (allocate a n).2 L lists' live' none := by
  rcases h.allocate_cases n with ⟨hnone, _⟩ | ⟨hn0, hnS, k, s, x, xs, hk, hkL, _, hs, hl⟩
  · rw [hnone]; exact ⟨lists, live, h⟩
  · obtain ⟨j, lists', _, _, _, _, h2, _⟩ := h.allocate_spec hn0 hnS hk hkL hs hl
    exact ⟨lists', _, h2⟩

theorem PInv.allocateAll_inv {L : Nat} : ∀ (ns : List Nat) {a : BuddyAllocator}
    {lists : Nat → List Nat} {live : List (Nat × Nat)}, PInv a L lists live none →
    ∃ lists' live', PInv (allocateAll a ns).2 L lists' live' none := by
  intro ns
  induction ns with
  | nil => intro a lists live h; exact ⟨lists, live, h⟩
  | cons n ns ih =>
    intro a lists live h
    obtain ⟨lists', live', h'⟩ := h.allocate_inv n
    exact ih h'

/-- A request of at most `MIN_BLOCK_SIZE` bytes is served like one of exactly
`MIN_BLOCK_SIZE` bytes. -/
theorem allocate_small {a : BuddyAllocator} {L : Nat} (hg : Geom a L) {n : Nat} (h1 : 1 ≤ n)
    (h2 : n ≤ 16) : allocate a n = allocate a 16 := by
  have hp := two_pow_pos L
  have hfl : ∀ m, 1 ≤ m → m ≤ 16 → findLevel a m = some L := by
    intro m hm1 hm2
    obtain ⟨k, hk, e, _, h4⟩ := findLevel_spec (n := m) hg (by rw [hg.numBytes]; omega)
    rcases Nat.eq_or_lt_of_le hk with e' | hlt
    · rw [e, e']
    · have := h4 hlt
      have := two_pow_pos (L - (k + 1))
      omega
  unfold allocate
  rw [if_neg (by omega), if_neg (by rw [hg.numBytes]; omega), if_neg (by omega),
    if_neg (by rw [hg.numBytes]; omega), hfl n h1 h2, hfl 16 (by omega) (le_refl 16)]

theorem PInv.allocateAll_small {L : Nat} : ∀ (ns : List Nat) {a : BuddyAllocator}
    {lists : Nat → List Nat} {live : List (Nat × Nat)}, PInv a L lists live none →
    (∀ n, n ∈ ns → 1 ≤ n ∧ n ≤ 16) →
    allocateAll a ns = allocateAll a (List.replicate ns.length 16) := by
  intro ns
  induction ns with
  | nil => intro a lists live _ _; rfl
  | cons n ns ih =>
    intro a lists live h hns
    obtain ⟨h1, h2⟩ := hns n (List.mem_cons_self _ _)
    obtain ⟨lists', live', h'⟩ := h.allocate_inv 16
    simp only [allocateAll, List.length_cons, List.replicate_succ]
    rw [allocate_small h.geom h1 h2, ih h' (fun m hm => hns m (List.mem_cons_of_mem _ hm))]

/-- After `2 ^ L` requests of 16 bytes on a fresh region with `L + 1` levels
every request succeeded, the deepest level is all `Allocated`, the levels above
are all `Split` and the free lists are empty. -/
theorem fill_result : ∀ L, L ≤ 4 →
    (∀ r, r ∈ (allocateAll (build (16 * 2 ^ L)) (List.replicate (2 ^ L) 16)).1 → r ≠ none) ∧
    (∀ i, i < 2 ^ (L + 1) - 1 →
      (levelOfIndex i = L →
        (allocateAll (build (16 * 2 ^ L)) (List.replicate (2 ^ L) 16)).2.m_blockInfo i =
          Allocated) ∧
      (levelOfIndex i < L →
        (allocateAll (build (16 * 2 ^ L)) (List.replicate (2 ^ L) 16)).2.m_blockInfo i =
          Split)) ∧
    (∀ l, l ≤ L →
      (allocateAll (build (16 * 2 ^ L)) (List.replicate (2 ^ L) 16)).2.m_freeLists l = none) := by
  intro L hL
  interval_cases L
  all_goals decide

/-- C8: for every region size `S` in {16, 32, 64, 128, 256}, starting from a
freshly constructed allocator, `S / MIN` consecutive `allocate` calls with
request sizes between 1 and `MIN` all succeed; afterwards every cell of level
`L_max` is `Allocated`, every cell of a level above `L_max` is `Split`, every
free list is empty, and any further `allocate(n)` with `n >= 1` returns
null. -/
theorem C8_fill_region (R : Nat) (a : BuddyAllocator) (hc : construct R = some a)
    (hS : a.m_numBytes ∈ [16, 32, 64, 128, 256]) (ns : List Nat)
    (hlen : ns.length = a.m_numBytes / MIN_BLOCK_SIZE)
    (hns : ∀ n, n ∈ ns → 1 ≤ n ∧ n ≤ MIN_BLOCK_SIZE) :
    (∀ r, r ∈ (allocateAll a ns).1 → r ≠ none) ∧
    (∀ i, i < 2 ^ (a.m_maxLevel + 1) - 1 →
      (levelOfIndex i = a.m_maxLevel → (allocateAll a ns).2.m_blockInfo i = Allocated) ∧
      (levelOfIndex i < a.m_maxLevel → (allocateAll a ns).2.m_blockInfo i = Split)) ∧
    (∀ l, l ≤ a.m_maxLevel → (allocateAll a ns).2.m_freeLists l = none) ∧
    (∀ n, 1 ≤ n → (allocate (allocateAll a ns).2 n).1 = none) := by
  obtain ⟨L, hL, _, rfl⟩ := construct_some hc
  have hinv := build_inv hL
  have hnb : (build (16 * 2 ^ L)).m_numBytes = 16 * 2 ^ L := rfl
  have hL4 : L ≤ 4 := by
    rw [hnb] at hS
    by_contra hc'
    have : L = 5 := by omega
    subst this
    simp at hS
  have hlen' : ns.length = 2 ^ L := by
    rw [hlen, hnb]; unfold MIN_BLOCK_SIZE
    exact Nat.mul_div_cancel_left _ (by norm_num)
  have hrepl := hinv.allocateAll_small ns hns
  rw [hlen'] at hrepl
  obtain ⟨f1, f2, f3⟩ := fill_result L hL4
  obtain ⟨lists', live', hinv'⟩ := hinv.allocateAll_inv ns
  rw [hrepl, hinv.geom.maxLevel] at *
  refine ⟨f1, f2, f3, ?_⟩
  intro n hn
  rcases hinv'.allocate_cases n with ⟨hnone, _⟩ | ⟨_, _, k, s, x, xs, _, hkL, _, hs, hl⟩
  · rw [hnone]
  · exfalso
    obtain ⟨hsk, hne, _⟩ := searchLevel_some k s hs
    exact hne (f3 s (by omega))

/-- A region of 64 bytes filled by four requests of 15, 16, 1 and 8 bytes. -/
theorem C8_fill_region_witness :
    construct 64 = some (build 64) ∧ (build 64).m_numBytes ∈ [16, 32, 64, 128, 256] ∧
    [15, 16, 1, 8].length = (build 64).m_numBytes / MIN_BLOCK_SIZE ∧
    (∀ n, n ∈ [15, 16, 1, 8] → 1 ≤ n ∧ n ≤ MIN_BLOCK_SIZE) ∧
    ((∀ r, r ∈ (allocateAll (build 64) [15, 16, 1, 8]).1 → r ≠ none) ∧
    (∀ i, i < 2 ^ ((build 64).m_maxLevel + 1) - 1 →
      (levelOfIndex i = (build 64).m_maxLevel →
        (allocateAll (build 64) [15, 16, 1, 8]).2.m_blockInfo i = Allocated) ∧
      (levelOfIndex i < (build 64).m_maxLevel →
        (allocateAll (build 64) [15, 16, 1, 8]).2.m_blockInfo i = Split)) ∧
    (∀ l, l ≤ (build 64).m_maxLevel →
      (allocateAll (build 64) [15, 16, 1, 8]).2.m_freeLists l = none) ∧
    (∀ n, 1 ≤ n → (allocate (allocateAll (build 64) [15, 16, 1, 8]).2 n).1 = none)) :=
  ⟨rfl, by decide, by decide, by decide,
    C8_fill_region 64 (build 64) rfl (by decide) [15, 16, 1, 8] (by decide) (by decide)⟩

end BuddyAllocator

namespace BuddyAllocator
open BlockStatus


/-! ## The region size fixed by the constructor -/

/-- C7, as stated, fails: a requested size of 513 bytes makes the constructor
fix `m_numBytes` at 1024, above `MAX_MEMORY_SIZE = 512`; the size is not
clamped, `createMemory` refuses it. -/
theorem C7_counterexample :
    regionSize 513 = some 1024 ∧ MAX_MEMORY_SIZE < 1024 ∧ createMemory 1024 = false := by
  decide

/-- C7, amended: for every requested size `R` up to `2 ^ 63` the constructor
fixes `S = m_numBytes` as the least power of two that is at least `R` and at
least `MIN_BLOCK_SIZE = 16`; so `MIN <= S` always, while `S <= MAX_MEMORY_SIZE`
holds exactly when `R <= MAX_MEMORY_SIZE`. -/
theorem C7_region_size (R : Nat) (hR : R ≤ 2 ^ 63) :
    ∃ S, regionSize R = some S ∧ (∃ i, S = 2 ^ i) ∧ R ≤ S ∧ MIN_BLOCK_SIZE ≤ S ∧
      (∀ q, (∃ i, q = 2 ^ i) → R ≤ q → MIN_BLOCK_SIZE ≤ q → S ≤ q) ∧
      (S ≤ MAX_MEMORY_SIZE ↔ R ≤ MAX_MEMORY_SIZE) := by
  obtain ⟨p, hp⟩ := nextPowerOfTwoLoop_total hR 63 0 66 (by omega) (by omega)
  have hnp : nextPowerOfTwo R = some p := by
    unfold nextPowerOfTwo; simpa using hp
  have hrs : regionSize R = some (if p < MIN_BLOCK_SIZE then MIN_BLOCK_SIZE else p) := by
    unfold regionSize; rw [hnp]
  obtain ⟨i, hi4, _, hS, hRS, hmin⟩ := regionSize_some hrs
  have hMIN : MIN_BLOCK_SIZE = 2 ^ 4 := by decide
  have hMAX : MAX_MEMORY_SIZE = 2 ^ 9 := by decide
  have hminimal : ∀ q, (∃ m, q = 2 ^ m) → R ≤ q → MIN_BLOCK_SIZE ≤ q →
      (if p < MIN_BLOCK_SIZE then MIN_BLOCK_SIZE else p) ≤ q := by
    rintro q ⟨m, rfl⟩ hRq hMq
    rw [hS]
    rcases Nat.eq_or_lt_of_le hi4 with e | hlt
    · rw [← e, ← hMIN]; exact hMq
    · have h1 := hmin hlt
      have h2 : 2 ^ (i - 1) < 2 ^ m := lt_of_lt_of_le h1 hRq
      have h3 : i - 1 < m := (Nat.pow_lt_pow_iff_right (by norm_num)).mp h2
      exact Nat.pow_le_pow_right (by norm_num) (by omega)
  refine ⟨_, hrs, ⟨i, hS⟩, hRS, ?_, hminimal, ?_⟩
  · rw [hS, hMIN]; exact Nat.pow_le_pow_right (by norm_num) hi4
  · constructor
    · intro h; exact hRS.trans h
    · intro h
      rw [hMAX] at h ⊢
      exact hminimal _ ⟨9, rfl⟩ h (by rw [hMIN]; norm_num)

/-- The request of `main.cpp`: 200 bytes give a region of 256 bytes. -/
theorem C7_region_size_witness :
    200 ≤ 2 ^ 63 ∧
    ∃ S, regionSize 200 = some S ∧ (∃ i, S = 2 ^ i) ∧ 200 ≤ S ∧ MIN_BLOCK_SIZE ≤ S ∧
      (∀ q, (∃ i, q = 2 ^ i) → 200 ≤ q → MIN_BLOCK_SIZE ≤ q → S ≤ q) ∧
      (S ≤ MAX_MEMORY_SIZE ↔ 200 ≤ MAX_MEMORY_SIZE) :=
  ⟨by norm_num, C7_region_size 200 (by norm_num)⟩

/-! ## Releasing the root block -/

/-- C5 at its failing input: on a region of 256 bytes, `p = allocate(256)`
returns the root block and `free(p)` pushes it on free list 0, but the status
query for index 0 still reports `'A'`: the root branch of `free` compares the
status with `Free` instead of assigning it. -/
theorem C5_root_release :
    (allocate (build 256) 256).1 = some 0 ∧
    indexOf (allocate (build 256) 256).2 0 = 0 ∧
    freeListOf (free (allocate (build 256) 256).2 (some 0)) 0 = [0] ∧
    (free (allocate (build 256) 256).2 (some 0)).m_blockInfo 0 = Allocated ∧
    status (free (allocate (build 256) 256).2 (some 0)) 0 = 'A' := by
  decide

/-- C4 at its failing input: on a region of 16 bytes one successful
allocation followed by the release of its pointer leaves the free lists as
they were after construction, but `status[0]` is `Allocated`, not `Free`
as in the initial state. -/
theorem C4_round_trip_root :
    (build 16).m_blockInfo 0 = Free ∧
    (allocate (build 16) 10).1 = some 0 ∧
    freeListOf (free (allocate (build 16) 10).2 (some 0)) 0 = [0] ∧
    (∀ l, 1 ≤ l → l ≤ MAX_LEVELS → freeListOf (free (allocate (build 16) 10).2 (some 0)) l = []) ∧
    (free (allocate (build 16) 10).2 (some 0)).m_blockInfo 0 = Allocated := by
  decide

end BuddyAllocator

namespace BuddyAllocator
open BlockStatus


/-! ## Geometry of a constructed allocator -/

/-- The constructor succeeds for every request of at most 512 bytes. -/
theorem construct_total {R : Nat} (hR : R ≤ 512) :
    ∃ L, L ≤ 5 ∧ construct R = some (build (16 * 2 ^ L)) := by
  obtain ⟨p, hp⟩ := nextPowerOfTwoLoop_total (by omega : R ≤ 2 ^ 63) 63 0 66 (by omega) (by omega)
  have hnp : nextPowerOfTwo R = some p := by
    unfold nextPowerOfTwo; simpa using hp
  have hrs : regionSize R = some (if p < MIN_BLOCK_SIZE then MIN_BLOCK_SIZE else p) := by
    unfold regionSize; rw [hnp]
  obtain ⟨i, hi4, _, hS, _, hmin⟩ := regionSize_some hrs
  have hi9 : i ≤ 9 := by
    by_contra hc
    have h1 := hmin (by omega)
    have h2 : 2 ^ 9 ≤ 2 ^ (i - 1) := Nat.pow_le_pow_right (by norm_num) (by omega)
    omega
  have hS2 : (if p < MIN_BLOCK_SIZE then MIN_BLOCK_SIZE else p) = 16 * 2 ^ (i - 4) := by
    rw [hS]
    have : i = 4 + (i - 4) := by omega
    conv_lhs => rw [this, pow_add]
    norm_num
  rw [hS2] at hrs
  refine ⟨i - 4, by omega, ?_⟩
  unfold construct
  rw [hrs]
  have hle : 16 * 2 ^ (i - 4) ≤ 512 := by
    have : 2 ^ (i - 4) ≤ 2 ^ 5 := Nat.pow_le_pow_right (by norm_num) (by omega)
    omega
  simp only [createMemory_eq, decide_eq_true_eq]
  rw [if_pos hle]

theorem Geom.levelSize_div {a : BuddyAllocator} {L : Nat} (hg : Geom a L) {k : Nat} (hk : k ≤ L) :
    a.m_levelSize k = a.m_numBytes / 2 ^ k := by
  rw [hg.size k hk, hg.numBytes]
  have e : 16 * 2 ^ L = 16 * 2 ^ (L - k) * 2 ^ k := by
    rw [mul_assoc, ← pow_add]; congr 2; omega
  rw [e, Nat.mul_div_cancel _ (two_pow_pos k)]

theorem Geom.log2_eq {a : BuddyAllocator} {L : Nat} (hg : Geom a L) :
    Nat.log2 (a.m_numBytes / MIN_BLOCK_SIZE) = L := by
  rw [hg.numBytes]
  unfold MIN_BLOCK_SIZE
  rw [Nat.mul_div_cancel_left _ (by norm_num : 0 < 16)]
  exact Nat.log2_two_pow

/-- Every ancestor of a block whose status is not `Free` is `Split`. -/
theorem Closed.anc_of_nonfree {a : Nat → BlockStatus} {L : Nat} (hc : Closed a L) {k j : Nat}
    (hk : k ≤ L) (hj : j < 2 ^ k) (hs : st a k j ≠ Free) :
    ∀ d, 1 ≤ d → d ≤ k → st a (k - d) (j / 2 ^ d) = Split := by
  intro d
  induction d with
  | zero => intro h; omega
  | succ d ih =>
    intro _ hdk
    have hs' : st a (k - d) (j / 2 ^ d) ≠ Free := by
      rcases Nat.eq_zero_or_pos d with h0 | h0
      · subst h0; simpa using hs
      · rw [ih h0 (by omega)]; decide
    have hpos : j / 2 ^ d < 2 ^ (k - (d + 1) + 1) := by
      have := div_pow_lt (by omega : d ≤ k) hj
      have e : k - (d + 1) + 1 = k - d := by omega
      rw [e]; exact this
    have e1 : k - d = k - (d + 1) + 1 := by omega
    rw [e1] at hs'
    have := hc.parent_split (by omega) hpos hs'
    rw [Nat.div_div_eq_div_mul, ← pow_succ] at this
    exact this

/-- A proper descendant of the cell `i`, in tree coordinates. -/
theorem descends_cell {L : Nat} (hL : L ≤ 5) {i j : Nat} (hj : j < 2 ^ (L + 1) - 1)
    (h : Descends i j) :
    ∃ k c d, k ≤ L ∧ c < 2 ^ k ∧ j = cell k c ∧ 1 ≤ d ∧ d ≤ k ∧ i = cell (k - d) (c / 2 ^ d) := by
  obtain ⟨k, c, hk, hc, rfl⟩ := cell_decomp L j hj
  obtain ⟨d, hd1, hd2, hd3⟩ := h
  rw [levelOfIndex_cell (hk.trans hL) hc] at hd2
  rw [parent_iterate_cell (hk.trans hL) hc d hd2] at hd3
  exact ⟨k, c, d, hk, hc, rfl, hd1, hd2, hd3.symm⟩

/-! ## The level of a request and the level table -/

/-- C12: in every reachable state (so for every region size the constructor
accepts, in particular the powers of two from 16 to 256) and for every request
`n` with `n ≤ S`, `findLevel(n)` returns, without decrementing below level 0,
a level `k ≤ L_max` with `levelSize[k] ≥ n` that is the deepest such level; it
is `L_max` when `n ≤ MIN` and 0 when `n = S`. -/
theorem C12_findLevel (a : BuddyAllocator) (live : List (Nat × Nat)) (h : Reachable a live)
    (n : Nat) (h2 : n ≤ a.m_numBytes) :
    ∃ k, findLevel a n = some k ∧ k ≤ a.m_maxLevel ∧ n ≤ a.m_levelSize k ∧
      (∀ l, l ≤ a.m_maxLevel → n ≤ a.m_levelSize l → l ≤ k) ∧
      (n ≤ MIN_BLOCK_SIZE → k = a.m_maxLevel) ∧ (n = a.m_numBytes → k = 0) := by
  obtain ⟨L, lists, hI⟩ := h.inv
  have hg := hI.geom
  obtain ⟨k, hk, hf, hle, hdeep⟩ := findLevel_spec hg h2
  rw [hg.maxLevel]
  refine ⟨k, hf, hk, by rw [hg.size k hk]; exact hle, ?_, ?_, ?_⟩
  · intro l hl hnl
    rw [hg.size l hl] at hnl
    by_contra hc
    have h1 := hdeep (by omega)
    have h3 : 2 ^ (L - l) ≤ 2 ^ (L - (k + 1)) := Nat.pow_le_pow_right (by norm_num) (by omega)
    omega
  · intro hn
    unfold MIN_BLOCK_SIZE at hn
    by_contra hc
    have h1 := hdeep (by omega)
    have := two_pow_pos (L - (k + 1))
    omega
  · intro hn
    rw [hg.numBytes] at hn
    by_contra hc
    have h3 : 2 ^ (L - k) < 2 ^ L := Nat.pow_lt_pow_right (by norm_num) (by omega)
    omega

/-- A request of 33 bytes in the allocator of `main.cpp`. -/
theorem C12_findLevel_witness :
    Reachable (build 256) [] ∧ 33 ≤ (build 256).m_numBytes ∧
    ∃ k, findLevel (build 256) 33 = some k ∧ k ≤ (build 256).m_maxLevel ∧
      33 ≤ (build 256).m_levelSize k ∧
      (∀ l, l ≤ (build 256).m_maxLevel → 33 ≤ (build 256).m_levelSize l → l ≤ k) ∧
      (33 ≤ MIN_BLOCK_SIZE → k = (build 256).m_maxLevel) ∧
      (33 = (build 256).m_numBytes → k = 0) :=
  ⟨Reachable.init 200 (build 256) rfl, by decide,
    C12_findLevel (build 256) [] (Reachable.init 200 (build 256) rfl) 33 (by decide)⟩

/-- C13: for every requested size `R ≤ 512` the constructor succeeds; the
region size `S = m_numBytes` of the allocator it builds is the least power of
two that is at least `R` and at least `MIN = 16`, `S = MIN * 2 ^ L_max`,
`L_max = log2(S / MIN)`, `levelSize[k] = S / 2^k` and
`levelStart[k] = 2^k - 1` for every `k ≤ L_max`, and
`levelSize[L_max] = MIN = 16`. -/
theorem C13_level_table (R : Nat) (hR : R ≤ 512) :
    ∃ a, construct R = some a ∧
      regionSize R = some a.m_numBytes ∧
      (∃ i, a.m_numBytes = 2 ^ i) ∧ R ≤ a.m_numBytes ∧ MIN_BLOCK_SIZE ≤ a.m_numBytes ∧
      (∀ q, (∃ i, q = 2 ^ i) → R ≤ q → MIN_BLOCK_SIZE ≤ q → a.m_numBytes ≤ q) ∧
      a.m_numBytes = MIN_BLOCK_SIZE * 2 ^ a.m_maxLevel ∧
      a.m_maxLevel = Nat.log2 (a.m_numBytes / MIN_BLOCK_SIZE) ∧
      (∀ k, k ≤ a.m_maxLevel →
        a.m_levelSize k = a.m_numBytes / 2 ^ k ∧ a.m_levelStartIndex k = 2 ^ k - 1) ∧
      a.m_levelSize a.m_maxLevel = MIN_BLOCK_SIZE ∧ MIN_BLOCK_SIZE = 16 := by
  obtain ⟨L0, _, hc⟩ := construct_total hR
  obtain ⟨L, hL, hrs, hab⟩ := construct_some hc
  rw [hab] at hc
  have hg := build_geom L hL
  obtain ⟨i, hi4, _, hS, hRS, hmin⟩ := regionSize_some hrs
  have hMIN : MIN_BLOCK_SIZE = 2 ^ 4 := by decide
  refine ⟨_, hc, by rw [hg.numBytes]; exact hrs, ⟨i, by rw [hg.numBytes]; exact hS⟩,
    by rw [hg.numBytes]; exact hRS, ?_, ?_, ?_, ?_, ?_, ?_, rfl⟩
  · rw [hg.numBytes, hS, hMIN]
    exact Nat.pow_le_pow_right (by norm_num) hi4
  · rintro q ⟨m, rfl⟩ hRq hMq
    rw [hg.numBytes, hS]
    rcases Nat.eq_or_lt_of_le hi4 with e | hlt
    · rw [← e, ← hMIN]; exact hMq
    · have h1 := hmin hlt
      have h2 : 2 ^ (i - 1) < 2 ^ m := lt_of_lt_of_le h1 hRq
      have h3 : i - 1 < m := (Nat.pow_lt_pow_iff_right (by norm_num)).mp h2
      exact Nat.pow_le_pow_right (by norm_num) (by omega)
  · rw [hg.numBytes, hg.maxLevel]; rfl
  · rw [hg.log2_eq, hg.maxLevel]
  · intro k hk
    rw [hg.maxLevel] at hk
    exact ⟨hg.levelSize_div hk, hg.start k hk⟩
  · rw [hg.maxLevel, hg.size L (le_refl L)]
    simp [MIN_BLOCK_SIZE]

/-- The request of `main.cpp`: 200 bytes give a region of 256 bytes with
`L_max = 4` and the block sizes 256, 128, 64, 32, 16. -/
theorem C13_level_table_witness :
    200 ≤ 512 ∧
    ∃ a, (a.m_numBytes = 256 ∧ a.m_maxLevel = 4 ∧
        a.m_levelSize 0 = 256 ∧ a.m_levelSize 1 = 128 ∧ a.m_levelSize 2 = 64 ∧
        a.m_levelSize 3 = 32 ∧ a.m_levelSize 4 = 16) ∧
      construct 200 = some a ∧
      regionSize 200 = some a.m_numBytes ∧
      (∃ i, a.m_numBytes = 2 ^ i) ∧ 200 ≤ a.m_numBytes ∧ MIN_BLOCK_SIZE ≤ a.m_numBytes ∧
      (∀ q, (∃ i, q = 2 ^ i) → 200 ≤ q → MIN_BLOCK_SIZE ≤ q → a.m_numBytes ≤ q) ∧
      a.m_numBytes = MIN_BLOCK_SIZE * 2 ^ a.m_maxLevel ∧
      a.m_maxLevel = Nat.log2 (a.m_numBytes / MIN_BLOCK_SIZE) ∧
      (∀ k, k ≤ a.m_maxLevel →
        a.m_levelSize k = a.m_numBytes / 2 ^ k ∧ a.m_levelStartIndex k = 2 ^ k - 1) ∧
      a.m_levelSize a.m_maxLevel = MIN_BLOCK_SIZE ∧ MIN_BLOCK_SIZE = 16 := by
  obtain ⟨a, hc, rest⟩ := C13_level_table 200 (by norm_num)
  have hb : construct 200 = some (build 256) := rfl
  have ha : a = build 256 := by
    rw [hb] at hc
    exact (Option.some.inj hc).symm
  subst ha
  exact ⟨by norm_num, build 256,
    ⟨by decide, by decide, by decide, by decide, by decide, by decide, by decide⟩, hc, rest⟩

/-- C14 at its failing input: the constructor accepts a request of 512 bytes
(`MAX_MEMORY_SIZE`), for which `L_max = 5` and the tree has `2^6 - 1 = 63`
cells, more than the `MAX_NUMBER_OF_BLOCKS = 31` entries of `m_blockInfo`; the
first `allocate(16)` then splits the cell 15, which sets the status of the
cell 32 (its right child), and marks the cell 31 as allocated, both beyond
the end of the array. -/
theorem C14_status_array_overrun :
    construct 512 = some (build 512) ∧
    (build 512).m_numBytes = MAX_MEMORY_SIZE ∧
    (build 512).m_maxLevel = 5 ∧
    MAX_NUMBER_OF_BLOCKS = 31 ∧
    ¬ (2 ^ ((build 512).m_maxLevel + 1) - 1 ≤ MAX_NUMBER_OF_BLOCKS) ∧
    (allocate (build 512) 16).1 = some 0 ∧
    (build 512).m_blockInfo 31 = Free ∧
    (allocate (build 512) 16).2.m_blockInfo 31 = Allocated ∧
    (allocate (build 512) 16).2.m_blockInfo 15 = Split ∧
    right 15 = 32 ∧ left 15 = 31 ∧
    ¬ (31 < MAX_NUMBER_OF_BLOCKS) :=
  ⟨rfl, by decide, by decide, by decide, by decide, by decide, by decide, by decide,
    by decide, by decide, by decide, by decide⟩

end BuddyAllocator

namespace BuddyAllocator
open BlockStatus


/-! ## Free blocks and free lists -/

theorem mainThree_reachable : Reachable mainThree [(128, 2), (64, 2), (0, 3)] :=
  Reachable.alloc _ _ _ 64 128 2
    (Reachable.alloc _ _ _ 33 64 2
      (Reachable.alloc _ _ _ 28 0 3 (Reachable.init 200 (build 256) rfl) rfl rfl) rfl rfl)
    rfl rfl

theorem HeapOK.popFront_nil {a : BuddyAllocator} {lists : Nat → List Nat} (h : HeapOK a lists)
    {l : Nat} (hl : lists l = []) :
    (removeFromListFront a l).1 = none ∧ HeapOK (removeFromListFront a l).2 (upd lists l []) := by
  have hfl : a.m_freeLists l = none := (h.head_none l).mpr hl
  rw [removeFromListFront_none a l hfl]
  have e : upd lists l [] = lists := by
    funext k
    by_cases hk : k = l
    · subst hk; rw [upd_same, hl]
    · rw [upd_ne _ _ hk]
  rw [e]
  exact ⟨rfl, h⟩

theorem removeFromList_clears (a : BuddyAllocator) (b l : Nat) :
    (removeFromList a b l).mem b = { prev := none, next := none } := by
  unfold removeFromList
  simp [setPrev, setNext, upd]

/-- For a region of at most 256 bytes, where the status array holds every cell
of the tree: in every reachable state, a cell of the tree whose status is `Free`
and that is the root or has a `Split` parent is the cell of a block linked
exactly once in the free list of its own level and in no other free list. -/
theorem free_block_linked_upto256 (a : BuddyAllocator) (live : List (Nat × Nat))
    (h : Reachable a live) (hS : a.m_numBytes ≤ 256) (i : Nat) (hi : i < 2 ^ (a.m_maxLevel + 1) - 1)
    (hf : a.m_blockInfo i = Free) (hp : i = 0 ∨ a.m_blockInfo (parent i) = Split) :
    (freeListOf a (levelOfIndex i)).count (addressOf a i) = 1 ∧
    ∀ l, l ≠ levelOfIndex i → addressOf a i ∉ freeListOf a l := by
  obtain ⟨L, lists, hI⟩ := h.inv
  have hg := hI.geom
  rw [hg.maxLevel] at hi
  obtain ⟨k, j, hk, hj, rfl⟩ := cell_decomp L i hi
  have hk5 : k ≤ 5 := hk.trans hg.le
  rw [levelOfIndex_cell hk5 hj, hg.addressOf_cell hk hj]
  have hleaf : Leaf a.m_blockInfo k j := by
    refine ⟨?_, ?_⟩
    · cases k with
      | zero => exact Or.inl rfl
      | succ k =>
        right
        rcases hp with h0 | hp
        · have := (cell_eq_zero hj).mp h0
          omega
        · rw [parent_cell hk5 hj] at hp
          simpa using hp
    · show a.m_blockInfo (cell k j) ≠ Split
      rw [hf]; decide
  have hnl : (blockAddr L k j, k) ∉ live := by
    intro hm
    obtain ⟨_, j', _, hadr, _, hal⟩ := hI.live_ok _ _ hm
    have := blockAddr_inj hadr
    subst this
    have : a.m_blockInfo (cell k j) = Allocated := hal
    rw [hf] at this
    cases this
  have hmem : blockAddr L k j ∈ lists k :=
    (hI.mem_lists k _).mpr ⟨hk, j, hj, rfl, hleaf, hnl, by simp⟩
  refine ⟨?_, ?_⟩
  · rw [hI.freeListOf_eq k]
    exact List.count_eq_one_of_mem (hI.heap.nodup k) hmem
  · intro l hl hm
    rw [hI.freeListOf_eq l] at hm
    exact hl (hI.heap.disj _ _ _ hm hmem)

/-- The free block of 64 bytes at offset 192 (cell 6) in the state of
`main.cpp` after three allocations. -/
theorem free_block_linked_upto256_witness :
    Reachable mainThree [(128, 2), (64, 2), (0, 3)] ∧
    6 < 2 ^ (mainThree.m_maxLevel + 1) - 1 ∧ mainThree.m_blockInfo 6 = Free ∧
    (6 = 0 ∨ mainThree.m_blockInfo (parent 6) = Split) ∧
    ((freeListOf mainThree (levelOfIndex 6)).count (addressOf mainThree 6) = 1 ∧
      ∀ l, l ≠ levelOfIndex 6 → addressOf mainThree 6 ∉ freeListOf mainThree l) :=
  ⟨mainThree_reachable, by decide, by decide, Or.inr (by decide),
    free_block_linked_upto256 _ _ mainThree_reachable (by decide) 6 (by decide) (by decide)
      (Or.inr (by decide))⟩

/-- For a region of at most 256 bytes, where the status array holds every cell
of the tree: in every reachable state (after construction and after every
completed `allocate` or `free`) the free list of every level is a well-formed
doubly-linked list: the blocks `freeListOf a k` met by following `next` from
the head are pairwise distinct, the head has a null `prev`, each block has its
successor as `next` and, if it is not the head, its predecessor as `prev`, and
the last one has a null `next` (this is `Seg`); no block is linked in two
lists.  Moreover `insertToList` of a block that is not linked,
`removeFromListFront`, and `removeFromList` of a block linked in the list of
that level each keep all lists well-formed, with the expected contents, and
`removeFromList` leaves the unlinked block with null `prev` and `next`. -/
theorem lists_well_formed_upto256 (a : BuddyAllocator) (live : List (Nat × Nat))
    (h : Reachable a live) (hS : a.m_numBytes ≤ 256) :
    (HeapOK a (freeListOf a) ∧
      ∀ k, Seg a.mem none (a.m_freeLists k) (freeListOf a k) ∧ (freeListOf a k).Nodup) ∧
    (∀ (b : BuddyAllocator) (lists : Nat → List Nat) (x l : Nat), HeapOK b lists →
      (∀ k, x ∉ lists k) → HeapOK (insertToList b x l) (upd lists l (x :: lists l))) ∧
    (∀ (b : BuddyAllocator) (lists : Nat → List Nat) (l : Nat), HeapOK b lists →
      (removeFromListFront b l).1 = (lists l).head? ∧
      HeapOK (removeFromListFront b l).2 (upd lists l (lists l).tail)) ∧
    (∀ (b : BuddyAllocator) (lists : Nat → List Nat) (x l : Nat), HeapOK b lists →
      x ∈ lists l →
      HeapOK (removeFromList b x l) (upd lists l ((lists l).erase x)) ∧
      (removeFromList b x l).mem x = { prev := none, next := none }) := by
  obtain ⟨L, lists, hI⟩ := h.inv
  have e : freeListOf a = lists := funext fun k => hI.freeListOf_eq k
  refine ⟨?_, ?_, ?_, ?_⟩
  · rw [e]
    exact ⟨hI.heap, fun k => ⟨hI.heap.seg k, hI.heap.nodup k⟩⟩
  · intro b lists x l hh hx
    exact hh.insert x l hx
  · intro b lists l hh
    cases hl : lists l with
    | nil => exact hh.popFront_nil hl
    | cons y ys => exact hh.popFront hl
  · intro b lists x l hh hx
    exact ⟨hh.remove hx, removeFromList_clears b x l⟩

/-- The state of `main.cpp` after three allocations. -/
theorem lists_well_formed_upto256_witness :
    Reachable mainThree [(128, 2), (64, 2), (0, 3)] ∧
    ((HeapOK mainThree (freeListOf mainThree) ∧
      ∀ k, Seg mainThree.mem none (mainThree.m_freeLists k) (freeListOf mainThree k) ∧
        (freeListOf mainThree k).Nodup) ∧
    (∀ (b : BuddyAllocator) (lists : Nat → List Nat) (x l : Nat), HeapOK b lists →
      (∀ k, x ∉ lists k) → HeapOK (insertToList b x l) (upd lists l (x :: lists l))) ∧
    (∀ (b : BuddyAllocator) (lists : Nat → List Nat) (l : Nat), HeapOK b lists →
      (removeFromListFront b l).1 = (lists l).head? ∧
      HeapOK (removeFromListFront b l).2 (upd lists l (lists l).tail)) ∧
    (∀ (b : BuddyAllocator) (lists : Nat → List Nat) (x l : Nat), HeapOK b lists →
      x ∈ lists l →
      HeapOK (removeFromList b x l) (upd lists l ((lists l).erase x)) ∧
      (removeFromList b x l).mem x = { prev := none, next := none })) :=
  ⟨mainThree_reachable, lists_well_formed_upto256 _ _ mainThree_reachable (by decide)⟩

/-- For a region of at most 256 bytes, where the status array holds every cell
of the tree: in every reachable state, every proper descendant of a cell whose
status is `Free` or `Allocated` has status `Free`; and every cell reached by
`parent` steps from a `Split` cell is `Split`. -/
theorem descendants_free_upto256 (a : BuddyAllocator) (live : List (Nat × Nat))
    (h : Reachable a live) (hS : a.m_numBytes ≤ 256) :
    (∀ i j, j < 2 ^ (a.m_maxLevel + 1) - 1 → Descends i j →
      (a.m_blockInfo i = Free ∨ a.m_blockInfo i = Allocated) → a.m_blockInfo j = Free) ∧
    (∀ i j, j < 2 ^ (a.m_maxLevel + 1) - 1 → Descends i j →
      a.m_blockInfo j = Split → a.m_blockInfo i = Split) := by
  obtain ⟨L, lists, hI⟩ := h.inv
  have hg := hI.geom
  rw [hg.maxLevel]
  have key : ∀ i j, j < 2 ^ (L + 1) - 1 → Descends i j → a.m_blockInfo j ≠ Free →
      a.m_blockInfo i = Split := by
    intro i j hj hd hs
    obtain ⟨k, c, d, hk, hc, rfl, hd1, hd2, rfl⟩ := descends_cell hg.le hj hd
    exact hI.closed.anc_of_nonfree hk hc hs d hd1 hd2
  refine ⟨?_, ?_⟩
  · intro i j hj hd hi
    by_contra hne
    have := key i j hj hd hne
    rw [this] at hi
    rcases hi with hi | hi <;> cases hi
  · intro i j hj hd hs
    exact key i j hj hd (by rw [hs]; decide)

/-- The state of `main.cpp` after three allocations. -/
theorem descendants_free_upto256_witness :
    Reachable mainThree [(128, 2), (64, 2), (0, 3)] ∧
    ((∀ i j, j < 2 ^ (mainThree.m_maxLevel + 1) - 1 → Descends i j →
      (mainThree.m_blockInfo i = Free ∨ mainThree.m_blockInfo i = Allocated) →
      mainThree.m_blockInfo j = Free) ∧
    (∀ i j, j < 2 ^ (mainThree.m_maxLevel + 1) - 1 → Descends i j →
      mainThree.m_blockInfo j = Split → mainThree.m_blockInfo i = Split)) :=
  ⟨mainThree_reachable, descendants_free_upto256 _ _ mainThree_reachable (by decide)⟩

end BuddyAllocator

namespace BuddyAllocator
open BlockStatus


/-! ## The merge loop in detail -/

/-- The buddy of a block on the path to the root is not on that path. -/
theorem cell_sib_ne {t j e d : Nat} (hj : j < 2 ^ t) (he : e < t) (hd : d ≤ t) :
    cell (t - e) (sib (j / 2 ^ e)) ≠ cell (t - d) (j / 2 ^ d) := by
  intro h
  have h1 : j / 2 ^ e < 2 ^ (t - e) := div_pow_lt (by omega) hj
  have h2 : j / 2 ^ d < 2 ^ (t - d) := div_pow_lt hd hj
  obtain ⟨u, hu⟩ : ∃ u, t - e = u + 1 := ⟨t - e - 1, by omega⟩
  rw [hu] at h1
  have h3 := sib_lt h1
  rw [← hu] at h3
  obtain ⟨q1, q2⟩ := cell_inj h3 h2 h
  have : e = d := by omega
  subst this
  exact sib_ne _ q2

theorem PInv.mergeLoop_detail {L : Nat} {live : List (Nat × Nat)} : ∀ (t : Nat)
    {a : BuddyAllocator} {lists : Nat → List Nat} {j : Nat},
    PInv a L lists live (some (t, j)) → 1 ≤ t → st a.m_blockInfo t j = Free →
    ∀ r, mergeLoop t a (cell t j) (buddy (cell t j)) = r →
    ∃ m lists', m ≤ t ∧
      PInv r.1 L lists' live (some (t - m, j / 2 ^ m)) ∧
      r.2.1 = cell (t - m) (j / 2 ^ m) ∧ r.2.2 = t - m ∧
      (∀ e, e < m → st a.m_blockInfo (t - e) (sib (j / 2 ^ e)) = Free) ∧
      (m < t → st a.m_blockInfo (t - m) (sib (j / 2 ^ m)) ≠ Free) ∧
      (∀ e, e ≤ m → st r.1.m_blockInfo (t - e) (j / 2 ^ e) = Free) ∧
      (∀ i, (∀ e, 1 ≤ e → e ≤ m → i ≠ cell (t - e) (j / 2 ^ e)) →
        r.1.m_blockInfo i = a.m_blockInfo i) ∧
      (∀ e, e < m →
        lists' (t - e) = (lists (t - e)).erase (blockAddr L (t - e) (sib (j / 2 ^ e)))) ∧
      (∀ l, ¬ (t - m < l ∧ l ≤ t) → lists' l = lists l) := by
  intro t
  induction t with
  | zero => intro a lists j _ h1; omega
  | succ t ih =>
    intro a lists j h _ hf r hr
    obtain ⟨ht, hj, _, _⟩ := h.pend_ok (t + 1) j rfl
    have ht5 : t + 1 ≤ 5 := ht.trans h.geom.le
    rw [mergeLoop_succ, buddy_cell ht5 hj, parent_cell ht5 hj] at hr
    by_cases hb : a.m_blockInfo (cell (t + 1) (sib j)) = Free
    · rw [if_pos hb] at hr
      have hround := h.merge_round hf hb
      have hbi2 : upd (removeFromList a (addressOf a (cell (t + 1) (sib j)))
          (t + 1)).m_blockInfo (cell t (j / 2)) Free = upd a.m_blockInfo (cell t (j / 2)) Free := by
        rw [removeFromList_blockInfo]
      have hfree : st (upd (removeFromList a (addressOf a (cell (t + 1) (sib j)))
          (t + 1)).m_blockInfo (cell t (j / 2)) Free) t (j / 2) = Free := by
        unfold st; rw [upd_same]
      have hjh := half_lt hj
      have hself : st (upd a.m_blockInfo (cell t (j / 2)) Free) (t + 1) j = Free := by
        rw [st_upd _ _ hjh hj, if_neg (by omega)]; exact hf
      by_cases h0 : t = 0
      · rw [if_pos h0] at hr
        subst hr
        subst h0
        refine ⟨1, _, le_refl _, by simpa using hround, by simp, by simp, ?_, by omega, ?_, ?_,
          ?_, ?_⟩
        · intro e he
          have : e = 0 := by omega
          subst this
          simpa using hb
        · intro e he
          show st (upd _ _ _) _ _ = Free
          rw [hbi2]
          rcases Nat.eq_zero_or_pos e with e0 | e0
          · subst e0; simpa using hself
          · have : e = 1 := by omega
            subst this
            simp only [pow_one, Nat.sub_self, zero_add]
            unfold st; rw [upd_same]
        · intro i hi
          show upd _ _ _ i = _
          rw [hbi2]
          have := hi 1 (le_refl 1) (le_refl 1)
          simp only [pow_one, Nat.sub_self, zero_add] at this
          rw [upd_ne _ _ this]
        · intro e he
          have : e = 0 := by omega
          subst this
          simp
        · intro l hl
          rw [upd_ne]
          omega
      · rw [if_neg h0] at hr
        have key : ∀ a2 : BuddyAllocator,
            a2.m_blockInfo = upd a.m_blockInfo (cell t (j / 2)) Free →
            PInv a2 L (upd lists (t + 1) ((lists (t + 1)).erase (blockAddr L (t + 1) (sib j))))
              live (some (t, j / 2)) →
            mergeLoop t a2 (cell t (j / 2)) (buddy (cell t (j / 2))) = r →
            ∃ m lists', m ≤ t + 1 ∧
              PInv r.1 L lists' live (some (t + 1 - m, j / 2 ^ m)) ∧
              r.2.1 = cell (t + 1 - m) (j / 2 ^ m) ∧ r.2.2 = t + 1 - m ∧
              (∀ e, e < m → st a.m_blockInfo (t + 1 - e) (sib (j / 2 ^ e)) = Free) ∧
              (m < t + 1 → st a.m_blockInfo (t + 1 - m) (sib (j / 2 ^ m)) ≠ Free) ∧
              (∀ e, e ≤ m → st r.1.m_blockInfo (t + 1 - e) (j / 2 ^ e) = Free) ∧
              (∀ i, (∀ e, 1 ≤ e → e ≤ m → i ≠ cell (t + 1 - e) (j / 2 ^ e)) →
                r.1.m_blockInfo i = a.m_blockInfo i) ∧
              (∀ e, e < m → lists' (t + 1 - e) =
                (lists (t + 1 - e)).erase (blockAddr L (t + 1 - e) (sib (j / 2 ^ e)))) ∧
              (∀ l, ¬ (t + 1 - m < l ∧ l ≤ t + 1) → lists' l = lists l) := by
          intro a2 hbi hround hr
          have hfree2 : st a2.m_blockInfo t (j / 2) = Free := by
            rw [hbi]; unfold st; rw [upd_same]
          obtain ⟨m, lists', hm, q1, q2, q3, q4, q5, q6, q7, q8, q9⟩ :=
            ih hround (by omega) hfree2 r hr
          have e1 : ∀ e, t + 1 - (e + 1) = t - e := fun e => by omega
          have e2 : ∀ e, j / 2 ^ (e + 1) = j / 2 / 2 ^ e := fun e => by
            rw [Nat.div_div_eq_div_mul, pow_succ']
          refine ⟨m + 1, lists', by omega, by rw [e1, e2]; exact q1, by rw [e1, e2]; exact q2,
            by rw [e1]; exact q3, ?_, ?_, ?_, ?_, ?_, ?_⟩
          · intro e he
            cases e with
            | zero => simpa using hb
            | succ e =>
              rw [e1, e2]
              have hq := q4 e (by omega)
              rw [hbi] at hq
              unfold st at hq ⊢
              rw [upd_ne] at hq
              · exact hq
              · have := cell_sib_ne (e := e) (d := 0) hjh (by omega) (by omega)
                simpa using this
          · intro hlt
            rw [e1, e2]
            have hq := q5 (by omega)
            rw [hbi] at hq
            unfold st at hq ⊢
            rw [upd_ne] at hq
            · exact hq
            · have := cell_sib_ne (e := m) (d := 0) hjh (by omega) (by omega)
              simpa using this
          · intro e he
            cases e with
            | zero =>
              have := q7 (cell (t + 1) j) (fun e _ he' hc => by
                have hb' : j / 2 / 2 ^ e < 2 ^ (t - e) := div_pow_lt (by omega) hjh
                have := (cell_inj hj hb' hc).1
                omega)
              show r.1.m_blockInfo (cell (t + 1 - 0) (j / 2 ^ 0)) = Free
              simp only [Nat.sub_zero, pow_zero, Nat.div_one]
              rw [this, hbi]
              exact hself
            | succ e =>
              rw [e1, e2]
              exact q6 e (by omega)
          · intro i hi
            rw [q7 i (fun e h1 h2 => by
              have := hi (e + 1) (by omega) (by omega)
              rw [e1, e2] at this
              exact this)]
            rw [hbi]
            have := hi 1 (le_refl 1) (by omega)
            rw [e1, e2] at this
            simp only [pow_zero, Nat.div_one, Nat.sub_zero] at this
            rw [upd_ne _ _ this]
          · intro e he
            cases e with
            | zero =>
              simp only [Nat.sub_zero, pow_zero, Nat.div_one]
              rw [q9 (t + 1) (by omega), upd_same]
            | succ e =>
              rw [e1, e2, q8 e (by omega), upd_ne _ _ (by omega)]
          · intro l hl
            rw [q9 l (by omega), upd_ne _ _ (by omega)]
        exact key _ hbi2 hround hr
    · rw [if_neg hb] at hr
      subst hr
      refine ⟨0, lists, Nat.zero_le _, by simpa using h, by simp, by simp, ?_, ?_, ?_, ?_, ?_, ?_⟩
      · intro e he; omega
      · intro _; simpa using hb
      · intro e he
        have : e = 0 := by omega
        subst this
        simpa using hf
      · intro i _; rfl
      · intro e he; omega
      · intro l _; rfl

theorem insertToList_blockInfo (a : BuddyAllocator) (b l : Nat) :
    (insertToList a b l).m_blockInfo = a.m_blockInfo := rfl

/-- Releasing the live block at position `j` of a level `k ≥ 1`: `m` merges
take place, with the buddies met, the statuses and the lists as stated. -/
theorem PInv.free_detail {a : BuddyAllocator} {L : Nat} {lists : Nat → List Nat}
    {live : List (Nat × Nat)} (h : PInv a L lists live none) {p k : Nat}
    (hp : (p, k) ∈ live) (hk1 : 1 ≤ k) :
    ∃ j m lists', j < 2 ^ k ∧ p = blockAddr L k j ∧ indexOf a p = cell k j ∧ m ≤ k ∧
      PInv (free a (some p)) L lists' (live.erase (p, k)) none ∧
      (∀ e, e < m → st a.m_blockInfo (k - e) (sib (j / 2 ^ e)) = Free) ∧
      (m < k → st a.m_blockInfo (k - m) (sib (j / 2 ^ m)) ≠ Free) ∧
      (∀ e, e ≤ m → st (free a (some p)).m_blockInfo (k - e) (j / 2 ^ e) = Free) ∧
      (∀ i, (∀ e, e ≤ m → i ≠ cell (k - e) (j / 2 ^ e)) →
        (free a (some p)).m_blockInfo i = a.m_blockInfo i) ∧
      (∀ e, e < m →
        lists' (k - e) = (lists (k - e)).erase (blockAddr L (k - e) (sib (j / 2 ^ e)))) ∧
      lists' (k - m) = blockAddr L (k - m) (j / 2 ^ m) :: lists (k - m) ∧
      (∀ l, ¬ (k - m ≤ l ∧ l ≤ k) → lists' l = lists l) := by
  obtain ⟨hk, j, hj, hpj, hleaf, hst⟩ := h.live_ok p k hp
  have hidx : indexOf a p = cell k j := by
    rw [hpj]; exact indexOf_leaf h.geom h.closed hk hj hleaf
  have hk5 : k ≤ 5 := hk.trans h.geom.le
  have h0 : cell k j ≠ 0 := fun hc => by
    have := (cell_eq_zero hj).mp hc
    omega
  have hfree : free a (some p) =
      insertToList
        (mergeLoop k { a with m_blockInfo := upd a.m_blockInfo (cell k j) Free } (cell k j)
          (buddy (cell k j))).1
        (addressOf
          (mergeLoop k { a with m_blockInfo := upd a.m_blockInfo (cell k j) Free } (cell k j)
            (buddy (cell k j))).1
          (mergeLoop k { a with m_blockInfo := upd a.m_blockInfo (cell k j) Free } (cell k j)
            (buddy (cell k j))).2.1)
        (mergeLoop k { a with m_blockInfo := upd a.m_blockInfo (cell k j) Free } (cell k j)
          (buddy (cell k j))).2.2 := by
    simp only [free, hidx, h0, if_false, levelOfIndex_cell hk5 hj]
  have hpend : PInv { a with m_blockInfo := upd a.m_blockInfo (cell k j) Free } L lists
      (live.erase (p, k)) (some (k, j)) :=
    h.unmark hp hj hpj (v := Free) (by decide) (h.geom.after_setBlockInfo _) rfl
      (h.heap.of_heap_eq rfl rfl)
  have hfr : st (upd a.m_blockInfo (cell k j) Free) k j = Free := by
    unfold st; rw [upd_same]
  obtain ⟨m, lists', hm, q1, q2, q3, q4, q5, q6, q7, q8, q9⟩ :=
    hpend.mergeLoop_detail k hk1 hfr _ rfl
  obtain ⟨htL, hj', _, _⟩ := q1.pend_ok _ _ rfl
  rw [q2, q3, q1.geom.addressOf_cell htL hj'] at hfree
  have hpush : PInv (free a (some p)) L
      (upd lists' (k - m) (blockAddr L (k - m) (j / 2 ^ m) :: lists' (k - m)))
      (live.erase (p, k)) none := q1.push
    (by rw [hfree]; exact q1.geom.after_insertToList _ _) (by rw [hfree]; rfl)
    (by rw [hfree]
        exact q1.heap.insert _ _ (q1.fresh (le_refl _) htL (by simp)))
  have hbi : (free a (some p)).m_blockInfo =
      (mergeLoop k { a with m_blockInfo := upd a.m_blockInfo (cell k j) Free } (cell k j)
        (buddy (cell k j))).1.m_blockInfo := by
    rw [hfree, insertToList_blockInfo]
  have hoff : ∀ e, e < k → upd a.m_blockInfo (cell k j) Free (cell (k - e) (sib (j / 2 ^ e))) =
      a.m_blockInfo (cell (k - e) (sib (j / 2 ^ e))) := by
    intro e he
    rw [upd_ne]
    have := cell_sib_ne (e := e) (d := 0) hj he (Nat.zero_le _)
    simpa using this
  refine ⟨j, m, _, hj, hpj, hidx, hm, hpush, ?_, ?_, ?_, ?_, ?_, ?_, ?_⟩
  · intro e he
    have := q4 e he
    unfold st at this ⊢
    rw [← hoff e (by omega)]
    exact this
  · intro hlt
    have := q5 hlt
    unfold st at this ⊢
    rw [← hoff m hlt]
    exact this
  · intro e he
    rw [hbi]
    exact q6 e he
  · intro i hi
    rw [hbi, q7 i (fun e _ he => hi e he)]
    have := hi 0 (Nat.zero_le _)
    simp only [Nat.sub_zero, pow_zero, Nat.div_one] at this
    show upd a.m_blockInfo (cell k j) Free i = a.m_blockInfo i
    rw [upd_ne _ _ this]
  · intro e he
    rw [upd_ne _ _ (by omega), q8 e he]
  · rw [upd_same, q9 _ (by omega)]
  · intro l hl
    rw [upd_ne _ _ (by omega), q9 l (by omega)]

/-- Releasing the root block leaves the status array as it is. -/
theorem PInv.free_root {a : BuddyAllocator} {L : Nat} {lists : Nat → List Nat}
    {live : List (Nat × Nat)} (h : PInv a L lists live none) {p : Nat}
    (hp : (p, 0) ∈ live) :
    p = 0 ∧ free a (some p) = insertToList a p 0 ∧
      PInv (free a (some p)) L (upd lists 0 (p :: lists 0)) (live.erase (p, 0)) none := by
  obtain ⟨hk, j, hj, hpj, hleaf, hst⟩ := h.live_ok p 0 hp
  have hidx : indexOf a p = cell 0 j := by
    rw [hpj]; exact indexOf_leaf h.geom h.closed hk hj hleaf
  have h0 : cell 0 j = 0 := (cell_eq_zero hj).mpr rfl
  have hj0 : j = 0 := by simpa using hj
  have hfree : free a (some p) = insertToList a p 0 := by
    simp only [free, hidx, h0, if_true]
  have hpend : PInv a L lists (live.erase (p, 0)) (some (0, j)) :=
    h.unmark hp hj hpj (v := Allocated) (by decide) h.geom
      (by unfold st at hst; rw [← hst, upd_self]) h.heap
  have hpush : PInv (free a (some p)) L (upd lists 0 (blockAddr L 0 j :: lists 0))
      (live.erase (p, 0)) none := hpend.push
    (by rw [hfree]; exact h.geom.after_insertToList _ _) (by rw [hfree]; rfl)
    (by rw [hfree, hpj]
        exact hpend.heap.insert _ _ (hpend.fresh (le_refl 0) hk (by simp)))
  rw [← hpj] at hpush
  refine ⟨?_, hfree, hpush⟩
  rw [hpj, hj0]; simp [blockAddr]

end BuddyAllocator

namespace BuddyAllocator
open BlockStatus


/-! ## No two free buddies -/

theorem NoFreePair.after_allocate {bi bi' : Nat → BlockStatus} {L s k j : Nat}
    (h : NoFreePair bi L) (hsk : s ≤ k) (hj : j < 2 ^ s)
    (hsplit : ∀ e, e < k - s → st bi' (s + e) (j * 2 ^ e) = Split)
    (halloc : st bi' k (j * 2 ^ (k - s)) = Allocated)
    (hframe : ∀ i, (∀ e, e ≤ k - s → i ≠ cell (s + e) (j * 2 ^ e)) → bi' i = bi i) :
    NoFreePair bi' L := by
  have hpath : ∀ e, e ≤ k - s → st bi' (s + e) (j * 2 ^ e) ≠ Free := by
    intro e he
    rcases Nat.lt_or_ge e (k - s) with hlt | hge
    · rw [hsplit e hlt]; decide
    · have : e = k - s := by omega
      subst this
      have e1 : s + (k - s) = k := by omega
      rw [e1, halloc]; decide
  have hb : ∀ e, j * 2 ^ e < 2 ^ (s + e) := fun e => by
    rw [pow_add]; exact Nat.mul_lt_mul_of_pos_right hj (by positivity)
  have hcases : ∀ k' j', j' < 2 ^ k' →
      (∃ e, e ≤ k - s ∧ k' = s + e ∧ j' = j * 2 ^ e) ∨ st bi' k' j' = st bi k' j' := by
    intro k' j' hj'
    by_cases hon : ∃ e, e ≤ k - s ∧ k' = s + e ∧ j' = j * 2 ^ e
    · exact Or.inl hon
    · right
      apply hframe
      intro e he hc
      obtain ⟨q1, q2⟩ := cell_inj hj' (hb e) hc
      exact hon ⟨e, he, q1, q2⟩
  intro k0 j0 hk0 hj0 hS hfree
  obtain ⟨hl, hr⟩ := hfree
  have hjl : 2 * j0 < 2 ^ (k0 + 1) := by rw [pow_succ]; omega
  have hjr : 2 * j0 + 1 < 2 ^ (k0 + 1) := by rw [pow_succ]; omega
  rcases hcases k0 j0 hj0 with ⟨e, he, rfl, rfl⟩ | hsame
  · rcases Nat.lt_or_ge e (k - s) with hlt | hge
    · apply hpath (e + 1) (by omega)
      have e1 : j * 2 ^ (e + 1) = 2 * (j * 2 ^ e) := by rw [pow_succ]; ring
      rw [e1]
      exact hl
    · have : e = k - s := by omega
      subst this
      have e1 : s + (k - s) = k := by omega
      rw [e1, halloc] at hS
      cases hS
  · rw [hsame] at hS
    rcases hcases (k0 + 1) (2 * j0) hjl with ⟨e, he, q1, q2⟩ | hsl
    · apply hpath e he
      rw [← q1, ← q2]; exact hl
    · rcases hcases (k0 + 1) (2 * j0 + 1) hjr with ⟨e, he, q1, q2⟩ | hsr
      · apply hpath e he
        rw [← q1, ← q2]; exact hr
      · rw [hsl] at hl
        rw [hsr] at hr
        exact h k0 j0 hk0 hj0 hS ⟨hl, hr⟩

theorem NoFreePair.after_free {bi bi' : Nat → BlockStatus} {L k j m : Nat}
    (h : NoFreePair bi L) (hj : j < 2 ^ k) (hm : m ≤ k)
    (hexit : m < k → st bi (k - m) (sib (j / 2 ^ m)) ≠ Free)
    (hpath : ∀ e, e ≤ m → st bi' (k - e) (j / 2 ^ e) = Free)
    (hframe : ∀ i, (∀ e, e ≤ m → i ≠ cell (k - e) (j / 2 ^ e)) → bi' i = bi i) :
    NoFreePair bi' L := by
  have hb : ∀ e, e ≤ k → j / 2 ^ e < 2 ^ (k - e) := fun e he => div_pow_lt he hj
  have hcases : ∀ k' j', j' < 2 ^ k' →
      (∃ e, e ≤ m ∧ k' = k - e ∧ j' = j / 2 ^ e) ∨ st bi' k' j' = st bi k' j' := by
    intro k' j' hj'
    by_cases hon : ∃ e, e ≤ m ∧ k' = k - e ∧ j' = j / 2 ^ e
    · exact Or.inl hon
    · right
      apply hframe
      intro e he hc
      obtain ⟨q1, q2⟩ := cell_inj hj' (hb e (by omega)) hc
      exact hon ⟨e, he, q1, q2⟩
  intro k0 j0 hk0 hj0 hS hfree
  obtain ⟨hl, hr⟩ := hfree
  have hjl : 2 * j0 < 2 ^ (k0 + 1) := by rw [pow_succ]; omega
  have hjr : 2 * j0 + 1 < 2 ^ (k0 + 1) := by rw [pow_succ]; omega
  have hSold : st bi k0 j0 = Split := by
    rcases hcases k0 j0 hj0 with ⟨e, he, rfl, rfl⟩ | hsame
    · rw [hpath e he] at hS; cases hS
    · rw [← hsame]; exact hS
  -- a child on the path is the top of the path, and its buddy is not `Free`
  have hchild : ∀ c, c / 2 = j0 → st bi' (k0 + 1) (sib c) = Free →
      ¬ ∃ e, e ≤ m ∧ k0 + 1 = k - e ∧ c = j / 2 ^ e := by
    intro c hc hsib hex
    obtain ⟨e, he, q1, q2⟩ := hex
    have hj0e : j0 = j / 2 ^ (e + 1) := by
      rw [← hc, q2, Nat.div_div_eq_div_mul, ← pow_succ]
    rcases Nat.lt_or_ge e m with hlt | hge
    · have hk0e : k0 = k - (e + 1) := by omega
      rw [hk0e, hj0e, hpath (e + 1) (by omega)] at hS
      cases hS
    · have hem : e = m := by omega
      subst hem
      have hoff : bi' (cell (k - e) (sib (j / 2 ^ e))) = bi (cell (k - e) (sib (j / 2 ^ e))) :=
        hframe _ (fun e' he' => cell_sib_ne hj (by omega) (by omega))
      apply hexit (by omega)
      unfold st at hsib ⊢
      rw [← hoff, ← q1, ← q2]
      exact hsib
  have hsl : sib (2 * j0) = 2 * j0 + 1 := by unfold sib; split_ifs <;> omega
  have hsr : sib (2 * j0 + 1) = 2 * j0 := by unfold sib; split_ifs <;> omega
  have hnl := hchild (2 * j0) (by omega) (by rw [hsl]; exact hr)
  have hnr := hchild (2 * j0 + 1) (by omega) (by rw [hsr]; exact hl)
  rcases hcases (k0 + 1) (2 * j0) hjl with hon | hsame1
  · exact hnl hon
  · rcases hcases (k0 + 1) (2 * j0 + 1) hjr with hon | hsame2
    · exact hnr hon
    · rw [hsame1] at hl
      rw [hsame2] at hr
      exact h k0 j0 hk0 hj0 hSold ⟨hl, hr⟩

/-- Every reachable state satisfies the representation invariant and has no
split block with two `Free` children. -/
theorem Reachable.inv_pair {a : BuddyAllocator} {live : List (Nat × Nat)}
    (h : Reachable a live) :
    ∃ L lists, PInv a L lists live none ∧ NoFreePair a.m_blockInfo L := by
  induction h with
  | init R a hc =>
    obtain ⟨L, hL, _, rfl⟩ := construct_some hc
    refine ⟨L, _, build_inv hL, ?_⟩
    intro k j _ _ hS
    have : st (build (16 * 2 ^ L)).m_blockInfo k j = Free := rfl
    rw [this] at hS
    cases hS
  | alloc a a' live n p k _ hal hk ih =>
    obtain ⟨L, lists, hinv, hpair⟩ := ih
    rcases hinv.allocate_cases n with ⟨hnone, _⟩ | ⟨hn0, hnS, k', s, x, xs, hk', hkL, _, hs, hl⟩
    · rw [hnone] at hal; cases hal
    · rw [hk] at hk'
      simp only [Option.some.injEq] at hk'
      subst hk'
      obtain ⟨j, lists', hsk, hj, _, h1, h2, _, _, _, h3, h4, h5⟩ :=
        hinv.allocate_spec hn0 hnS hk hkL hs hl
      rw [hal] at h1 h2 h3 h4 h5
      simp only [Option.some.injEq] at h1
      subst h1
      exact ⟨L, lists', h2, hpair.after_allocate hsk hj h3 h4 h5⟩
  | allocNull a a' live n _ hal ih =>
    obtain ⟨L, lists, hinv, hpair⟩ := ih
    rcases hinv.allocate_cases n with ⟨hnone, _⟩ | ⟨hn0, hnS, k, s, x, xs, hk, hkL, _, hs, hl⟩
    · rw [hnone] at hal
      simp only [Prod.mk.injEq, true_and] at hal
      subst hal
      exact ⟨L, lists, hinv, hpair⟩
    · obtain ⟨j, lists', _, _, _, h1, _⟩ := hinv.allocate_spec hn0 hnS hk hkL hs hl
      rw [hal] at h1; cases h1
  | release a live p k _ hp ih =>
    obtain ⟨L, lists, hinv, hpair⟩ := ih
    rcases Nat.eq_zero_or_pos k with h0 | h1
    · subst h0
      obtain ⟨_, hfree, hI⟩ := hinv.free_root hp
      refine ⟨L, _, hI, ?_⟩
      rw [hfree, insertToList_blockInfo]
      exact hpair
    · obtain ⟨j, m, lists', hj, _, _, hm, hI, _, hexit, hpath, hframe, _⟩ :=
        hinv.free_detail hp h1
      exact ⟨L, lists', hI, hpair.after_free hj hm hexit hpath hframe⟩
  | releaseNull a live _ ih => exact ih

end BuddyAllocator

namespace BuddyAllocator
open BlockStatus


/-! ## Invariants of the status tree -/

/-- For a region of at most 256 bytes, where the status array holds every cell
of the tree: in every reachable state no cell with status `Split` has two `Free`
children; put on the children, no cell other than the root whose parent is
`Split` is `Free` together with its buddy. -/
theorem no_free_buddies_upto256 (a : BuddyAllocator) (live : List (Nat × Nat))
    (h : Reachable a live) (hS : a.m_numBytes ≤ 256) :
    (∀ i, i < 2 ^ (a.m_maxLevel + 1) - 1 → a.m_blockInfo i = Split →
      ¬ (a.m_blockInfo (left i) = Free ∧ a.m_blockInfo (right i) = Free)) ∧
    (∀ j, 1 ≤ j → j < 2 ^ (a.m_maxLevel + 1) - 1 → a.m_blockInfo (parent j) = Split →
      ¬ (a.m_blockInfo j = Free ∧ a.m_blockInfo (buddy j) = Free)) := by
  obtain ⟨L, lists, hI, hpair⟩ := h.inv_pair
  have hg := hI.geom
  rw [hg.maxLevel]
  refine ⟨?_, ?_⟩
  · intro i hi hS
    obtain ⟨k, j, hk, hj, rfl⟩ := cell_decomp L i hi
    have hkL : k < L := by
      rcases Nat.lt_or_ge k L with hlt | hge
      · exact hlt
      · have : k = L := by omega
        subst this
        exact absurd hS (hI.bottom j hj)
    rw [left_cell, right_cell]
    exact hpair k j hkL hj hS
  · intro i hi1 hi hS
    obtain ⟨k, j, hk, hj, rfl⟩ := cell_decomp L i hi
    cases k with
    | zero =>
      have := (cell_eq_zero hj).mpr rfl
      omega
    | succ k =>
      have hk5 : k + 1 ≤ 5 := hk.trans hg.le
      rw [parent_cell hk5 hj] at hS
      rw [buddy_cell hk5 hj]
      intro hfree
      obtain ⟨hf1, hf2⟩ := hfree
      apply hpair k (j / 2) (by omega) (half_lt hj) hS
      rcases Nat.mod_two_eq_zero_or_one j with hm | hm
      · have e1 : 2 * (j / 2) = j := by omega
        have e2 : 2 * (j / 2) + 1 = sib j := by unfold sib; rw [if_pos hm]; omega
        unfold st
        rw [e2, e1]
        exact ⟨hf1, hf2⟩
      · have e1 : 2 * (j / 2) + 1 = j := by omega
        have e2 : 2 * (j / 2) = sib j := by unfold sib; rw [if_neg (by omega)]; omega
        unfold st
        rw [e1, e2]
        exact ⟨hf2, hf1⟩

/-- The state of `main.cpp` after three allocations. -/
theorem no_free_buddies_upto256_witness :
    Reachable mainThree [(128, 2), (64, 2), (0, 3)] ∧
    ((∀ i, i < 2 ^ (mainThree.m_maxLevel + 1) - 1 → mainThree.m_blockInfo i = Split →
      ¬ (mainThree.m_blockInfo (left i) = Free ∧ mainThree.m_blockInfo (right i) = Free)) ∧
    (∀ j, 1 ≤ j → j < 2 ^ (mainThree.m_maxLevel + 1) - 1 →
      mainThree.m_blockInfo (parent j) = Split →
      ¬ (mainThree.m_blockInfo j = Free ∧ mainThree.m_blockInfo (buddy j) = Free))) :=
  ⟨mainThree_reachable, no_free_buddies_upto256 _ _ mainThree_reachable (by decide)⟩

/-- For a region of at most 256 bytes, where the status array holds every cell
of the tree: in every reachable state and for every tree index
`i < 2^(L_max+1) - 1`, the cell `i` has status `Split` if and only if some
proper descendant of `i` in the tree has status `Allocated` or `Split`. -/
theorem split_iff_descendant_upto256 (a : BuddyAllocator) (live : List (Nat × Nat))
    (h : Reachable a live) (hS : a.m_numBytes ≤ 256) (i : Nat) (hi : i < 2 ^ (a.m_maxLevel + 1) - 1) :
    a.m_blockInfo i = Split ↔
      ∃ j, j < 2 ^ (a.m_maxLevel + 1) - 1 ∧ Descends i j ∧
        (a.m_blockInfo j = Allocated ∨ a.m_blockInfo j = Split) := by
  obtain ⟨L, lists, hI, hpair⟩ := h.inv_pair
  have hg := hI.geom
  rw [hg.maxLevel] at hi ⊢
  constructor
  · intro hS
    obtain ⟨k, c, hk, hc, rfl⟩ := cell_decomp L i hi
    have hkL : k < L := by
      rcases Nat.lt_or_ge k L with hlt | hge
      · exact hlt
      · have : k = L := by omega
        subst this
        exact absurd hS (hI.bottom c hc)
    have hk5 : k + 1 ≤ 5 := by have := hg.le; omega
    have hjl : 2 * c < 2 ^ (k + 1) := by rw [pow_succ]; omega
    have hjr : 2 * c + 1 < 2 ^ (k + 1) := by rw [pow_succ]; omega
    have hdesc : ∀ c', c' < 2 ^ (k + 1) → c' / 2 = c → Descends (cell k c) (cell (k + 1) c') := by
      intro c' hc' hdiv
      refine ⟨1, le_refl 1, ?_, ?_⟩
      · rw [levelOfIndex_cell hk5 hc']; omega
      · rw [Function.iterate_one, parent_cell hk5 hc', hdiv]
    have hnot := hpair k c hkL hc hS
    by_cases hl : st a.m_blockInfo (k + 1) (2 * c) = Free
    · have hr : st a.m_blockInfo (k + 1) (2 * c + 1) ≠ Free := fun hr => hnot ⟨hl, hr⟩
      refine ⟨cell (k + 1) (2 * c + 1), cell_lt_total (by omega) hjr, hdesc _ hjr (by omega), ?_⟩
      unfold st at hr
      cases hst : a.m_blockInfo (cell (k + 1) (2 * c + 1)) with
      | Split => exact Or.inr rfl
      | Free => exact absurd hst hr
      | Allocated => exact Or.inl rfl
    · refine ⟨cell (k + 1) (2 * c), cell_lt_total (by omega) hjl, hdesc _ hjl (by omega), ?_⟩
      unfold st at hl
      cases hst : a.m_blockInfo (cell (k + 1) (2 * c)) with
      | Split => exact Or.inr rfl
      | Free => exact absurd hst hl
      | Allocated => exact Or.inl rfl
  · rintro ⟨j, hj, hd, hs⟩
    obtain ⟨k, c, d, hk, hc, rfl, hd1, hd2, rfl⟩ := descends_cell hg.le hj hd
    apply hI.closed.anc_of_nonfree hk hc _ d hd1 hd2
    unfold st
    rcases hs with hs | hs <;> rw [hs] <;> decide

/-- The root cell in the state of `main.cpp` after three allocations. -/
theorem split_iff_descendant_upto256_witness :
    Reachable mainThree [(128, 2), (64, 2), (0, 3)] ∧
    0 < 2 ^ (mainThree.m_maxLevel + 1) - 1 ∧
    (mainThree.m_blockInfo 0 = Split ↔
      ∃ j, j < 2 ^ (mainThree.m_maxLevel + 1) - 1 ∧ Descends 0 j ∧
        (mainThree.m_blockInfo j = Allocated ∨ mainThree.m_blockInfo j = Split)) :=
  ⟨mainThree_reachable, by decide,
    split_iff_descendant_upto256 _ _ mainThree_reachable (by decide) 0 (by decide)⟩

end BuddyAllocator

namespace BuddyAllocator
open BlockStatus


/-! ## The effect of a release -/

/-- A `Free` buddy of a block on the path from a live block to the root is
linked in the free list of its level. -/
theorem PInv.path_buddy_mem {a : BuddyAllocator} {L : Nat} {lists : Nat → List Nat}
    {live : List (Nat × Nat)} (h : PInv a L lists live none) {k j e : Nat} (hk : k ≤ L)
    (hj : j < 2 ^ k) (hleaf : Leaf a.m_blockInfo k j) (he : e < k)
    (hf : st a.m_blockInfo (k - e) (sib (j / 2 ^ e)) = Free) :
    blockAddr L (k - e) (sib (j / 2 ^ e)) ∈ lists (k - e) := by
  obtain ⟨u, hu⟩ : ∃ u, k - e = u + 1 := ⟨k - e - 1, by omega⟩
  have hb : j / 2 ^ e < 2 ^ (k - e) := div_pow_lt (by omega) hj
  rw [hu] at hb hf ⊢
  have hsb := sib_lt hb
  have hanc := h.closed.anc_split hk hj hleaf (e + 1) (by omega) (by omega)
  have e1 : k - (e + 1) = u := by omega
  rw [e1, pow_succ, ← Nat.div_div_eq_div_mul] at hanc
  refine (h.mem_lists _ _).mpr ⟨by omega, _, hsb, rfl, ⟨Or.inr ?_, by rw [hf]; decide⟩, ?_,
    by simp⟩
  · simp only [Nat.add_sub_cancel]
    rw [sib_div]; exact hanc
  · intro hm
    obtain ⟨_, j', _, hadr, _, hal⟩ := h.live_ok _ _ hm
    have := blockAddr_inj hadr
    subst this
    rw [hf] at hal
    cases hal

/-- For a region of at most 256 bytes, where the status array holds every cell
of the tree: release of a live pointer `p` whose block has the tree index
`i = indexOf(p)` at a level `k ≥ 1`.  There is a number `m ≤ k` of merges such
that the buddy of each of the first `m` nodes on the path from `i` to the
root was `Free` and, unless the root has been reached (`m = k`), the buddy of
the node `A` reached after `m` steps was not.  After the call each of these
`m` buddies, linked in the list of its level before, is erased from that list
(the other entries keeping their order), every cell on the path from `i` to
`A` is `Free`, the block of `A` is the head of the list of its level `k - m`
in front of the former entries, all other lists and all other cells are as
before.  If the buddy of `i` is not `Free` then `m = 0`. -/
theorem release_effect_upto256 (a : BuddyAllocator) (live : List (Nat × Nat))
    (h : Reachable a live) (hS : a.m_numBytes ≤ 256) (p k : Nat) (hp : (p, k) ∈ live) (hk : 1 ≤ k) :
    levelOfIndex (indexOf a p) = k ∧ addressOf a (indexOf a p) = p ∧
    ∃ m, m ≤ k ∧
      (∀ e, e < m → a.m_blockInfo (buddy (parent^[e] (indexOf a p))) = Free) ∧
      (m < k → a.m_blockInfo (buddy (parent^[m] (indexOf a p))) ≠ Free) ∧
      (m = k → parent^[m] (indexOf a p) = 0) ∧
      (a.m_blockInfo (buddy (indexOf a p)) ≠ Free → m = 0) ∧
      (∀ e, e < m →
        addressOf a (buddy (parent^[e] (indexOf a p))) ∈ freeListOf a (k - e) ∧
        freeListOf (free a (some p)) (k - e) =
          (freeListOf a (k - e)).erase (addressOf a (buddy (parent^[e] (indexOf a p)))) ∧
        addressOf a (buddy (parent^[e] (indexOf a p))) ∉ freeListOf (free a (some p)) (k - e)) ∧
      (∀ e, e ≤ m → (free a (some p)).m_blockInfo (parent^[e] (indexOf a p)) = Free) ∧
      freeListOf (free a (some p)) (k - m) =
        addressOf a (parent^[m] (indexOf a p)) :: freeListOf a (k - m) ∧
      (∀ l, ¬ (k - m ≤ l ∧ l ≤ k) → freeListOf (free a (some p)) l = freeListOf a l) ∧
      (∀ c, (∀ e, e ≤ m → c ≠ parent^[e] (indexOf a p)) →
        (free a (some p)).m_blockInfo c = a.m_blockInfo c) := by
  obtain ⟨L, lists, hI⟩ := h.inv
  have hg := hI.geom
  obtain ⟨j, m, lists', hj, hpj, hidx, hm, hI', q1, q2, q3, q4, q5, q6, q7⟩ :=
    hI.free_detail hp hk
  obtain ⟨hkL, j', _, hpj', hleaf, _⟩ := hI.live_ok p k hp
  have : j = j' := blockAddr_inj (hpj.symm.trans hpj')
  subst this
  have hk5 : k ≤ 5 := hkL.trans hg.le
  have hfl : ∀ l, freeListOf a l = lists l := hI.freeListOf_eq
  have hfl' : ∀ l, freeListOf (free a (some p)) l = lists' l := hI'.freeListOf_eq
  have hpar : ∀ e, e ≤ k → parent^[e] (cell k j) = cell (k - e) (j / 2 ^ e) :=
    parent_iterate_cell hk5 hj
  have hbud : ∀ e, e < k →
      buddy (parent^[e] (cell k j)) = cell (k - e) (sib (j / 2 ^ e)) := by
    intro e he
    rw [hpar e (by omega)]
    obtain ⟨u, hu⟩ : ∃ u, k - e = u + 1 := ⟨k - e - 1, by omega⟩
    have hb : j / 2 ^ e < 2 ^ (k - e) := div_pow_lt (by omega) hj
    rw [hu] at hb ⊢
    exact buddy_cell (by omega) hb
  have hadr : ∀ e, e < k → addressOf a (buddy (parent^[e] (cell k j))) =
      blockAddr L (k - e) (sib (j / 2 ^ e)) := by
    intro e he
    rw [hbud e he]
    obtain ⟨u, hu⟩ : ∃ u, k - e = u + 1 := ⟨k - e - 1, by omega⟩
    have hb : j / 2 ^ e < 2 ^ (k - e) := div_pow_lt (by omega) hj
    have hkeL : k - e ≤ L := by omega
    rw [hu] at hb hkeL ⊢
    exact hg.addressOf_cell hkeL (sib_lt hb)
  rw [hidx]
  refine ⟨levelOfIndex_cell hk5 hj, by rw [hg.addressOf_cell hkL hj, hpj], m, hm, ?_, ?_, ?_, ?_,
    ?_, ?_, ?_, ?_, ?_⟩
  · intro e he
    rw [hbud e (by omega)]
    exact q1 e he
  · intro hlt
    rw [hbud m hlt]
    exact q2 hlt
  · intro hmk
    rw [hpar m hm, hmk, Nat.sub_self]
    exact (cell_eq_zero (by simpa using div_pow_lt (le_refl k) hj)).mpr rfl
  · intro hne
    by_contra hm0
    have := q1 0 (by omega)
    have hb0 := hbud 0 (by omega)
    simp only [Function.iterate_zero, id_eq, Nat.sub_zero, pow_zero, Nat.div_one] at this hb0
    rw [hb0] at hne
    exact hne this
  · intro e he
    have hmem := hI.path_buddy_mem hkL hj hleaf (by omega : e < k) (q1 e he)
    rw [hadr e (by omega), hfl, hfl', q5 e he]
    refine ⟨hmem, rfl, ?_⟩
    intro hc
    exact ((List.Nodup.mem_erase_iff (hI.heap.nodup _)).mp hc).1 rfl
  · intro e he
    rw [hpar e (by omega)]
    exact q3 e he
  · rw [hfl', hfl, q6, hpar m hm]
    congr 1
    exact (hg.addressOf_cell (by omega) (div_pow_lt hm hj)).symm
  · intro l hl
    rw [hfl', hfl, q7 l hl]
  · intro c hc
    apply q4
    intro e he
    rw [← hpar e (by omega)]
    exact hc e he

/-- Release of the block of 28 bytes at offset 0 (level 3) in the state of
`main.cpp` after three allocations. -/
theorem release_effect_upto256_witness :
    Reachable mainThree [(128, 2), (64, 2), (0, 3)] ∧
    (0, 3) ∈ [(128, 2), (64, 2), (0, 3)] ∧ 1 ≤ 3 ∧
    (levelOfIndex (indexOf mainThree 0) = 3 ∧ addressOf mainThree (indexOf mainThree 0) = 0 ∧
    ∃ m, m ≤ 3 ∧
      (∀ e, e < m → mainThree.m_blockInfo (buddy (parent^[e] (indexOf mainThree 0))) = Free) ∧
      (m < 3 → mainThree.m_blockInfo (buddy (parent^[m] (indexOf mainThree 0))) ≠ Free) ∧
      (m = 3 → parent^[m] (indexOf mainThree 0) = 0) ∧
      (mainThree.m_blockInfo (buddy (indexOf mainThree 0)) ≠ Free → m = 0) ∧
      (∀ e, e < m →
        addressOf mainThree (buddy (parent^[e] (indexOf mainThree 0))) ∈
          freeListOf mainThree (3 - e) ∧
        freeListOf (free mainThree (some 0)) (3 - e) =
          (freeListOf mainThree (3 - e)).erase
            (addressOf mainThree (buddy (parent^[e] (indexOf mainThree 0)))) ∧
        addressOf mainThree (buddy (parent^[e] (indexOf mainThree 0))) ∉
          freeListOf (free mainThree (some 0)) (3 - e)) ∧
      (∀ e, e ≤ m →
        (free mainThree (some 0)).m_blockInfo (parent^[e] (indexOf mainThree 0)) = Free) ∧
      freeListOf (free mainThree (some 0)) (3 - m) =
        addressOf mainThree (parent^[m] (indexOf mainThree 0)) :: freeListOf mainThree (3 - m) ∧
      (∀ l, ¬ (3 - m ≤ l ∧ l ≤ 3) →
        freeListOf (free mainThree (some 0)) l = freeListOf mainThree l) ∧
      (∀ c, (∀ e, e ≤ m → c ≠ parent^[e] (indexOf mainThree 0)) →
        (free mainThree (some 0)).m_blockInfo c = mainThree.m_blockInfo c)) :=
  ⟨mainThree_reachable, by decide, by decide,
    release_effect_upto256 _ _ mainThree_reachable (by decide) 0 3 (by decide) (by decide)⟩

end BuddyAllocator

namespace BuddyAllocator
open BlockStatus


/-! ## Header writes

Which headers an operation changes, in terms of the blocks that are linked in
the free lists before it (`Cover`). -/

theorem touch_trans {m m1 m2 : Nat → Header} {C : Nat → Prop}
    (h1 : ∀ x, m1 x ≠ m x → C x) (h2 : ∀ x, m2 x ≠ m1 x → C x) :
    ∀ x, m2 x ≠ m x → C x := by
  intro x hx
  by_cases e : m1 x = m x
  · exact h2 x (by rw [e]; exact hx)
  · exact h1 x e

theorem cover_of_mem {L : Nat} {lists : Nat → List Nat} {pend : Option (Nat × Nat)}
    {l y : Nat} (hy : y ∈ lists l) : Cover L lists pend y :=
  Or.inl ⟨l, y, hy, le_refl y, by have := two_pow_pos (L - l); omega⟩

theorem blockAddr_left {L t : Nat} (ht : t < L) (j : Nat) :
    blockAddr L (t + 1) (2 * j) = blockAddr L t j := by
  unfold blockAddr
  have : L - t = (L - (t + 1)) + 1 := by omega
  rw [this, pow_succ]; ring

theorem blockAddr_right {L t : Nat} (ht : t < L) (j : Nat) :
    blockAddr L (t + 1) (2 * j + 1) = blockAddr L t j + 16 * 2 ^ (L - (t + 1)) := by
  unfold blockAddr
  have : L - t = (L - (t + 1)) + 1 := by omega
  rw [this, pow_succ]; ring

theorem levelSize_double {L t : Nat} (ht : t < L) :
    16 * 2 ^ (L - t) = 16 * 2 ^ (L - (t + 1)) + 16 * 2 ^ (L - (t + 1)) := by
  have : L - t = (L - (t + 1)) + 1 := by omega
  rw [this, pow_succ]; ring

theorem cover_pop {L : Nat} {lists : Nat → List Nat} {s j x : Nat} {xs : List Nat}
    (hl : lists s = x :: xs) (hx : x = blockAddr L s j) {z : Nat}
    (hc : Cover L (upd lists s xs) (some (s, j)) z) : Cover L lists none z := by
  rcases hc with ⟨l, y, hy, h1, h2⟩ | ⟨t, j', he, h1, h2⟩
  · rw [mem_upd_list] at hy
    rcases hy with ⟨e, hy⟩ | ⟨_, hy⟩
    · subst e
      exact Or.inl ⟨l, y, by rw [hl]; exact List.mem_cons_of_mem _ hy, h1, h2⟩
    · exact Or.inl ⟨l, y, hy, h1, h2⟩
  · simp only [Option.some.injEq, Prod.mk.injEq] at he
    obtain ⟨e1, e2⟩ := he
    subst e1 e2
    exact Or.inl ⟨s, x, by rw [hl]; simp, by rw [hx]; exact h1, by rw [hx]; exact h2⟩

theorem cover_split {L : Nat} {lists : Nat → List Nat} {t j : Nat} (ht : t < L) {z : Nat}
    (hc : Cover L (upd lists (t + 1) (blockAddr L (t + 1) (2 * j + 1) :: lists (t + 1)))
      (some (t + 1, 2 * j)) z) : Cover L lists (some (t, j)) z := by
  have e1 := blockAddr_left ht j
  have e2 := blockAddr_right ht j
  have e3 := levelSize_double ht
  rcases hc with ⟨l, y, hy, h1, h2⟩ | ⟨t', j', he, h1, h2⟩
  · rw [mem_upd_list] at hy
    rcases hy with ⟨e, hy⟩ | ⟨_, hy⟩
    · subst e
      rcases List.mem_cons.mp hy with e | hy
      · subst e
        exact Or.inr ⟨t, j, rfl, by omega, by omega⟩
      · exact Or.inl ⟨_, y, hy, h1, h2⟩
    · exact Or.inl ⟨l, y, hy, h1, h2⟩
  · simp only [Option.some.injEq, Prod.mk.injEq] at he
    obtain ⟨e4, e5⟩ := he
    subst e4 e5
    exact Or.inr ⟨t, j, rfl, by omega, by omega⟩

theorem cover_merge {L : Nat} {lists : Nat → List Nat} {t j : Nat} (ht : t + 1 ≤ L)
    (hb : blockAddr L (t + 1) (sib j) ∈ lists (t + 1)) {z : Nat}
    (hc : Cover L (upd lists (t + 1) ((lists (t + 1)).erase (blockAddr L (t + 1) (sib j))))
      (some (t, j / 2)) z) : Cover L lists (some (t + 1, j)) z := by
  have e1 := blockAddr_left (by omega : t < L) (j / 2)
  have e2 := blockAddr_right (by omega : t < L) (j / 2)
  have e3 := levelSize_double (by omega : t < L)
  rcases hc with ⟨l, y, hy, h1, h2⟩ | ⟨t', j', he, h1, h2⟩
  · rw [mem_upd_list] at hy
    rcases hy with ⟨e, hy⟩ | ⟨_, hy⟩
    · subst e
      exact Or.inl ⟨_, y, List.mem_of_mem_erase hy, h1, h2⟩
    · exact Or.inl ⟨l, y, hy, h1, h2⟩
  · simp only [Option.some.injEq, Prod.mk.injEq] at he
    obtain ⟨e4, e5⟩ := he
    subst e4 e5
    rcases Nat.mod_two_eq_zero_or_one j with hm | hm
    · have ej : 2 * (j / 2) = j := by omega
      have es : sib j = 2 * (j / 2) + 1 := by unfold sib; rw [if_pos hm]; omega
      rw [ej] at e1
      rw [es] at hb
      by_cases hz : z < blockAddr L (t + 1) j + 16 * 2 ^ (L - (t + 1))
      · exact Or.inr ⟨_, _, rfl, by omega, hz⟩
      · exact Or.inl ⟨_, _, hb, by omega, by omega⟩
    · have ej : 2 * (j / 2) + 1 = j := by omega
      have es : sib j = 2 * (j / 2) := by unfold sib; rw [if_neg (by omega)]; omega
      rw [ej] at e2
      rw [es] at hb
      by_cases hz : z < blockAddr L (t + 1) (2 * (j / 2)) + 16 * 2 ^ (L - (t + 1))
      · exact Or.inl ⟨_, _, hb, by omega, hz⟩
      · exact Or.inr ⟨_, _, rfl, by omega, by omega⟩

theorem cover_push {L : Nat} {lists : Nat → List Nat} {t j z : Nat}
    (hc : Cover L (upd lists t (blockAddr L t j :: lists t)) none z) :
    Cover L lists (some (t, j)) z := by
  rcases hc with ⟨l, y, hy, h1, h2⟩ | ⟨t', j', he, _, _⟩
  · rw [mem_upd_list] at hy
    rcases hy with ⟨e, hy⟩ | ⟨_, hy⟩
    · subst e
      rcases List.mem_cons.mp hy with e | hy
      · subst e
        exact Or.inr ⟨l, j, rfl, h1, h2⟩
      · exact Or.inl ⟨_, y, hy, h1, h2⟩
    · exact Or.inl ⟨l, y, hy, h1, h2⟩
  · cases he

/-! ### The three list operations -/

theorem HeapOK.popFront_touch {a : BuddyAllocator} {lists : Nat → List Nat} (h : HeapOK a lists)
    {l x : Nat} {xs : List Nat} (hl : lists l = x :: xs) (z : Nat)
    (hz : (removeFromListFront a l).2.mem z ≠ a.mem z) : z ∈ xs := by
  have hs := h.seg l
  rw [hl] at hs
  obtain ⟨hfl, _, hrest⟩ := hs
  rw [removeFromListFront_some a l x hfl] at hz
  by_contra hc
  apply hz
  show setPrevIf a.mem (a.mem x).next none z = a.mem z
  apply setPrevIf_frame
  intro e
  exact hc (hrest.head_mem e)

theorem HeapOK.insert_touch {a : BuddyAllocator} {lists : Nat → List Nat} (h : HeapOK a lists)
    (b l z : Nat) (hz : (insertToList a b l).mem z ≠ a.mem z) : z = b ∨ z ∈ lists l := by
  by_contra hc
  rw [not_or] at hc
  apply hz
  have hyf : a.m_freeLists l ≠ some z := by
    intro e
    obtain ⟨ys, hys⟩ := h.head_cons_of_some e
    exact hc.2 (by rw [hys]; simp)
  rw [insertToList_mem, setNext_ne _ _ hc.1, setPrevIf_frame _ _ _ _ hyf, setPrev_ne _ _ hc.1]

theorem HeapOK.remove_touch {a : BuddyAllocator} {lists : Nat → List Nat} (h : HeapOK a lists)
    {b l : Nat} (hb : b ∈ lists l) (z : Nat)
    (hz : (removeFromList a b l).mem z ≠ a.mem z) : z ∈ lists l := by
  have hs := h.seg l
  by_contra hy
  apply hz
  have hyb : z ≠ b := fun e => hy (e ▸ hb)
  by_cases hh : a.m_freeLists l = some b
  · obtain ⟨ys, hys⟩ := h.head_cons_of_some hh
    rw [hys] at hs
    obtain ⟨_, _, hrest⟩ := hs
    rw [(removeFromList_head a b l hh).1, setPrev_ne _ _ hyb, setNext_ne _ _ hyb]
    apply setPrevIf_frame
    intro e
    exact hy (by rw [hys]; exact List.mem_cons_of_mem _ (hrest.head_mem e))
  · rw [(removeFromList_inner a b l hh).1, setPrev_ne _ _ hyb, setNext_ne _ _ hyb]
    apply spliceOut_frame
    · obtain ⟨pv, hpv, hp⟩ := Seg.prev_mem hs hb hh
      rw [hp]; intro e
      simp only [Option.some.injEq] at e
      exact hy (e ▸ hpv)
    · intro e
      exact hy (Seg.next_mem hs hb e)

end BuddyAllocator

namespace BuddyAllocator
open BlockStatus


/-! ### The operations -/

theorem PInv.split_touch {a : BuddyAllocator} {L : Nat} {lists : Nat → List Nat}
    {live : List (Nat × Nat)} {t j : Nat} (h : PInv a L lists live (some (t, j)))
    (ht : t < L) (z : Nat) (hz : (split a (cell t j) t).1.mem z ≠ a.mem z) :
    Cover L lists (some (t, j)) z := by
  obtain ⟨_, hj, _, _⟩ := h.pend_ok t j rfl
  have hj2 : 2 * j + 1 < 2 ^ (t + 1) := by rw [pow_succ]; omega
  have hg2 := h.geom.after_setBlockInfo
    (upd (upd a.m_blockInfo (cell t j) Split) (cell (t + 1) (2 * j + 1)) Free)
  have haddr := hg2.addressOf_cell (by omega : t + 1 ≤ L) hj2
  have hh2 : HeapOK { a with m_blockInfo := upd (upd a.m_blockInfo (cell t j) Split) (cell (t + 1) (2 * j + 1)) Free } lists :=
    h.heap.of_heap_eq rfl rfl
  rw [split_fst, right_cell, haddr] at hz
  rcases hh2.insert_touch _ _ z hz with e | hm
  · subst e
    have e2 := blockAddr_right ht j
    have e3 := levelSize_double ht
    have e4 := two_pow_pos (L - (t + 1))
    exact Or.inr ⟨t, j, rfl, by omega, by omega⟩
  · exact cover_of_mem hm

theorem PInv.splitLoop_touch {L : Nat} {live : List (Nat × Nat)} : ∀ (d : Nat)
    {a : BuddyAllocator} {lists : Nat → List Nat} {t j : Nat},
    PInv a L lists live (some (t, j)) → t + d ≤ L →
    ∀ z, (splitLoop d a (cell t j) t).1.mem z ≠ a.mem z → Cover L lists (some (t, j)) z := by
  intro d
  induction d with
  | zero =>
    intro a lists t j _ _ z hz
    exact absurd rfl hz
  | succ d ih =>
    intro a lists t j h hL
    obtain ⟨h1, h2, _⟩ := h.split_spec (by omega : t < L)
    have hstep : BuddyAllocator.splitLoop (d + 1) a (cell t j) t =
        BuddyAllocator.splitLoop d (BuddyAllocator.split a (cell t j) t).1 (cell (t + 1) (2 * j))
          (t + 1) := by
      simp only [BuddyAllocator.splitLoop, h2]
    rw [hstep]
    refine touch_trans (h.split_touch (by omega)) ?_
    intro z hz
    exact cover_split (by omega) (ih h1 (by omega) z hz)

/-- The headers an `allocate` call changes lie in blocks linked in the free
lists before the call. -/
theorem PInv.allocate_touch {a : BuddyAllocator} {L : Nat} {lists : Nat → List Nat}
    {live : List (Nat × Nat)} (h : PInv a L lists live none) (n z : Nat)
    (hz : (allocate a n).2.mem z ≠ a.mem z) : Cover L lists none z := by
  rcases h.allocate_cases n with ⟨hnone, _⟩ | ⟨hn0, hnS, k, s, x, xs, hk, hkL, _, hs, hl⟩
  · rw [hnone] at hz; exact absurd rfl hz
  · have hsk := (searchLevel_some k s hs).1
    have hx := h.heap.head_cons hl
    obtain ⟨_, hheap1⟩ := h.heap.popFront hl
    have hrf := removeFromListFront_some a s x hx
    have hg1 : Geom (removeFromListFront a s).2 L := by
      rw [hrf]; exact h.geom.of_fields_eq rfl rfl rfl rfl
    have hbi1 : (removeFromListFront a s).2.m_blockInfo = a.m_blockInfo := by rw [hrf]
    obtain ⟨j, hsL, hj, hxj, hp1⟩ := h.pop hl hg1 hbi1 hheap1
    obtain ⟨_, _, hleaf1, _⟩ := hp1.pend_ok s j rfl
    have hidx : indexOf (removeFromListFront a s).2 x = cell s j := by
      rw [hxj]; exact indexOf_leaf hg1 hp1.closed hsL hj hleaf1
    have hfound := allocate_found a hn0 hnS hk hs hx
    rw [hidx] at hfound
    have hmem : (allocate a n).2.mem =
        (splitLoop (k - s) (removeFromListFront a s).2 (cell s j) s).1.mem := by
      rw [hfound]
    rw [hmem] at hz
    have t1 : ∀ y, (removeFromListFront a s).2.mem y ≠ a.mem y → Cover L lists none y := by
      intro y hy
      exact cover_of_mem (l := s)
        (by rw [hl]; exact List.mem_cons_of_mem _ (h.heap.popFront_touch hl y hy))
    have t2 : ∀ y, (splitLoop (k - s) (removeFromListFront a s).2 (cell s j) s).1.mem y ≠
        (removeFromListFront a s).2.mem y → Cover L lists none y := by
      intro y hy
      exact cover_pop hl hxj (hp1.splitLoop_touch (k - s) (by omega) y hy)
    exact touch_trans t1 t2 z hz

theorem PInv.mergeLoop_touch {L : Nat} {live : List (Nat × Nat)} : ∀ (t : Nat)
    {a : BuddyAllocator} {lists : Nat → List Nat} {j : Nat},
    PInv a L lists live (some (t, j)) → 1 ≤ t → st a.m_blockInfo t j = Free →
    ∀ r, mergeLoop t a (cell t j) (buddy (cell t j)) = r →
    ∃ lists' t' j',
      PInv r.1 L lists' live (some (t', j')) ∧ r.2.1 = cell t' j' ∧ r.2.2 = t' ∧
      (∀ z, r.1.mem z ≠ a.mem z → Cover L lists (some (t, j)) z) ∧
      (∀ z, Cover L lists' (some (t', j')) z → Cover L lists (some (t, j)) z) := by
  intro t
  induction t with
  | zero => intro a lists j _ h1; omega
  | succ t ih =>
    intro a lists j h _ hf r hr
    obtain ⟨ht, hj, _, _⟩ := h.pend_ok (t + 1) j rfl
    have ht5 : t + 1 ≤ 5 := ht.trans h.geom.le
    rw [mergeLoop_succ, buddy_cell ht5 hj, parent_cell ht5 hj] at hr
    by_cases hb : a.m_blockInfo (cell (t + 1) (sib j)) = Free
    · rw [if_pos hb] at hr
      have hround := h.merge_round hf hb
      have hbm := h.buddy_mem hb
      have haddr := h.geom.addressOf_cell ht (sib_lt hj)
      have htouch : ∀ z, (removeFromList a (addressOf a (cell (t + 1) (sib j))) (t + 1)).mem z ≠
          a.mem z → Cover L lists (some (t + 1, j)) z := by
        intro z hz
        rw [haddr] at hz
        exact cover_of_mem (h.heap.remove_touch hbm z hz)
      by_cases h0 : t = 0
      · rw [if_pos h0] at hr
        subst hr
        exact ⟨_, t, j / 2, hround, rfl, h0.symm, htouch, fun z hz => cover_merge ht hbm hz⟩
      · rw [if_neg h0] at hr
        have key : ∀ a2 : BuddyAllocator,
            PInv a2 L (upd lists (t + 1) ((lists (t + 1)).erase (blockAddr L (t + 1) (sib j))))
              live (some (t, j / 2)) →
            a2.mem = (removeFromList a (addressOf a (cell (t + 1) (sib j))) (t + 1)).mem →
            a2.m_blockInfo (cell t (j / 2)) = Free →
            mergeLoop t a2 (cell t (j / 2)) (buddy (cell t (j / 2))) = r →
            ∃ lists' t' j',
              PInv r.1 L lists' live (some (t', j')) ∧ r.2.1 = cell t' j' ∧ r.2.2 = t' ∧
              (∀ z, r.1.mem z ≠ a.mem z → Cover L lists (some (t + 1, j)) z) ∧
              (∀ z, Cover L lists' (some (t', j')) z → Cover L lists (some (t + 1, j)) z) := by
          intro a2 hround hmem hfree hr
          obtain ⟨lists', t', j', q1, q2, q3, q4, q5⟩ := ih hround (by omega) hfree r hr
          refine ⟨lists', t', j', q1, q2, q3, ?_, fun z hz => cover_merge ht hbm (q5 z hz)⟩
          refine touch_trans htouch ?_
          intro z hz
          rw [← hmem] at hz
          exact cover_merge ht hbm (q4 z hz)
        exact key _ hround rfl (upd_same _ _ _) hr
    · rw [if_neg hb] at hr
      subst hr
      exact ⟨lists, t + 1, j, h, rfl, rfl, fun z hz => absurd rfl hz, fun z hz => hz⟩

/-- The headers a release changes lie in the released block or in blocks
linked in the free lists before the call. -/
theorem PInv.free_touch {a : BuddyAllocator} {L : Nat} {lists : Nat → List Nat}
    {live : List (Nat × Nat)} (h : PInv a L lists live none) {p k : Nat}
    (hp : (p, k) ∈ live) (z : Nat) (hz : (free a (some p)).mem z ≠ a.mem z) :
    Cover L lists none z ∨ (p ≤ z ∧ z < p + 16 * 2 ^ (L - k)) := by
  have hpos := two_pow_pos (L - k)
  rcases Nat.eq_zero_or_pos k with hk0 | hk1
  · subst hk0
    obtain ⟨_, hfree, _⟩ := h.free_root hp
    rw [hfree] at hz
    rcases h.heap.insert_touch _ _ z hz with e | hm
    · right; omega
    · exact Or.inl (cover_of_mem hm)
  · obtain ⟨hk, j, hj, hpj, hleaf, hst⟩ := h.live_ok p k hp
    have hidx : indexOf a p = cell k j := by
      rw [hpj]; exact indexOf_leaf h.geom h.closed hk hj hleaf
    have hk5 : k ≤ 5 := hk.trans h.geom.le
    have h0 : cell k j ≠ 0 := fun hc => by
      have := (cell_eq_zero hj).mp hc
      omega
    have hfree : free a (some p) =
        insertToList
          (mergeLoop k { a with m_blockInfo := upd a.m_blockInfo (cell k j) Free } (cell k j)
            (buddy (cell k j))).1
          (addressOf
            (mergeLoop k { a with m_blockInfo := upd a.m_blockInfo (cell k j) Free } (cell k j)
              (buddy (cell k j))).1
            (mergeLoop k { a with m_blockInfo := upd a.m_blockInfo (cell k j) Free } (cell k j)
              (buddy (cell k j))).2.1)
          (mergeLoop k { a with m_blockInfo := upd a.m_blockInfo (cell k j) Free } (cell k j)
            (buddy (cell k j))).2.2 := by
      simp only [free, hidx, h0, if_false, levelOfIndex_cell hk5 hj]
    have hpend : PInv { a with m_blockInfo := upd a.m_blockInfo (cell k j) Free } L lists
        (live.erase (p, k)) (some (k, j)) :=
      h.unmark hp hj hpj (v := Free) (by decide) (h.geom.after_setBlockInfo _) rfl
        (h.heap.of_heap_eq rfl rfl)
    have hfr : st (upd a.m_blockInfo (cell k j) Free) k j = Free := by
      unfold st; rw [upd_same]
    obtain ⟨lists', t', j', q1, q2, q3, q4, q5⟩ := hpend.mergeLoop_touch k hk1 hfr _ rfl
    obtain ⟨htL, hj', _, _⟩ := q1.pend_ok _ _ rfl
    rw [q2, q3, q1.geom.addressOf_cell htL hj'] at hfree
    rw [hfree] at hz
    have hall : Cover L lists (some (k, j)) z := by
      refine touch_trans (C := Cover L lists (some (k, j))) q4 ?_ z hz
      intro y hy
      apply q5
      rcases q1.heap.insert_touch _ _ y hy with e | hm
      · subst e
        exact Or.inr ⟨t', j', rfl, le_refl _, by have := two_pow_pos (L - t'); omega⟩
      · exact cover_of_mem hm
    rcases hall with hc | ⟨t, j2, he, h1, h2⟩
    · exact Or.inl (Or.inl hc)
    · simp only [Option.some.injEq, Prod.mk.injEq] at he
      obtain ⟨e1, e2⟩ := he
      subst e1 e2
      right
      rw [hpj]
      exact ⟨h1, h2⟩

/-! ### Live blocks -/

theorem range_iff_slot {a : BuddyAllocator} {L : Nat} (hg : Geom a L) {k j : Nat}
    (hk : k ≤ L) (hj : j < 2 ^ k) (y : Nat) :
    (blockAddr L k j ≤ y ∧ y < blockAddr L k j + 16 * 2 ^ (L - k)) ↔
      y / 16 / 2 ^ (L - k) = j := by
  rw [← inBlock_cell_iff hg hk hj y]
  unfold InBlock
  rw [levelOfIndex_cell (hk.trans hg.le) hj, hg.addressOf_cell hk hj, hg.size k hk]

/-- A byte of a block linked in a free list is not a byte of a live block. -/
theorem PInv.cover_not_live {a : BuddyAllocator} {L : Nat} {lists : Nat → List Nat}
    {live : List (Nat × Nat)} (h : PInv a L lists live none) {z : Nat}
    (hc : Cover L lists none z) {q kq : Nat} (hq : (q, kq) ∈ live) :
    ¬ (q ≤ z ∧ z < q + 16 * 2 ^ (L - kq)) := by
  rcases hc with ⟨l, y, hy, h1, h2⟩ | ⟨_, _, he, _⟩
  · obtain ⟨hl, j, hj, hyj, hleaf, hnl, _⟩ := (h.mem_lists l y).mp hy
    obtain ⟨hk, j', hj', hqj, hleaf', _⟩ := h.live_ok q kq hq
    intro hin
    rw [hyj] at h1 h2
    rw [hqj] at hin
    have e1 := (range_iff_slot h.geom hl hj z).mp ⟨h1, h2⟩
    have e2 := (range_iff_slot h.geom hk hj' z).mp hin
    obtain ⟨e3, e4⟩ := h.closed.leaf_unique hl hk hj hj' hleaf hleaf' e1 e2
    subst e3 e4
    rw [← hyj] at hqj
    subst hqj
    exact hnl hq
  · cases he

/-- The invariant does not depend on the contents of the live blocks. -/
theorem PInv.with_mem {a : BuddyAllocator} {L : Nat} {lists : Nat → List Nat}
    {live : List (Nat × Nat)} (h : PInv a L lists live none) {m' : Nat → Header}
    (hm : ∀ x, (∀ q kq, (q, kq) ∈ live → ¬ (q ≤ x ∧ x < q + 16 * 2 ^ (L - kq))) →
      m' x = a.mem x) :
    PInv { a with mem := m' } L lists live none :=
  ⟨h.geom.of_fields_eq rfl rfl rfl rfl, h.closed, h.bottom,
    ⟨fun k => Seg.congr (fun x hx => hm x (fun _ _ hq => h.cover_not_live (cover_of_mem hx) hq))
        (h.heap.seg k),
      h.heap.nodup, h.heap.disj⟩,
    h.mem_lists, h.live_ok, h.live_nodup, h.pend_ok⟩

end BuddyAllocator

namespace BuddyAllocator
open BlockStatus


/-- For a region of at most 256 bytes, where the status array holds every cell
of the tree: in every reachable state, whatever the callers have stored in their
live blocks (`m'` is the memory with arbitrary contents there), a header that
`allocate(n)` changes lies in a block that is linked in a free list before the
call, and a header that the release of a live pointer `p` changes lies in the
block of `p` or in a block that is linked in a free list before the call; so
neither operation changes anything inside the block of a live allocation
(other than `p`).  The free lists themselves do not depend on the contents
of the live blocks. -/
theorem header_writes_upto256 (a : BuddyAllocator) (live : List (Nat × Nat))
    (h : Reachable a live) (hS : a.m_numBytes ≤ 256) (m' : Nat → Header)
    (hm : ∀ x, (∀ q kq, (q, kq) ∈ live → ¬ (q ≤ x ∧ x < q + a.m_levelSize kq)) →
      m' x = a.mem x) :
    (∀ l, freeListOf { a with mem := m' } l = freeListOf a l) ∧
    (∀ n x, (allocate { a with mem := m' } n).2.mem x ≠ m' x →
      ∃ l y, y ∈ freeListOf a l ∧ y ≤ x ∧ x < y + a.m_levelSize l) ∧
    (∀ n q kq x, (q, kq) ∈ live → q ≤ x → x < q + a.m_levelSize kq →
      (allocate { a with mem := m' } n).2.mem x = m' x) ∧
    (∀ p k x, (p, k) ∈ live → (free { a with mem := m' } (some p)).mem x ≠ m' x →
      (p ≤ x ∧ x < p + a.m_levelSize k) ∨
      ∃ l y, y ∈ freeListOf a l ∧ y ≤ x ∧ x < y + a.m_levelSize l) ∧
    (∀ p k q kq x, (p, k) ∈ live → (q, kq) ∈ live → (q, kq) ≠ (p, k) → q ≤ x →
      x < q + a.m_levelSize kq → (free { a with mem := m' } (some p)).mem x = m' x) := by
  obtain ⟨L, lists, hI⟩ := h.inv
  have hsz : ∀ q kq, (q, kq) ∈ live → a.m_levelSize kq = 16 * 2 ^ (L - kq) :=
    fun q kq hq => hI.geom.size kq (hI.live_ok q kq hq).1
  have hm2 : ∀ x, (∀ q kq, (q, kq) ∈ live → ¬ (q ≤ x ∧ x < q + 16 * 2 ^ (L - kq))) →
      m' x = a.mem x :=
    fun x hx => hm x (fun q kq hq => by rw [hsz q kq hq]; exact hx q kq hq)
  have hI' : PInv { a with mem := m' } L lists live none := hI.with_mem hm2
  have hfl : ∀ l, freeListOf a l = lists l := hI.freeListOf_eq
  have hfl' : ∀ l, freeListOf { a with mem := m' } l = lists l := hI'.freeListOf_eq
  have hcov : ∀ x, Cover L lists none x →
      ∃ l y, y ∈ freeListOf a l ∧ y ≤ x ∧ x < y + a.m_levelSize l := by
    intro x hc
    rcases hc with ⟨l, y, hy, h1, h2⟩ | ⟨_, _, he, _⟩
    · have hl := ((hI.mem_lists l y).mp hy).1
      exact ⟨l, y, by rw [hfl]; exact hy, h1, by rw [hI.geom.size l hl]; exact h2⟩
    · cases he
  refine ⟨fun l => by rw [hfl, hfl'], ?_, ?_, ?_, ?_⟩
  · intro n x hz
    exact hcov x (hI'.allocate_touch n x hz)
  · intro n q kq x hq h1 h2
    by_contra hne
    rw [hsz q kq hq] at h2
    exact hI'.cover_not_live (hI'.allocate_touch n x hne) hq ⟨h1, h2⟩
  · intro p k x hp hz
    rcases hI'.free_touch hp x hz with hc | hr
    · exact Or.inr (hcov x hc)
    · left
      rw [hsz p k hp]
      exact hr
  · intro p k q kq x hp hq hne h1 h2
    by_contra hz
    rcases hI'.free_touch hp x hz with hc | hr
    · rw [hsz q kq hq] at h2
      exact hI'.cover_not_live hc hq ⟨h1, h2⟩
    · rw [← hsz p k hp] at hr
      rcases hI.live_disjoint hq hp hne with hd | hd <;> omega

/-- The state of `main.cpp` after three allocations, the caller having
overwritten the first 16 bytes of the live block at offset 64. -/
theorem header_writes_upto256_witness :
    Reachable mainThree [(128, 2), (64, 2), (0, 3)] ∧
    (∀ x, (∀ q kq, (q, kq) ∈ [(128, 2), (64, 2), (0, 3)] →
        ¬ (q ≤ x ∧ x < q + mainThree.m_levelSize kq)) →
      upd mainThree.mem 64 { prev := some 7, next := some 9 } x = mainThree.mem x) ∧
    ((∀ l, freeListOf
        { mainThree with mem := upd mainThree.mem 64 { prev := some 7, next := some 9 } } l =
        freeListOf mainThree l) ∧
    (∀ n x, (allocate
        { mainThree with mem := upd mainThree.mem 64 { prev := some 7, next := some 9 } }
        n).2.mem x ≠ upd mainThree.mem 64 { prev := some 7, next := some 9 } x →
      ∃ l y, y ∈ freeListOf mainThree l ∧ y ≤ x ∧ x < y + mainThree.m_levelSize l) ∧
    (∀ n q kq x, (q, kq) ∈ [(128, 2), (64, 2), (0, 3)] → q ≤ x →
      x < q + mainThree.m_levelSize kq →
      (allocate
        { mainThree with mem := upd mainThree.mem 64 { prev := some 7, next := some 9 } }
        n).2.mem x = upd mainThree.mem 64 { prev := some 7, next := some 9 } x) ∧
    (∀ p k x, (p, k) ∈ [(128, 2), (64, 2), (0, 3)] →
      (free
        { mainThree with mem := upd mainThree.mem 64 { prev := some 7, next := some 9 } }
        (some p)).mem x ≠ upd mainThree.mem 64 { prev := some 7, next := some 9 } x →
      (p ≤ x ∧ x < p + mainThree.m_levelSize k) ∨
      ∃ l y, y ∈ freeListOf mainThree l ∧ y ≤ x ∧ x < y + mainThree.m_levelSize l) ∧
    (∀ p k q kq x, (p, k) ∈ [(128, 2), (64, 2), (0, 3)] →
      (q, kq) ∈ [(128, 2), (64, 2), (0, 3)] → (q, kq) ≠ (p, k) → q ≤ x →
      x < q + mainThree.m_levelSize kq →
      (free
        { mainThree with mem := upd mainThree.mem 64 { prev := some 7, next := some 9 } }
        (some p)).mem x = upd mainThree.mem 64 { prev := some 7, next := some 9 } x)) :=
  have hm : ∀ x, (∀ q kq, (q, kq) ∈ [(128, 2), (64, 2), (0, 3)] →
        ¬ (q ≤ x ∧ x < q + mainThree.m_levelSize kq)) →
      upd mainThree.mem 64 { prev := some 7, next := some 9 } x = mainThree.mem x :=
    fun x hx => upd_ne _ _ (fun e => hx 64 2 (by decide) (by rw [e]; decide))
  ⟨mainThree_reachable, hm, header_writes_upto256 _ _ mainThree_reachable (by decide) _ hm⟩

end BuddyAllocator

namespace BuddyAllocator
open BlockStatus


/-! ## Allocated cells are live -/

theorem LiveAlloc.step_allocate {bi bi' : Nat → BlockStatus} {L s k j x : Nat}
    {live : List (Nat × Nat)} (h : LiveAlloc bi L live) (hsk : s ≤ k) (hkL : k ≤ L)
    (hj : j < 2 ^ s) (hx : x = blockAddr L s j)
    (hsplit : ∀ e, e < k - s → st bi' (s + e) (j * 2 ^ e) = Split)
    (hframe : ∀ i, (∀ e, e ≤ k - s → i ≠ cell (s + e) (j * 2 ^ e)) → bi' i = bi i) :
    LiveAlloc bi' L ((x, k) :: live) := by
  have hb : ∀ e, j * 2 ^ e < 2 ^ (s + e) := fun e => by
    rw [pow_add]; exact Nat.mul_lt_mul_of_pos_right hj (by positivity)
  intro k0 j0 h1 hk0 hj0 hA
  by_cases hon : ∃ e, e ≤ k - s ∧ k0 = s + e ∧ j0 = j * 2 ^ e
  · obtain ⟨e, he, rfl, rfl⟩ := hon
    rcases Nat.lt_or_ge e (k - s) with hlt | hge
    · rw [hsplit e hlt] at hA; cases hA
    · have : e = k - s := by omega
      subst this
      have e1 : s + (k - s) = k := by omega
      rw [e1, blockAddr_descend L j hsk hkL, ← hx]
      exact List.mem_cons_self _ _
  · apply List.mem_cons_of_mem
    apply h k0 j0 h1 hk0 hj0
    unfold st at hA ⊢
    rw [← hframe]
    · exact hA
    · intro e he hc
      obtain ⟨q1, q2⟩ := cell_inj hj0 (hb e) hc
      exact hon ⟨e, he, q1, q2⟩

theorem LiveAlloc.step_free {bi bi' : Nat → BlockStatus} {L k j m p : Nat}
    {live : List (Nat × Nat)} (h : LiveAlloc bi L live) (hj : j < 2 ^ k) (hm : m ≤ k)
    (hp : p = blockAddr L k j)
    (hpath : ∀ e, e ≤ m → st bi' (k - e) (j / 2 ^ e) = Free)
    (hframe : ∀ i, (∀ e, e ≤ m → i ≠ cell (k - e) (j / 2 ^ e)) → bi' i = bi i) :
    LiveAlloc bi' L (live.erase (p, k)) := by
  intro k0 j0 h1 hk0 hj0 hA
  by_cases hon : ∃ e, e ≤ m ∧ k0 = k - e ∧ j0 = j / 2 ^ e
  · obtain ⟨e, he, rfl, rfl⟩ := hon
    rw [hpath e he] at hA; cases hA
  · have hold : st bi k0 j0 = Allocated := by
      unfold st at hA ⊢
      rw [← hframe]
      · exact hA
      · intro e he hc
        obtain ⟨q1, q2⟩ := cell_inj hj0 (div_pow_lt (by omega) hj) hc
        exact hon ⟨e, he, q1, q2⟩
    have hmem := h k0 j0 h1 hk0 hj0 hold
    refine (List.mem_erase_of_ne ?_).mpr hmem
    intro e
    simp only [Prod.mk.injEq] at e
    obtain ⟨e1, e2⟩ := e
    subst e2
    rw [hp] at e1
    exact hon ⟨0, Nat.zero_le _, by simp, by simpa using blockAddr_inj e1⟩

theorem LiveAlloc.step_free_root {bi : Nat → BlockStatus} {L p : Nat}
    {live : List (Nat × Nat)} (h : LiveAlloc bi L live) :
    LiveAlloc bi L (live.erase (p, 0)) := by
  intro k0 j0 h1 hk0 hj0 hA
  refine (List.mem_erase_of_ne ?_).mpr (h k0 j0 h1 hk0 hj0 hA)
  intro e
  simp only [Prod.mk.injEq] at e
  omega

/-- Every reachable state satisfies the representation invariant, has no
split block with two `Free` children, and has no cell below the root that is
`Allocated` without being live. -/
theorem Reachable.inv_full {a : BuddyAllocator} {live : List (Nat × Nat)}
    (h : Reachable a live) :
    ∃ L lists, PInv a L lists live none ∧ NoFreePair a.m_blockInfo L ∧
      LiveAlloc a.m_blockInfo L live := by
  induction h with
  | init R a hc =>
    obtain ⟨L, hL, _, rfl⟩ := construct_some hc
    refine ⟨L, _, build_inv hL, ?_, ?_⟩
    · intro k j _ _ hS
      have : st (build (16 * 2 ^ L)).m_blockInfo k j = Free := rfl
      rw [this] at hS
      cases hS
    · intro k j _ _ _ hA
      have : st (build (16 * 2 ^ L)).m_blockInfo k j = Free := rfl
      rw [this] at hA
      cases hA
  | alloc a a' live n p k _ hal hk ih =>
    obtain ⟨L, lists, hinv, hpair, hlive⟩ := ih
    rcases hinv.allocate_cases n with ⟨hnone, _⟩ | ⟨hn0, hnS, k', s, x, xs, hk', hkL, _, hs, hl⟩
    · rw [hnone] at hal; cases hal
    · rw [hk] at hk'
      simp only [Option.some.injEq] at hk'
      subst hk'
      obtain ⟨j, lists', hsk, hj, hxj, h1, h2, _, _, _, h3, h4, h5⟩ :=
        hinv.allocate_spec hn0 hnS hk hkL hs hl
      rw [hal] at h1 h2 h3 h4 h5
      simp only [Option.some.injEq] at h1
      subst h1
      exact ⟨L, lists', h2, hpair.after_allocate hsk hj h3 h4 h5,
        hlive.step_allocate hsk hkL hj hxj h3 h5⟩
  | allocNull a a' live n _ hal ih =>
    obtain ⟨L, lists, hinv, hpair, hlive⟩ := ih
    rcases hinv.allocate_cases n with ⟨hnone, _⟩ | ⟨hn0, hnS, k, s, x, xs, hk, hkL, _, hs, hl⟩
    · rw [hnone] at hal
      simp only [Prod.mk.injEq, true_and] at hal
      subst hal
      exact ⟨L, lists, hinv, hpair, hlive⟩
    · obtain ⟨j, lists', _, _, _, h1, _⟩ := hinv.allocate_spec hn0 hnS hk hkL hs hl
      rw [hal] at h1; cases h1
  | release a live p k _ hp ih =>
    obtain ⟨L, lists, hinv, hpair, hlive⟩ := ih
    rcases Nat.eq_zero_or_pos k with h0 | h1
    · subst h0
      obtain ⟨_, hfree, hI⟩ := hinv.free_root hp
      refine ⟨L, _, hI, ?_, ?_⟩
      · rw [hfree, insertToList_blockInfo]
        exact hpair
      · rw [hfree, insertToList_blockInfo]
        exact hlive.step_free_root
    · obtain ⟨j, m, lists', hj, hpj, _, hm, hI, _, hexit, hpath, hframe, _⟩ :=
        hinv.free_detail hp h1
      exact ⟨L, lists', hI, hpair.after_free hj hm hexit hpath hframe,
        hlive.step_free hj hm hpj hpath hframe⟩
  | releaseNull a live _ ih => exact ih

end BuddyAllocator

namespace BuddyAllocator
open BlockStatus


/-! ## Release undoes the preceding allocation -/

theorem mul_pow_div (j : Nat) {d e : Nat} (he : e ≤ d) : j * 2 ^ d / 2 ^ e = j * 2 ^ (d - e) := by
  have : d = (d - e) + e := by omega
  conv_lhs => rw [this, pow_add, ← mul_assoc]
  exact Nat.mul_div_cancel _ (by positivity)

theorem sib_mul_pow (j : Nat) {d : Nat} (hd : 1 ≤ d) : sib (j * 2 ^ d) = j * 2 ^ d + 1 := by
  obtain ⟨c, rfl⟩ : ∃ c, d = c + 1 := ⟨d - 1, by omega⟩
  unfold sib
  rw [if_pos]
  rw [pow_succ, ← mul_assoc]
  exact Nat.mul_mod_left _ _

/-- The level the search loop of `allocate` stops at only depends on which
free lists are empty. -/
theorem searchLevel_unique {a a' : BuddyAllocator} {k s s' : Nat}
    (he : ∀ l, a'.m_freeLists l = none ↔ a.m_freeLists l = none)
    (hs : searchLevel a k = some s) (hs' : searchLevel a' k = some s') : s' = s := by
  obtain ⟨h1, h2, h3⟩ := searchLevel_some k s hs
  obtain ⟨h1', h2', h3'⟩ := searchLevel_some k s' hs'
  rcases Nat.lt_trichotomy s' s with hlt | heq | hgt
  · exact absurd ((he s).mp (h3' s hlt h1)) h2
  · exact heq
  · exact absurd ((he s').mpr (h3 s' hgt h1')) h2'

/-- A successful `allocate` followed by the release of the pointer it
returned leaves the free lists as they were. -/
theorem PInv.undo {a : BuddyAllocator} {L : Nat} {lists : Nat → List Nat}
    {live : List (Nat × Nat)} (h : PInv a L lists live none)
    (hpair : NoFreePair a.m_blockInfo L) (hlive : LiveAlloc a.m_blockInfo L live)
    {n k s x : Nat} {xs : List Nat}
    (hn0 : n ≠ 0) (hnS : ¬ n > a.m_numBytes) (hk : findLevel a n = some k) (hkL : k ≤ L)
    (hs : searchLevel a k = some s) (hl : lists s = x :: xs) :
    (allocate a n).1 = some x ∧
    ∃ lists2, PInv (free (allocate a n).2 (some x)) L lists2 live none ∧
      ∀ l, lists2 l = lists l := by
  obtain ⟨j, lists1, hsk, hj, hxj, hres, hI1, l1, l2, l3, s1, s2, s3⟩ :=
    h.allocate_spec hn0 hnS hk hkL hs hl
  refine ⟨hres, ?_⟩
  have hmem : (x, k) ∈ (x, k) :: live := List.mem_cons_self _ _
  have herase : ((x, k) :: live).erase (x, k) = live := List.erase_cons_head _ _
  have hxmem : x ∈ lists s := by rw [hl]; exact List.mem_cons_self _ _
  obtain ⟨hsL, j0, hj0, hxj0, hleaf, hnl, _⟩ := (h.mem_lists s x).mp hxmem
  have : j0 = j := blockAddr_inj (hxj0.symm.trans hxj)
  subst this
  rcases Nat.eq_zero_or_pos k with hk0 | hk1
  · subst hk0
    have hs0 : s = 0 := by omega
    subst hs0
    obtain ⟨_, _, hI2⟩ := hI1.free_root hmem
    rw [herase] at hI2
    refine ⟨_, hI2, ?_⟩
    intro l
    by_cases hl0 : l = 0
    · subst hl0
      rw [upd_same, l1, hl]
    · rw [upd_ne _ _ hl0, l3 l (by omega)]
  · obtain ⟨j', m, lists2, hj', hpj', _, hm, hI2, b1, b2, _, _, e1, e2, e3⟩ :=
      hI1.free_detail hmem hk1
    rw [herase] at hI2
    have hjj : j' = j0 * 2 ^ (k - s) := by
      apply blockAddr_inj (L := L) (k := k)
      rw [← hpj', blockAddr_descend L j0 hsk hkL, ← hxj0]
    subst hjj
    -- statuses after the allocation, off the path
    have hb : ∀ e, j0 * 2 ^ e < 2 ^ (s + e) := fun e => by
      rw [pow_add]; exact Nat.mul_lt_mul_of_pos_right hj0 (by positivity)
    have hoff : ∀ k' c, c < 2 ^ k' → (∀ e, e ≤ k - s → ¬ (k' = s + e ∧ c = j0 * 2 ^ e)) →
        st (allocate a n).2.m_blockInfo k' c = st a.m_blockInfo k' c := by
      intro k' c hc hne
      unfold st
      apply s3
      intro e he hce
      obtain ⟨q1, q2⟩ := cell_inj hc (hb e) hce
      exact hne e he ⟨q1, q2⟩
    have hright : ∀ l, s < l → l ≤ k →
        st (allocate a n).2.m_blockInfo l (j0 * 2 ^ (l - s) + 1) = Free := by
      intro l hsl hlk
      have hc : j0 * 2 ^ (l - s) + 1 < 2 ^ l := by
        have h1 := hb (l - s)
        have e1 : s + (l - s) = l := by omega
        rw [e1] at h1
        obtain ⟨c, hc⟩ : ∃ c, l - s = c + 1 := ⟨l - s - 1, by omega⟩
        have e2 : j0 * 2 ^ (l - s) = 2 * (j0 * 2 ^ c) := by rw [hc, pow_succ]; ring
        have e3 : 2 ^ l = 2 * 2 ^ (l - 1) := by
          have : l = (l - 1) + 1 := by omega
          conv_lhs => rw [this, pow_succ]
          ring
        rw [e2, e3] at h1 ⊢
        omega
      rw [hoff l _ hc]
      · exact h.closed.right_of_spine hj0 hleaf.2 hsl (by omega)
      · intro e _ hce
        obtain ⟨q1, q2⟩ := hce
        have : l - s = e := by omega
        rw [this] at q2
        omega
    have hm1 : ¬ m < k - s := by
      intro hlt
      have := b2 (by omega)
      apply this
      rw [mul_pow_div j0 (by omega : m ≤ k - s), sib_mul_pow j0 (by omega : 1 ≤ k - s - m)]
      have := hright (k - m) (by omega) (by omega)
      have e1 : k - m - s = k - s - m := by omega
      rw [e1] at this
      exact this
    have hm2 : ¬ k - s < m := by
      intro hlt
      have hfb := b1 (k - s) hlt
      have e1 : k - (k - s) = s := by omega
      rw [e1, mul_pow_div j0 (le_refl _), Nat.sub_self, pow_zero, Nat.mul_one] at hfb
      obtain ⟨u, hu⟩ : ∃ u, s = u + 1 := ⟨s - 1, by omega⟩
      subst hu
      have hsb := sib_lt hj0
      rw [hoff _ _ hsb (fun e _ hce => sib_ne j0 (by
        have := hce.1
        have he0 : e = 0 := by omega
        subst he0
        simpa using hce.2))] at hfb
      have hps : st a.m_blockInfo u (j0 / 2) = Split := by
        rcases hleaf.1 with h0 | hps
        · omega
        · simpa using hps
      have hfj : st a.m_blockInfo (u + 1) j0 = Free := by
        cases hst : st a.m_blockInfo (u + 1) j0 with
        | Split => exact absurd hst hleaf.2
        | Free => rfl
        | Allocated =>
          have := hlive (u + 1) j0 (by omega) hsL hj0 hst
          rw [← hxj0] at this
          exact absurd this hnl
      apply hpair u (j0 / 2) (by omega) (half_lt hj0) hps
      rcases Nat.mod_two_eq_zero_or_one j0 with hmod | hmod
      · have c1 : 2 * (j0 / 2) = j0 := by omega
        have c2 : 2 * (j0 / 2) + 1 = sib j0 := by unfold sib; rw [if_pos hmod]; omega
        rw [c2, c1]
        exact ⟨hfj, hfb⟩
      · have c1 : 2 * (j0 / 2) + 1 = j0 := by omega
        have c2 : 2 * (j0 / 2) = sib j0 := by unfold sib; rw [if_neg (by omega)]; omega
        rw [c1, c2]
        exact ⟨hfb, hfj⟩
    have hmks : m = k - s := by omega
    subst hmks
    have e0 : k - (k - s) = s := by omega
    refine ⟨lists2, hI2, ?_⟩
    intro l
    by_cases hin : s ≤ l ∧ l ≤ k
    · rcases Nat.eq_or_lt_of_le hin.1 with hsl | hsl
      · subst hsl
        rw [e0, mul_pow_div j0 (le_refl _), Nat.sub_self, pow_zero, Nat.mul_one, l1,
          ← hxj0] at e2
        rw [e2, hl]
      · have := e1 (k - l) (by omega)
        have c1 : k - (k - l) = l := by omega
        have c2 : k - s - (k - l) = l - s := by omega
        rw [c1, mul_pow_div j0 (by omega : k - l ≤ k - s), c2,
          sib_mul_pow j0 (by omega : 1 ≤ l - s), l2 l hsl hin.2, List.erase_cons_head] at this
        exact this
    · rw [e3 l (by omega), l3 l hin]

/-- For a region of at most 256 bytes, where the status array holds every cell
of the tree: in every reachable state, if `allocate(n)` returns a non-null
pointer `p`, then after the release of `p` that follows immediately every
level's free list holds the same block addresses in the same order as before
the `allocate`, and a further `allocate(n)` returns the same address `p`. -/
theorem undo_law_upto256 (a : BuddyAllocator) (live : List (Nat × Nat))
    (h : Reachable a live) (hS : a.m_numBytes ≤ 256) (n p : Nat) (hp : (allocate a n).1 = some p) :
    (∀ l, freeListOf (free (allocate a n).2 (some p)) l = freeListOf a l) ∧
    (allocate (free (allocate a n).2 (some p)) n).1 = some p := by
  obtain ⟨L, lists, hI, hpair, hlive⟩ := h.inv_full
  rcases hI.allocate_cases n with ⟨hnone, _⟩ | ⟨hn0, hnS, k, s, x, xs, hk, hkL, _, hs, hl⟩
  · rw [hnone] at hp; cases hp
  · obtain ⟨hres, lists2, hI2, heq⟩ := hI.undo hpair hlive hn0 hnS hk hkL hs hl
    rw [hp] at hres
    simp only [Option.some.injEq] at hres
    subst hres
    refine ⟨fun l => by rw [hI2.freeListOf_eq, hI.freeListOf_eq, heq], ?_⟩
    have hnL : n ≤ 16 * 2 ^ L := by
      have := hI.geom.numBytes; omega
    have hk2 : findLevel (free (allocate a n).2 (some p)) n = some k := by
      rw [findLevel_congr hI.geom hI2.geom hnL, hk]
    have hnS2 : ¬ n > (free (allocate a n).2 (some p)).m_numBytes := by
      rw [hI2.geom.numBytes]; omega
    have hheads : ∀ l, (free (allocate a n).2 (some p)).m_freeLists l = none ↔
        a.m_freeLists l = none := by
      intro l
      rw [hI2.heap.head_none l, hI.heap.head_none l, heq]
    rcases hI2.allocate_cases n with ⟨_, hwhy⟩ | ⟨_, _, k', s', y, ys, hk', _, _, hs', hl'⟩
    · exfalso
      rcases hwhy with e | e | ⟨k', hk', hall⟩
      · exact hn0 e
      · exact hnS2 e
      · rw [hk2] at hk'
        simp only [Option.some.injEq] at hk'
        subst hk'
        have hsk := (searchLevel_some k s hs).1
        have := (hheads s).mp (hall s hsk)
        rw [hI.heap.head_none s, hl] at this
        cases this
    · rw [hk2] at hk'
      simp only [Option.some.injEq] at hk'
      subst hk'
      have := searchLevel_unique hheads hs hs'
      subst this
      rw [heq, hl] at hl'
      simp only [List.cons.injEq] at hl'
      obtain ⟨e1, e2⟩ := hl'
      subst e1 e2
      have hl2 : lists2 s' = p :: xs := by rw [heq, hl]
      obtain ⟨_, _, _, _, _, h3, _⟩ := hI2.allocate_spec hn0 hnS2 hk2 hkL hs' hl2
      exact h3

/-- A request of 16 bytes in the state of `main.cpp` after three
allocations: the free block of 32 bytes at offset 32 is split, and the
release merges the two halves again. -/
theorem undo_law_upto256_witness :
    Reachable mainThree [(128, 2), (64, 2), (0, 3)] ∧
    (allocate mainThree 16).1 = some 32 ∧
    ((∀ l, freeListOf (free (allocate mainThree 16).2 (some 32)) l = freeListOf mainThree l) ∧
    (allocate (free (allocate mainThree 16).2 (some 32)) 16).1 = some 32) :=
  ⟨mainThree_reachable, by decide,
    undo_law_upto256 _ _ mainThree_reachable (by decide) 16 32 (by decide)⟩

end BuddyAllocator

namespace BuddyAllocator
open BlockStatus


/-- A live pointer is never returned by `allocate`. -/
theorem PInv.allocate_not_live {a : BuddyAllocator} {L : Nat} {lists : Nat → List Nat}
    {live : List (Nat × Nat)} (h : PInv a L lists live none) {n p : Nat}
    (hp : (allocate a n).1 = some p) (k : Nat) : (p, k) ∉ live := by
  intro hmem
  rcases h.allocate_cases n with ⟨hnone, _⟩ | ⟨hn0, hnS, k', s, x, xs, hk', hkL, _, hs, hl⟩
  · rw [hnone] at hp; cases hp
  · obtain ⟨j, lists', _, _, _, h1, h2, _⟩ := h.allocate_spec hn0 hnS hk' hkL hs hl
    rw [hp] at h1
    simp only [Option.some.injEq] at h1
    subst h1
    have hnd := h2.live_nodup
    have hnot : (p, k') ∉ live := (List.nodup_cons.mp hnd).1
    have hne : (p, k') ≠ (p, k) := fun e => hnot (e ▸ hmem)
    have hkk := (h2.live_ok p k (List.mem_cons_of_mem _ hmem)).1
    have hd := h2.live_disjoint (List.mem_cons_self _ _) (List.mem_cons_of_mem _ hmem) hne
    have s1 := h2.geom.size k' hkL
    have s2 := h2.geom.size k hkk
    have p1 := two_pow_pos (L - k')
    have p2 := two_pow_pos (L - k)
    rcases hd with hd | hd <;> omega

/-- C3: in every state reachable from a freshly constructed allocator with
`S` in {16, 32, 64, 128, 256}, the byte ranges of the blocks whose cell is
`Free` or `Allocated` and whose ancestors are all `Split`, each taken at the
cell's own level, partition the region exactly.  The live allocations are
among these blocks (the cell of a live pointer is accounted and `Allocated`);
no pointer is live twice, at one level or at two, `allocate` never returns a
pointer that is live, and the blocks of any two entries of the list of live
allocations do not overlap. -/
theorem C3_partition (a : BuddyAllocator) (live : List (Nat × Nat)) (h : Reachable a live)
    (hS : a.m_numBytes ∈ [16, 32, 64, 128, 256]) :
    (∀ y, y < a.m_numBytes → ∃! i, Accounted a i ∧ InBlock a i y) ∧
    (∀ i y, Accounted a i → InBlock a i y → y < a.m_numBytes) ∧
    (∀ p k q k', (p, k) ∈ live → (q, k') ∈ live → (p, k) ≠ (q, k') →
      p + a.m_levelSize k ≤ q ∨ q + a.m_levelSize k' ≤ p) ∧
    live.Nodup ∧
    (∀ p k k', (p, k) ∈ live → (p, k') ∈ live → k = k') ∧
    live.Pairwise (fun x y =>
      x.1 + a.m_levelSize x.2 ≤ y.1 ∨ y.1 + a.m_levelSize y.2 ≤ x.1) ∧
    (∀ n p, (allocate a n).1 = some p → ∀ k, (p, k) ∉ live) ∧
    (∀ p k, (p, k) ∈ live →
      Accounted a (indexOfLevel a p k) ∧ a.m_blockInfo (indexOfLevel a p k) = Allocated ∧
      addressOf a (indexOfLevel a p k) = p ∧ levelOfIndex (indexOfLevel a p k) = k) := by
  obtain ⟨L, lists, hinv⟩ := h.inv
  refine ⟨hinv.partition.1, hinv.partition.2,
    fun p k q k' hp hq hne => hinv.live_disjoint hp hq hne, hinv.live_nodup, ?_, ?_,
    fun n p hp k => hinv.allocate_not_live hp k, ?_⟩
  · intro p k k' hp hq
    by_contra hne
    have hd := hinv.live_disjoint hp hq (fun e => hne (Prod.mk.inj e).2)
    have s1 := hinv.geom.size k (hinv.live_ok p k hp).1
    have s2 := hinv.geom.size k' (hinv.live_ok p k' hq).1
    have p1 := two_pow_pos (L - k)
    have p2 := two_pow_pos (L - k')
    rcases hd with hd | hd <;> omega
  · refine List.Pairwise.imp_of_mem ?_ hinv.live_nodup
    intro x y hx hy hne
    exact hinv.live_disjoint hx hy hne
  · intro p k hp
    obtain ⟨hk, j, hj, hpj, hleaf, hst⟩ := hinv.live_ok p k hp
    rw [hpj, hinv.geom.indexOfLevel_self j hk]
    exact ⟨(accounted_cell_iff hinv.geom hinv.closed hk hj).mpr hleaf, hst,
      hinv.geom.addressOf_cell hk hj, levelOfIndex_cell (hk.trans hinv.geom.le) hj⟩

/-- The state of `main.cpp` after three allocations, with three live blocks in
a region of 256 bytes. -/
theorem C3_partition_witness :
    Reachable mainThree [(128, 2), (64, 2), (0, 3)] ∧
    mainThree.m_numBytes ∈ [16, 32, 64, 128, 256] ∧
    ((∀ y, y < mainThree.m_numBytes → ∃! i, Accounted mainThree i ∧ InBlock mainThree i y) ∧
    (∀ i y, Accounted mainThree i → InBlock mainThree i y → y < mainThree.m_numBytes) ∧
    (∀ p k q k', (p, k) ∈ [(128, 2), (64, 2), (0, 3)] → (q, k') ∈ [(128, 2), (64, 2), (0, 3)] →
      (p, k) ≠ (q, k') →
      p + mainThree.m_levelSize k ≤ q ∨ q + mainThree.m_levelSize k' ≤ p) ∧
    [(128, 2), (64, 2), (0, 3)].Nodup ∧
    (∀ p k k', (p, k) ∈ [(128, 2), (64, 2), (0, 3)] → (p, k') ∈ [(128, 2), (64, 2), (0, 3)] →
      k = k') ∧
    [(128, 2), (64, 2), (0, 3)].Pairwise (fun x y =>
      x.1 + mainThree.m_levelSize x.2 ≤ y.1 ∨ y.1 + mainThree.m_levelSize y.2 ≤ x.1) ∧
    (∀ n p, (allocate mainThree n).1 = some p → ∀ k, (p, k) ∉ [(128, 2), (64, 2), (0, 3)]) ∧
    (∀ p k, (p, k) ∈ [(128, 2), (64, 2), (0, 3)] →
      Accounted mainThree (indexOfLevel mainThree p k) ∧
      mainThree.m_blockInfo (indexOfLevel mainThree p k) = Allocated ∧
      addressOf mainThree (indexOfLevel mainThree p k) = p ∧
      levelOfIndex (indexOfLevel mainThree p k) = k)) :=
  ⟨mainThree_reachable, by decide, C3_partition _ _ mainThree_reachable (by decide)⟩

end BuddyAllocator

namespace BuddyAllocator
open BlockStatus


/-! ## The status array and regions of 512 bytes

`m_blockInfo` has `MAX_NUMBER_OF_BLOCKS = 31` entries.  With a region of at
most 256 bytes the tree has at most 31 cells and every status access of the
operations is inside the array.  The constructor also accepts a region of 512
bytes, whose tree has 63 cells: an operation that reaches level 5 then reads
or writes a status cell beyond the end of the array, which is undefined
behaviour in the program.  The model, whose arrays are total maps, does not
describe what the program does after such an access; the theorems of this
section evaluate the operations up to it. -/

/-- With a region of at most 256 bytes every cell of the tree is an entry of
`m_blockInfo`. -/
theorem Geom.tree_fits {a : BuddyAllocator} {L : Nat} (hg : Geom a L)
    (hS : a.m_numBytes ≤ 256) :
    L ≤ 4 ∧ 2 ^ (L + 1) - 1 ≤ MAX_NUMBER_OF_BLOCKS ∧
      ∀ k j, k ≤ L → j < 2 ^ k → cell k j < MAX_NUMBER_OF_BLOCKS := by
  have hL : L ≤ 4 := by
    rw [hg.numBytes] at hS
    by_contra hc
    have : 2 ^ 5 ≤ 2 ^ L := Nat.pow_le_pow_right (by norm_num) (by omega)
    omega
  have hM : MAX_NUMBER_OF_BLOCKS = 31 := by decide
  have h1 : 2 ^ (L + 1) ≤ 2 ^ 5 := Nat.pow_le_pow_right (by norm_num) (by omega)
  refine ⟨hL, by rw [hM]; omega, ?_⟩
  intro k j hk hj
  have := cell_lt_total hk hj
  rw [hM]; omega

/-- C1 at its failing input, `BuddyAllocator a(512); a.allocate(16);
a.allocate(16); a.allocate(16)`: a request of 16 bytes has the required level
5 (`levelSize[5] = 16`); the first call is served from the root and returns
the region base.  Its free-list writes leave one block on each of the lists 1
to 5; its last split, the split of the cell 15, writes the status of the cell
`right 15 = 32`, while the array ends with the cell 30. -/
theorem C1_lists_after_overrun :
    construct 512 = some (build 512) ∧
    findLevel (build 512) 16 = some 5 ∧
    (build 512).m_levelSize 5 = 16 ∧
    (allocate (build 512) 16).1 = some 0 ∧
    (allocate (build 512) 16).2.m_blockInfo 15 = Split ∧
    right 15 = 32 ∧ MAX_NUMBER_OF_BLOCKS = 31 ∧
    freeListOf (allocate (build 512) 16).2 1 = [256] ∧
    freeListOf (allocate (build 512) 16).2 2 = [128] ∧
    freeListOf (allocate (build 512) 16).2 3 = [64] ∧
    freeListOf (allocate (build 512) 16).2 4 = [32] ∧
    freeListOf (allocate (build 512) 16).2 5 = [16] :=
  ⟨rfl, by decide, by decide, by decide, by decide, by decide, by decide, by decide,
    by decide, by decide, by decide, by decide⟩

/-- C2 at its failing input, `BuddyAllocator a(512); p = a.allocate(16)`: the
required level is 5 and `p` is the region base, so the cell `treeIndex(p, 5)`
that the claim says is `Allocated` after the call is the cell 31, one past
the last entry of `m_blockInfo`. -/
theorem C2_cell_outside_array :
    construct 512 = some (build 512) ∧
    findLevel (build 512) 16 = some 5 ∧
    (allocate (build 512) 16).1 = some 0 ∧
    indexOfLevel (build 512) 0 5 = 31 ∧
    MAX_NUMBER_OF_BLOCKS = 31 ∧
    ¬ (indexOfLevel (build 512) 0 5 < MAX_NUMBER_OF_BLOCKS) :=
  ⟨rfl, by decide, by decide, by decide, by decide, by decide⟩

/-- C6 at its failing input, `BuddyAllocator a(512); p = a.allocate(16);
a.free(p); a.allocate(16)`: the first call is a request of level 5, a block
of 16 bytes, served from the root; its last split is the split of the cell
15, which writes the status of the cell `right 15 = 32`, beyond the array.
(A block of level 1, which the second call returns in the program, has 256
bytes.) -/
theorem C6_first_call_overrun :
    findLevel (build 512) 16 = some 5 ∧
    (build 512).m_levelSize 5 = 16 ∧ (build 512).m_levelSize 1 = 256 ∧
    searchLevel (build 512) 5 = some 0 ∧
    (allocate (build 512) 16).1 = some 0 ∧
    (allocate (build 512) 16).2.m_blockInfo 15 = Split ∧
    right 15 = 32 ∧ ¬ (32 < MAX_NUMBER_OF_BLOCKS) :=
  ⟨by decide, by decide, by decide, by decide, by decide, by decide, by decide, by decide⟩

/-- C9 at its failing input, `BuddyAllocator a(512); p = a.allocate(16);
a.free(p)`: `p` is live at level 5.  The scan of `levelOf(p)` starts at
`m_maxLevel`, which is 5 after construction, and reads for `n = 5` the cell
`treeIndex(p, 4) = 15`, which the call has set to `Split`; but the split of
the cell 15 has also written the status of the cell `right 15 = 32`, beyond
the array. -/
theorem C9_scan_after_overrun :
    (build 512).m_maxLevel = 5 ∧
    findLevel (build 512) 16 = some 5 ∧
    (allocate (build 512) 16).1 = some 0 ∧
    indexOfLevel (build 512) 0 4 = 15 ∧
    (allocate (build 512) 16).2.m_blockInfo 15 = Split ∧
    right 15 = 32 ∧ MAX_NUMBER_OF_BLOCKS = 31 :=
  ⟨by decide, by decide, by decide, by decide, by decide, by decide, by decide⟩

/-- C10 at its failing input, `BuddyAllocator a(512); a.allocate(33);
a.allocate(1)`: in the second call `k = 5`, `s = 3` and `b` is the block at
offset 64, the head of list 3; list 0 is empty before the call (its head is
null) and is one of the lists that the claim says are unchanged.  The call
splits the cells 8 and 17, and the right half of level 5, at `b + 16 = 80`,
has the cell `right 17 = 36`, which is not an entry of `m_blockInfo`; the
cell of `b` at level 5 is the cell 35. -/
theorem C10_cells_outside_array :
    (allocate (build 512) 33).1 = some 0 ∧
    findLevel (allocate (build 512) 33).2 1 = some 5 ∧
    searchLevel (allocate (build 512) 33).2 5 = some 3 ∧
    freeListOf (allocate (build 512) 33).2 3 = [64] ∧
    (allocate (build 512) 33).2.m_freeLists 0 = none ∧
    (allocate (allocate (build 512) 33).2 1).1 = some 64 ∧
    (build 512).m_levelSize 5 = 16 ∧
    indexOfLevel (build 512) (64 + 16) 5 = 36 ∧
    indexOfLevel (build 512) 64 5 = 35 ∧
    indexOfLevel (build 512) 64 4 = 17 ∧ right 17 = 36 ∧ left 17 = 35 ∧
    MAX_NUMBER_OF_BLOCKS = 31 :=
  ⟨by decide, by decide, by decide, by decide, by decide, by decide, by decide, by decide,
    by decide, by decide, by decide, by decide, by decide⟩

/-- C11 at its failing input, `BuddyAllocator a(512); p = a.allocate(16);
a.free(p)`: the block of `p` has the tree index 31 at level 5; the cell the
release has to set to `Free` is the cell 31 and the buddy whose status the
merge loop has to read first is the cell 32, both outside `m_blockInfo`. -/
theorem C11_buddy_outside_array :
    findLevel (build 512) 16 = some 5 ∧
    (allocate (build 512) 16).1 = some 0 ∧
    indexOfLevel (build 512) 0 5 = 31 ∧
    levelOfIndex 31 = 5 ∧ buddy 31 = 32 ∧ parent 31 = 15 ∧
    MAX_NUMBER_OF_BLOCKS = 31 :=
  ⟨by decide, by decide, by decide, by decide, by decide, by decide, by decide⟩

/-- C16 at its failing input, `BuddyAllocator a(512); p = a.allocate(16);
a.free(p)`: the tree indices of the claim are `0 .. 2^(L_max+1) - 2 = 62`,
the array has the indices `0 .. 30`.  The allocation sets the cells 0, 1, 3,
7 and 15 to `Split`, all inside the array, and writes the cell 32. -/
theorem C16_index_range :
    (build 512).m_maxLevel = 5 ∧
    2 ^ ((build 512).m_maxLevel + 1) - 2 = 62 ∧
    MAX_NUMBER_OF_BLOCKS = 31 ∧
    (allocate (build 512) 16).2.m_blockInfo 0 = Split ∧
    (allocate (build 512) 16).2.m_blockInfo 1 = Split ∧
    (allocate (build 512) 16).2.m_blockInfo 3 = Split ∧
    (allocate (build 512) 16).2.m_blockInfo 7 = Split ∧
    (allocate (build 512) 16).2.m_blockInfo 15 = Split ∧
    right 15 = 32 :=
  ⟨by decide, by decide, by decide, by decide, by decide, by decide, by decide, by decide,
    by decide⟩

/-- C17 at its failing input, `BuddyAllocator a(512); p = a.allocate(32);
q = a.allocate(128); a.free(p); r = a.allocate(16); a.free(q); a.free(r)`:
the first three calls stay inside the status array; they leave the cells 0
and 1 `Split`, the cell 4 (the block of `q`, at level 2) `Allocated`, and the
blocks at the offsets 256 and 0 on the lists 1 and 2.  `r = a.allocate(16)`
returns offset 0, and its split of the cell 15 writes the status of the cell
`right 15 = 32`, beyond the array.  The cell of `q` at level 1, which the
release of `q` uses once `m_maxLevel` reads 1, is the cell 1. -/
theorem C17_root_linked_twice :
    (allocate (build 512) 32).1 = some 0 ∧
    (allocate (allocate (build 512) 32).2 128).1 = some 128 ∧
    (free (allocate (allocate (build 512) 32).2 128).2 (some 0)).m_blockInfo 0 = Split ∧
    (free (allocate (allocate (build 512) 32).2 128).2 (some 0)).m_blockInfo 1 = Split ∧
    (free (allocate (allocate (build 512) 32).2 128).2 (some 0)).m_blockInfo 4 = Allocated ∧
    freeListOf (free (allocate (allocate (build 512) 32).2 128).2 (some 0)) 0 = [] ∧
    freeListOf (free (allocate (allocate (build 512) 32).2 128).2 (some 0)) 1 = [256] ∧
    freeListOf (free (allocate (allocate (build 512) 32).2 128).2 (some 0)) 2 = [0] ∧
    (allocate (free (allocate (allocate (build 512) 32).2 128).2 (some 0)) 16).1 = some 0 ∧
    right 15 = 32 ∧ ¬ (32 < MAX_NUMBER_OF_BLOCKS) ∧
    indexOfLevel (build 512) 128 2 = 4 ∧ indexOfLevel (build 512) 128 1 = 1 ∧
    buddy 1 = 2 ∧ parent 1 = 0 :=
  ⟨by decide, by decide, by decide, by decide, by decide, by decide, by decide, by decide,
    by decide, by decide, by decide, by decide, by decide, by decide, by decide⟩

/-- C18 at its failing input, `BuddyAllocator a(512); a.allocate(33);
a.allocate(1)`: before the second call free list 0 is empty (its head is
null) and list 3 holds the block at offset 64; the second call takes that
block and its split of the cell 17 writes the status of the cell
`right 17 = 36`, 6 cells behind the end of the array. -/
theorem C18_write_behind_array :
    (allocate (build 512) 33).2.m_freeLists 0 = none ∧
    freeListOf (allocate (build 512) 33).2 0 = [] ∧
    freeListOf (allocate (build 512) 33).2 3 = [64] ∧
    searchLevel (allocate (build 512) 33).2 5 = some 3 ∧
    (allocate (allocate (build 512) 33).2 1).2.m_blockInfo 17 = Split ∧
    right 17 = 36 ∧ 36 = MAX_NUMBER_OF_BLOCKS + 5 :=
  ⟨by decide, by decide, by decide, by decide, by decide, by decide, by decide⟩

/-- C19 at its failing input, `BuddyAllocator a(512); p = a.allocate(32);
q = a.allocate(128); a.free(p); r = a.allocate(16); a.free(q)`: the first
three calls stay inside the status array and leave the block at offset 0 on
list 2; `r = a.allocate(16)` returns offset 0, and its split of the cell 15
writes the status of the cell `right 15 = 32`, beyond the array, just before
`a.free(q)`. -/
theorem C19_overrun_before_release :
    (allocate (build 512) 32).1 = some 0 ∧
    (allocate (allocate (build 512) 32).2 128).1 = some 128 ∧
    freeListOf (free (allocate (allocate (build 512) 32).2 128).2 (some 0)) 2 = [0] ∧
    findLevel (free (allocate (allocate (build 512) 32).2 128).2 (some 0)) 16 = some 5 ∧
    (allocate (free (allocate (allocate (build 512) 32).2 128).2 (some 0)) 16).1 = some 0 ∧
    (allocate (free (allocate (allocate (build 512) 32).2 128).2 (some 0)) 16).2.m_blockInfo 15 =
      Split ∧
    right 15 = 32 ∧ MAX_NUMBER_OF_BLOCKS = 31 :=
  ⟨by decide, by decide, by decide, by decide, by decide, by decide, by decide, by decide⟩

/-- C20 at its failing input, `BuddyAllocator a(512); p = a.allocate(16);
a.free(p)`: the allocation sets the cells 3, 7 and 15 to `Split` (their
parents are the cells 1, 3 and 7) and writes the status of the cell
`right 15 = 32`, beyond the array; the cell of `p` at level 1, from which the
release starts once `m_maxLevel` reads 1, is the cell 1. -/
theorem C20_stale_split_cells :
    (allocate (build 512) 16).2.m_blockInfo 3 = Split ∧
    (allocate (build 512) 16).2.m_blockInfo 7 = Split ∧
    (allocate (build 512) 16).2.m_blockInfo 15 = Split ∧
    parent 3 = 1 ∧ parent 7 = 3 ∧ parent 15 = 7 ∧
    indexOfLevel (build 512) 0 1 = 1 ∧
    right 15 = 32 ∧ ¬ (32 < MAX_NUMBER_OF_BLOCKS) :=
  ⟨by decide, by decide, by decide, by decide, by decide, by decide, by decide, by decide,
    by decide⟩

/-- C21 at its failing input, `BuddyAllocator a(512); p = a.allocate(16);
a.free(p); a.allocate(16)`: before the first call free list 0 holds the root
and the lists 1 to 5 are empty; the call is a request of level 5, and its
split of the cell 15 writes the status of the cell `right 15 = 32`, beyond
the array. -/
theorem C21_lists_before_overrun :
    freeListOf (build 512) 0 = [0] ∧
    freeListOf (build 512) 1 = [] ∧ freeListOf (build 512) 2 = [] ∧
    freeListOf (build 512) 3 = [] ∧ freeListOf (build 512) 4 = [] ∧
    freeListOf (build 512) 5 = [] ∧
    findLevel (build 512) 16 = some 5 ∧
    (allocate (build 512) 16).1 = some 0 ∧
    (allocate (build 512) 16).2.m_blockInfo 15 = Split ∧
    right 15 = 32 ∧ ¬ (32 < MAX_NUMBER_OF_BLOCKS) :=
  ⟨by decide, by decide, by decide, by decide, by decide, by decide, by decide, by decide,
    by decide, by decide, by decide⟩

end BuddyAllocator
